import Mathlib

/-!
Routing table, iterator, peer IDs, message codec and top-k stream of `general_toolbox`.

A shallow embedding of the Kademlia routing table in `p2p_net/libs/kademlia/table.go`, of
the lookup iterator in `p2p_net/libs/kademlia/iterator.go`, of the peer ID and its
serialization in `p2p_net/src/libs/cryptographic/id.go`, of the typed message codec in
`p2p_net/src/libs/common/codec.go` and of the stream in `metrics/topk.go`, followed by the
theorems that settle the statements of the specification about them.

Conventions of the embedding.

* A Go byte is a `Fin 256`; a `[]byte` is a `List Byte`; a `uint16` is a `Fin 65536` whose
  arithmetic is written out modulo `2^16`; a `PublicKey` is a byte list of length
  `SizePublicKey` (the Go array type `[SizePublicKey]byte`).
* The bucket array `[SizePublicKey*8][]ID` is a `List (List ID)`; every table built by
  `NewTable` and the mutators has exactly `SizePublicKey*8` buckets (`Reachable.inv`),
  and every index the code computes is in range (`getBucketIndex_lt`), so no indexing
  of the embedding ever leaves the array.
* A method with a pointer receiver that mutates its receiver returns the new state next to
  its Go results; a `panic` is an `Except.error`.
* A Go map of the codec is nil or a function into `Option`.
* The read/write locks have no effect on the sequential behaviour and are left out.
* The goroutines of one `Iterator.Find` are a transition system: `step` takes one atomic
  step of one goroutine, `run` a schedule of them, and the reply of the transport to a
  request is part of the step in which the request returns.
* A Go pointer `*Element` is an index into a list of allocated objects.
-/

namespace Kademlia

/-! ## Identities (`cryptographic`) -/

/-- A Go `byte`. -/
abbrev Byte := Fin 256

/-- Modelled from the spec: the constant `cryptographic.SizePublicKey`, declared outside the
files at hand; the spec fixes `SizePublicKey = 32` (Ed25519). -/
abbrev SizePublicKey : Nat := 32

/-- Modelled from the spec: the constant `BucketSize` of package `kademlia`, declared outside
the files at hand; the spec fixes `BucketSize = 16`. -/
abbrev BucketSize : Nat := 16

/-- Modelled from the spec: the type `cryptographic.PublicKey`, a fixed-width byte array of
size `SizePublicKey` that supports equality. -/
structure PublicKey where
  bytes : List Byte
  size_eq : bytes.length = SizePublicKey
  deriving DecidableEq

/-- Modelled from the spec: `cryptographic.ZeroPublicKey`, the distinguished zero value of
`PublicKey` (all bytes zero). -/
def ZeroPublicKey : PublicKey := ⟨List.replicate SizePublicKey 0, List.length_replicate _ _⟩

/-- The struct `cryptographic.ID` of `id.go`: public key, host (`net.IP`, a byte slice),
16-bit port and the cached `host:port` address. -/
structure ID where
  PubKey : PublicKey
  Host : List Byte
  Port : Fin 65536
  Address : String
  deriving DecidableEq

/-- The Go zero value `cryptographic.ID{}`. -/
def zeroID : ID := ⟨ZeroPublicKey, [], 0, ""⟩

/-- The Go values of type `error` that the routing table and the codecs of this repository
hand out. -/
inductive Err where
  /-- `fmt.Errorf("cannot insert id %x into routing table: %v", pk, ErrBucketFull)` -/
  | bucketFull (pk : PublicKey)
  /-- `io.ErrUnexpectedEOF` -/
  | unexpectedEOF
  /-- The codec's "opcode not registered" errors. -/
  | opcodeNotRegistered
  /-- Any other error value, by its message. -/
  | other (msg : String)
  deriving DecidableEq

/-! ## Distance helpers of package `kademlia` -/

/-- Modelled from the spec: the byte operation of the helper `XOR`, the Go expression
`a ^ b` on two bytes. -/
def xorByte (a b : Byte) : Byte := ⟨(a.val ^^^ b.val) % 256, Nat.mod_lt _ (by decide)⟩

/-- Modelled from the spec: the helper `XOR` of package `kademlia`, declared outside the
files at hand: "XOR is byte-wise over the public-key byte representation". -/
def XOR (a b : List Byte) : List Byte := List.zipWith xorByte a b

/-- Modelled from the spec: the byte step of the helper `PrefixLen`, the number of leading
zero bits of one byte (`bits.LeadingZeros8`). -/
def LeadingZeros8 (b : Byte) : Nat :=
  if b.val < 1 then 8
  else if b.val < 2 then 7
  else if b.val < 4 then 6
  else if b.val < 8 then 5
  else if b.val < 16 then 4
  else if b.val < 32 then 3
  else if b.val < 64 then 2
  else if b.val < 128 then 1
  else 0

/-- Modelled from the spec: the helper `PrefixLen` of package `kademlia`, declared outside
the files at hand: "`PrefixLen(d)` = count of leading zero bits in `d`" (most significant
byte first). -/
def PrefixLen : List Byte → Nat
  | [] => 0
  | b :: rest => if b.val = 0 then 8 + PrefixLen rest else LeadingZeros8 b

/-- Modelled from the spec: the comparison of the helper `SortByDistance`, "lexicographic
comparison of the XOR result from most-significant byte to least" (`bytes.Compare(a, b) == -1`):
`a` comes strictly before `b`. -/
def bytesLess : List Byte → List Byte → Bool
  | [], [] => false
  | [], _ :: _ => true
  | _ :: _, [] => false
  | a :: as, b :: bs =>
    if a.val < b.val then true else if b.val < a.val then false else bytesLess as bs

/-- The statement "`a` is strictly closer to `target` than `b` by XOR distance". -/
def closer (target : PublicKey) (a b : ID) : Bool :=
  bytesLess (XOR a.PubKey.bytes target.bytes) (XOR b.PubKey.bytes target.bytes)

/-- Modelled from the spec: the insertion step of the helper `SortByDistance`: one ID is put
into a list sorted by distance to `target`, after every entry that is not farther (so the
sort is stable). -/
def insertByDistance (target : PublicKey) (x : ID) : List ID → List ID
  | [] => [x]
  | y :: ys => if closer target x y then x :: y :: ys else y :: insertByDistance target x ys

/-- Modelled from the spec: the helper `SortByDistance` of package `kademlia`, declared
outside the files at hand: "Sort the collected IDs by XOR distance to `target` ascending";
"sort order is lexicographic comparison of the XOR result from most-significant byte to
least; ties break by unspecified stable order". -/
def SortByDistance (target : PublicKey) (ids : List ID) : List ID :=
  ids.foldr (insertByDistance target) []

/-! ## The routing table (`table.go`) -/

/-- The struct `Table`: the bucket array `entries`, the ID `self` the distance is taken
from, and the running count `size` (a Go `int`). -/
structure Table where
  entries : List (List ID)
  self : ID
  size : Int
  deriving DecidableEq

/-- The Go expression `t.entries[i]`. -/
def Table.bucket (t : Table) (i : Nat) : List ID := t.entries.getD i []

/-- The method `Table.getBucketIndex`. -/
def getBucketIndex (t : Table) (target : PublicKey) : Nat :=
  let l := PrefixLen (XOR target.bytes t.self.PubKey.bytes)
  if l = SizePublicKey * 8 then l - 1 else l

/-- The method `Table.Bucket`. -/
def Bucket (t : Table) (target : PublicKey) : List ID :=
  t.bucket (getBucketIndex t target)

/-- The Go loop `for i, id := range bucket { if p(id) { return ... } }`: the first index `i`
and entry `id` of the bucket at which the test succeeds, `none` when the loop runs to its
end. -/
def rangeFind (p : ID → Bool) : List ID → Option (Nat × ID)
  | [] => none
  | id :: rest =>
    if p id then some (0, id) else (rangeFind p rest).map (fun r => (r.1 + 1, r.2))

/-- The method `Table.Update`; the result is the table afterwards, the boolean and the
error (`none` for `nil`). -/
def Update (t : Table) (target : ID) : Table × Bool × Option Err :=
  if target.PubKey = ZeroPublicKey then (t, false, none)
  else
    let idx := getBucketIndex t target.PubKey
    match rangeFind (fun id => id.PubKey = target.PubKey) (t.bucket idx) with
    | some (i, _) =>
      ({ t with entries :=
          t.entries.set idx ([target] ++ (t.bucket idx).take i ++ (t.bucket idx).drop (i + 1)) },
        false, none)
    | none =>
      if (t.bucket idx).length < BucketSize then
        ({ t with entries := t.entries.set idx ([target] ++ t.bucket idx), size := t.size + 1 },
          true, none)
      else (t, false, some (Err.bucketFull target.PubKey))

/-- The function `NewTable`: the table with `SizePublicKey*8` empty buckets, updated with
`self`; `Except.error` stands for the `panic(err)` of the source. -/
def NewTable (self : ID) : Except Err Table :=
  let table : Table := { entries := List.replicate (SizePublicKey * 8) [], self := self, size := 0 }
  match Update table self with
  | (table, _, none) => Except.ok table
  | (_, _, some err) => Except.error err

/-- The method `Table.Self`. -/
def Self (t : Table) : ID := t.self

/-- The method `Table.Recorded`. -/
def Recorded (t : Table) (target : PublicKey) : Bool :=
  (rangeFind (fun id => id.PubKey = target) (t.bucket (getBucketIndex t target))).isSome

/-- The method `Table.Delete`; the result is the table afterwards, the ID and the
found-flag. -/
def Delete (t : Table) (target : PublicKey) : Table × ID × Bool :=
  let idx := getBucketIndex t target
  match rangeFind (fun id => id.PubKey = target) (t.bucket idx) with
  | some (i, id) =>
    ({ t with entries := t.entries.set idx ((t.bucket idx).take i ++ (t.bucket idx).drop (i + 1)),
              size := t.size - 1 }, id, true)
  | none => (t, zeroID, false)

/-- The nested loops of `DeleteByAddress`: the first bucket index `i`, position `j` and
entry `id` (buckets in index order, entries in bucket order) at which the test succeeds. -/
def rangeFindBuckets (p : ID → Bool) : List (List ID) → Option (Nat × Nat × ID)
  | [] => none
  | bucket :: rest =>
    match rangeFind p bucket with
    | some (j, id) => some (0, j, id)
    | none => (rangeFindBuckets p rest).map (fun r => (r.1 + 1, r.2))

/-- The method `Table.DeleteByAddress`; the result is the table afterwards, the ID and the
found-flag. -/
def DeleteByAddress (t : Table) (target : String) : Table × ID × Bool :=
  match rangeFindBuckets (fun id => id.Address = target) t.entries with
  | some (i, j, id) =>
    ({ t with entries := t.entries.set i ((t.bucket i).take j ++ (t.bucket i).drop (j + 1)),
              size := t.size - 1 }, id, true)
  | none => (t, zeroID, false)

/-- The closure `f` of `FindClosest`: append to `closest` the entries of `bucket` whose
public key is not `target`. -/
def collect (target : PublicKey) (closest bucket : List ID) : List ID :=
  closest ++ bucket.filter (fun id => id.PubKey ≠ target)

/-- The `for i := 1; len(closest) < k && (idx-i >= 0 || idx+i < len(t.entries)); i++` loop
of `FindClosest`, from offset `i` on. The first argument bounds the number of iterations;
`expand_fuel` shows that `len(t.entries)` iterations are never used up. -/
def expand (t : Table) (target : PublicKey) (k idx : Nat) : Nat → Nat → List ID → List ID
  | 0, _, closest => closest
  | fuel + 1, i, closest =>
    if closest.length < k ∧ (i ≤ idx ∨ idx + i < t.entries.length) then
      let closest := if i ≤ idx then collect target closest (t.bucket (idx - i)) else closest
      let closest :=
        if idx + i < t.entries.length then collect target closest (t.bucket (idx + i))
        else closest
      expand t target k idx fuel (i + 1) closest
    else closest

/-- The method `Table.FindClosest`, for `k ≥ 0` (the slice expression `closest[:k]` panics
for a negative `k`). -/
def FindClosest (t : Table) (target : PublicKey) (k : Nat) : List ID :=
  let idx := getBucketIndex t target
  let closest := collect target [] (t.bucket idx)
  let closest := expand t target k idx t.entries.length 1 closest
  let closest := SortByDistance target closest
  if closest.length > k then closest.take k else closest

/-- The method `Table.Peers`. -/
def Peers (t : Table) : List ID := FindClosest t t.self.PubKey BucketSize

/-- The method `Table.Entries`: the buckets in index order, each in its own order. The
capacity `t.size` of `make` has no effect on the value. -/
def Entries (t : Table) : List ID := t.entries.flatten

/-- The method `Table.NumEntries`. -/
def NumEntries (t : Table) : Int := t.size

/-- The tables reachable from `NewTable(self)` by finitely many calls of `Update`, `Delete`
and `DeleteByAddress`. -/
inductive Reachable (self : ID) : Table → Prop
  | newTable (t : Table) : NewTable self = Except.ok t → Reachable self t
  | update (t : Table) (x : ID) : Reachable self t → Reachable self (Update t x).1
  | delete (t : Table) (pk : PublicKey) : Reachable self t → Reachable self (Delete t pk).1
  | deleteByAddress (t : Table) (addr : String) :
      Reachable self t → Reachable self (DeleteByAddress t addr).1

/-- The representation invariant of a routing table made for the ID `own`: the distance metric
is taken from `own`, there are `SizePublicKey*8` buckets, every entry sits in the bucket
its public key maps to, no bucket holds a public key twice, no bucket holds more than
`BucketSize` entries, `size` is the number of entries, and no entry has the zero key. -/
structure Inv (own : ID) (t : Table) : Prop where
  self_eq : t.self = own
  numBuckets : t.entries.length = SizePublicKey * 8
  placed : ∀ i, ∀ id ∈ t.bucket i, getBucketIndex t id.PubKey = i
  nodup : ∀ i, ((t.bucket i).map ID.PubKey).Nodup
  bounded : ∀ i, (t.bucket i).length ≤ BucketSize
  size_eq : t.size = (((t.entries.map List.length).sum : Nat) : Int)
  nonzero : ∀ i, ∀ id ∈ t.bucket i, id.PubKey ≠ ZeroPublicKey

/-! ## Concrete keys, IDs and tables used to exercise the theorems -/

/-- The public key whose first byte is `first`, whose last byte is `last` and whose other
bytes are zero. -/
def mkKey (first last : Byte) : PublicKey :=
  ⟨first :: (List.replicate 30 0 ++ [last]), by simp⟩

/-- An ID with the key `mkKey first last` at host `10.0.0.1`, with the given port and
cached address. -/
def mkID (first last : Byte) (port : Fin 65536) (addr : String) : ID :=
  ⟨mkKey first last, [10, 0, 0, 1], port, addr⟩

/-- The local ID of the example tables: key `00…01`. -/
def exSelf : ID := mkID 0 1 9000 "10.0.0.1:9000"

/-- A peer whose key starts with the bit `1` (bucket 0 of `exSelf`). -/
def exFar : ID := mkID 0x80 0 9001 "10.0.0.1:9001"

/-- A peer whose key starts with the bits `0001` (bucket 3 of `exSelf`). -/
def exNear : ID := mkID 0x10 0 9002 "10.0.0.1:9002"

/-- A target key that starts with the bits `01` (bucket 1 of `exSelf`). -/
def exTarget : PublicKey := mkKey 0x40 0

/-- The table of `exSelf` right after `NewTable`: `exSelf` alone, in the last bucket. -/
def exTable0 : Table := ⟨List.replicate 255 [] ++ [[exSelf]], exSelf, 1⟩

/-- The table `exTable0` after `Update(exFar)` and `Update(exNear)`. -/
def exTable : Table := (Update (Update exTable0 exFar).1 exNear).1

/-- `Update` called with each ID of a list in turn. -/
def updateAll (t : Table) (xs : List ID) : Table := xs.foldl (fun t x => (Update t x).1) t

/-- The `n`-th of a family of peers whose keys start with the bit `1` and differ in the
last byte; they all map to bucket 0 of `exSelf`. -/
def exPeer (n : Nat) : ID := mkID 0x80 (Fin.ofNat n) (Fin.ofNat (9100 + n)) "10.0.0.2:9100"

/-- The table `exTable0` after `Update` of `exPeer 0`, …, `exPeer 15`: bucket 0 is full. -/
def exFullTable : Table := updateAll exTable0 ((List.range 16).map exPeer)

/-- The peer `exPeer 3` seen again at another address. -/
def exPeerMoved : ID := mkID 0x80 3 9200 "10.0.0.3:9200"

/-- The value of a byte string read as a big-endian integer (most significant byte
first). -/
def beNat : List Byte → Nat
  | [] => 0
  | b :: rest => b.val * 256 ^ rest.length + beNat rest

/-- The first bit of a key is 1: its first byte is at least `0x80`. -/
def firstBitSet (pk : PublicKey) : Bool :=
  match pk.bytes with
  | [] => false
  | b :: _ => decide (128 ≤ b.val)

/-- The results `(bool, error)` of `Update` called with each ID of a list in turn. -/
def updateResults (t : Table) : List ID → List (Bool × Option Err)
  | [] => []
  | x :: xs => (Update t x).2 :: updateResults (Update t x).1 xs

/-- A local ID with the all-zero public key. -/
def exZeroSelf : ID := ⟨ZeroPublicKey, [10, 0, 0, 9], 9009, "10.0.0.9:9009"⟩

/-- The table `NewTable(exZeroSelf)`: all buckets empty. -/
def exZeroTable : Table := ⟨List.replicate 256 [], exZeroSelf, 0⟩

/-- Seventeen IDs with pairwise distinct keys whose first bit is 1. -/
def exPeers17 : List ID := (List.range 17).map exPeer

/-! ## Serialization of IDs (`id.go`) -/

/-- The call `binary.BigEndian.PutUint16(b, v)`: the two bytes written. -/
def PutUint16 (v : Fin 65536) : List Byte :=
  [⟨v.val / 256, by have := v.isLt; omega⟩, ⟨v.val % 256, Nat.mod_lt _ (by decide)⟩]

/-- The call `binary.BigEndian.Uint16(b)`, which reads the first two bytes of `b`; the
callers check `len(b) ≥ 2` before (Go panics on a shorter slice). -/
def Uint16 : List Byte → Fin 65536
  | b0 :: b1 :: _ => ⟨b0.val * 256 + b1.val, by have := b0.isLt; have := b1.isLt; omega⟩
  | _ => 0

/-- The Go builtin `copy(dst, src)`: the content of `dst` afterwards; the first
`min(len(dst), len(src))` bytes come from `src`. -/
def copyBytes (dst src : List Byte) : List Byte := src.take dst.length ++ dst.drop src.length

/-- The function `NewID`. The argument `addrOf` stands for the expression
`net.JoinHostPort(common.NormalizeIP(host), strconv.FormatUint(uint64(port), 10))`, whose
helper `common.NormalizeIP` is declared outside the files at hand. -/
def NewID (addrOf : List Byte → Fin 65536 → String) (pubKey : PublicKey) (host : List Byte)
    (port : Fin 65536) : ID :=
  { PubKey := pubKey, Host := host, Port := port, Address := addrOf host port }

/-- The length `net.IPv6len` of an IP address in IPv6 form. -/
abbrev IPv6len : Nat := 16

/-- The method `ID.Size`. -/
def ID.Size (i : ID) : Nat := i.PubKey.bytes.length + IPv6len + 2

/-- The method `ID.Marshal`: a zeroed buffer of `Size()` bytes whose three parts
`buf[:32]`, `buf[32:48]` and `buf[48:50]` receive the key, the host and the port. -/
def ID.Marshal (i : ID) : List Byte :=
  copyBytes (List.replicate i.PubKey.bytes.length 0) i.PubKey.bytes ++
    copyBytes (List.replicate IPv6len 0) i.Host ++
    PutUint16 i.Port

/-- The function `UnmarshalID`; `Except.error` carries the Go error, returned next to the
zero-value ID. -/
def UnmarshalID (addrOf : List Byte → Fin 65536 → String) (buf : List Byte) : Except Err ID :=
  if h : buf.length < SizePublicKey then Except.error Err.unexpectedEOF
  else
    let pubKey : PublicKey := ⟨buf.take SizePublicKey, by rw [List.length_take]; omega⟩
    let buf := buf.drop SizePublicKey
    if buf.length < IPv6len then Except.error Err.unexpectedEOF
    else
      let host := copyBytes (List.replicate IPv6len 0) (buf.take IPv6len)
      let buf := buf.drop IPv6len
      if buf.length < 2 then Except.error Err.unexpectedEOF
      else
        let port := Uint16 (buf.take 2)
        Except.ok (NewID addrOf pubKey host port)

/-- An address function for the examples: the host bytes are ignored and the port is not
printed. -/
def exAddrOf : List Byte → Fin 65536 → String := fun _ _ => "[::1]:9000"

/-- The host `::1` in IPv6 form. -/
def exHost : List Byte := List.replicate 15 0 ++ [1]

/-- A buffer of 50 bytes: the zero key, the host `::1`, and the port bytes 1 and 2. -/
def exBuf : List Byte := List.replicate 32 0 ++ exHost ++ [1, 2]

/-! ## The iterator (`iterator.go`) -/

/-- What a call of `node.RequestMessage` gives back to `lookupRequest`: an error, a value
that is not a `FindNodeResponse`, or a `FindNodeResponse` with its `Results`. The transport
is outside the package: every reply is possible for every request. -/
inductive Reply where
  | error
  | notResponse
  | response (results : List ID)
  deriving DecidableEq

/-- The struct `Iterator`, without the logger and the timeout: `node` is `it.node.ID()`, and
the three tunables are counts (`make` panics for a negative length or capacity, and the slice
expression `closest[:it.maxNumResults]` for a negative bound). The fields `visited`,
`results` and `buckets`, which `init` makes anew for every `Find`, are in `FindState`. -/
structure Iterator where
  node : ID
  table : Table
  maxNumResults : Nat
  numParallelLookups : Nat
  numParallelRequestsPerLookup : Nat
  deriving DecidableEq

/-- The function `NewIterator` without options. -/
def NewIterator (node : ID) (table : Table) : Iterator :=
  { node := node, table := table, maxNumResults := BucketSize, numParallelLookups := 3,
    numParallelRequestsPerLookup := 8 }

/-- Where the goroutine running `processLookupBucket(i)` stands: in the inner `for` loop
that fills the channel `queue`, at the receive `ids := <-results`, between that receive and
the end of the locked loop over `ids`, or past the `break`. -/
inductive Stage where
  | fill
  | wait
  | merge (ids : List ID)
  | done
  deriving DecidableEq

/-- The state of one call `processLookupBucket(i)` and of its request workers:
`bucket` is `it.buckets[i]`, `queue` and `results` are the contents of the two channels,
`requesting` holds the IDs whose worker is inside `node.RequestMessage`, `sending` holds the
slices whose worker stands at `out <- ...`, and `pending` is the local counter. -/
structure Lookup where
  stage : Stage
  bucket : List ID
  queue : List ID
  requesting : List ID
  sending : List (List ID)
  results : List (List ID)
  pending : Int
  deriving DecidableEq

/-- The state of one call of `Find`. The map `visited` is the list of its keys, of which only
membership is used. `closest` is the slice `Find` collects from the channel `it.results`:
a worker blocked on that channel of capacity 1 is released by the `range` loop of `Find`,
and the IDs arrive in the order they are sent. The last three fields are history that the
program does not keep: every ID appended to some `it.buckets[i]`, every ID for which a
request was issued, and every request that returned with what it returned. -/
structure FindState where
  visited : List PublicKey
  lookups : List Lookup
  closest : List ID
  enqueued : List ID
  queried : List ID
  answered : List (ID × Reply)
  deriving DecidableEq

/-- The loop `for i, id := range it.table.Peers()` of `init` from index `i` on, with a
positive `n = it.numParallelLookups`. -/
def seed (n : Nat) : Nat → List ID → List PublicKey → List (List ID) →
    List PublicKey × List (List ID)
  | _, [], visited, buckets => (visited, buckets)
  | i, id :: rest, visited, buckets =>
    seed n (i + 1) rest (visited ++ [id.PubKey])
      (buckets.set (i % n) (buckets.getD (i % n) [] ++ [id]))

/-- A lookup before `processLookupBucket` starts on its bucket. -/
def newLookup (bucket : List ID) : Lookup :=
  { stage := Stage.fill, bucket := bucket, queue := [], requesting := [], sending := [],
    results := [], pending := 0 }

/-- The method `Iterator.init` followed by the start of the goroutines in `iterate`.
With `it.numParallelLookups = 0` and a peer to seed, `i%it.numParallelLookups` panics
(integer divide by zero): `none`. -/
def init (it : Iterator) (target : PublicKey) : Option FindState :=
  if it.numParallelLookups = 0 ∧ Peers it.table ≠ [] then none
  else
    let r := seed it.numParallelLookups 0 (Peers it.table) [it.node.PubKey, target]
      (List.replicate it.numParallelLookups [])
    some { visited := r.1, lookups := r.2.map newLookup, closest := [],
           enqueued := Peers it.table, queried := [], answered := [] }

/-- The loop `for _, id := range ids` that `processLookupBucket` runs under the lock, on the
map `visited`, the slice `it.buckets[i]` and the history of appended IDs. -/
def integrate : List ID → List PublicKey → List ID → List ID →
    List PublicKey × List ID × List ID
  | [], visited, bucket, enqueued => (visited, bucket, enqueued)
  | id :: ids, visited, bucket, enqueued =>
    if id.PubKey ∈ visited then integrate ids visited bucket enqueued
    else integrate ids (visited ++ [id.PubKey]) (bucket ++ [id]) (enqueued ++ [id])

/-- The slice a request worker sends on `out`: `res.Results` for a `FindNodeResponse`, `nil`
otherwise. -/
def Reply.candidates : Reply → List ID
  | Reply.response results => results
  | _ => []

/-- Whether `lookupRequest` sends the queried ID on `it.results`. -/
def Reply.isResponse : Reply → Bool
  | Reply.response _ => true
  | _ => false

/-- The steps of the goroutines of one `Find`, each on the lookup with index `i`:
* `pop`: one round of the inner `for` loop of `processLookupBucket`;
* `endFill`: the inner loop ends, followed by the test `pending == 0`;
* `take`: an idle request worker receives the next ID from `queue` and issues the request;
* `reply`: the request of the worker with index `j` among those requesting returns `r`, and
  for a `FindNodeResponse` the worker sends the ID on `it.results`;
* `send`: the worker with index `j` among those sending sends its slice on `out`;
* `receive`: `ids := <-results`;
* `merge`: the locked loop over `ids`, followed by `pending--`. -/
inductive Action where
  | pop (i : Nat)
  | endFill (i : Nat)
  | take (i : Nat)
  | reply (i j : Nat) (r : Reply)
  | send (i j : Nat)
  | receive (i : Nat)
  | merge (i : Nat)
  deriving DecidableEq

/-- The step `pop` on one lookup, with `n = it.numParallelRequestsPerLookup` the capacity of
`queue`. -/
def Lookup.pop (n : Nat) (l : Lookup) : Option Lookup :=
  match l.stage, l.bucket with
  | Stage.fill, popped :: rest =>
    if l.queue.length < n then
      some { l with bucket := rest, queue := l.queue ++ [popped], pending := l.pending + 1 }
    else none
  | _, _ => none

/-- The step `endFill` on one lookup. -/
def Lookup.endFill (n : Nat) (l : Lookup) : Option Lookup :=
  if l.stage = Stage.fill ∧ ¬ (0 < l.bucket.length ∧ l.queue.length < n) then
    some { l with stage := if l.pending = 0 then Stage.done else Stage.wait }
  else none

/-- The step `take` on one lookup, with the ID taken; each of the `n` workers is idle,
requesting or sending. -/
def Lookup.take (n : Nat) (l : Lookup) : Option (Lookup × ID) :=
  match l.queue with
  | id :: rest =>
    if l.requesting.length + l.sending.length < n then
      some ({ l with queue := rest, requesting := l.requesting ++ [id] }, id)
    else none
  | [] => none

/-- The step `reply` on one lookup, with the ID that was queried. -/
def Lookup.reply (j : Nat) (r : Reply) (l : Lookup) : Option (Lookup × ID) :=
  match l.requesting[j]? with
  | some id =>
    some ({ l with requesting := l.requesting.eraseIdx j,
                   sending := l.sending ++ [r.candidates] }, id)
  | none => none

/-- The step `send` on one lookup, with `n` the capacity of `results`. -/
def Lookup.send (n j : Nat) (l : Lookup) : Option Lookup :=
  match l.sending[j]? with
  | some ids =>
    if l.results.length < n then
      some { l with sending := l.sending.eraseIdx j, results := l.results ++ [ids] }
    else none
  | none => none

/-- The step `receive` on one lookup. -/
def Lookup.receive (l : Lookup) : Option Lookup :=
  match l.stage, l.results with
  | Stage.wait, ids :: rest => some { l with stage := Stage.merge ids, results := rest }
  | _, _ => none

/-- One step of a `Find`; `none` when the step cannot be taken in the state. -/
def step (it : Iterator) (s : FindState) : Action → Option FindState
  | Action.pop i =>
    match s.lookups[i]? with
    | some l =>
      match l.pop it.numParallelRequestsPerLookup with
      | some l' => some { s with lookups := s.lookups.set i l' }
      | none => none
    | none => none
  | Action.endFill i =>
    match s.lookups[i]? with
    | some l =>
      match l.endFill it.numParallelRequestsPerLookup with
      | some l' => some { s with lookups := s.lookups.set i l' }
      | none => none
    | none => none
  | Action.take i =>
    match s.lookups[i]? with
    | some l =>
      match l.take it.numParallelRequestsPerLookup with
      | some (l', id) =>
        some { s with lookups := s.lookups.set i l', queried := s.queried ++ [id] }
      | none => none
    | none => none
  | Action.reply i j r =>
    match s.lookups[i]? with
    | some l =>
      match l.reply j r with
      | some (l', id) =>
        some { s with lookups := s.lookups.set i l',
                      closest := if r.isResponse then s.closest ++ [id] else s.closest,
                      answered := s.answered ++ [(id, r)] }
      | none => none
    | none => none
  | Action.send i j =>
    match s.lookups[i]? with
    | some l =>
      match l.send it.numParallelRequestsPerLookup j with
      | some l' => some { s with lookups := s.lookups.set i l' }
      | none => none
    | none => none
  | Action.receive i =>
    match s.lookups[i]? with
    | some l =>
      match l.receive with
      | some l' => some { s with lookups := s.lookups.set i l' }
      | none => none
    | none => none
  | Action.merge i =>
    match s.lookups[i]? with
    | some l =>
      match l.stage with
      | Stage.merge ids =>
        let r := integrate ids s.visited l.bucket s.enqueued
        some { s with visited := r.1, enqueued := r.2.2,
                      lookups := s.lookups.set i
                        { l with stage := Stage.fill, bucket := r.2.1,
                                 pending := l.pending - 1 } }
      | _ => none
    | none => none

/-- The steps of a list taken in turn. -/
def run (it : Iterator) (s : FindState) : List Action → Option FindState
  | [] => some s
  | a :: rest =>
    match step it s a with
    | some s' => run it s' rest
    | none => none

/-- Every call of `processLookupBucket` has returned: `iterate` closes `it.results` and the
`range` loop of `Find` ends. -/
def Final (s : FindState) : Bool := s.lookups.all (fun l => l.stage = Stage.done)

/-- The end of `Find`: sort what was collected and cut it to `maxNumResults`. -/
def FindResult (it : Iterator) (target : PublicKey) (s : FindState) : List ID :=
  let closest := SortByDistance target s.closest
  if closest.length > it.maxNumResults then closest.take it.maxNumResults else closest

/-- The call `Find(target)` returns `result` on some schedule of its goroutines and some
behaviour of the transport. -/
def FindReturns (it : Iterator) (target : PublicKey) (result : List ID) : Prop :=
  ∃ s₀ tr s, init it target = some s₀ ∧ run it s₀ tr = some s ∧ Final s = true ∧
    result = FindResult it target s

/-- A step in which no request returns a `FindNodeResponse`. -/
def Action.failing : Action → Bool
  | Action.reply _ _ r => !r.isResponse
  | _ => true

/-- The table of `exSelf` with the one peer `exFar`. -/
def exFarTable : Table := (Update exTable0 exFar).1

/-- The iterator `NewIterator` makes for the node `exSelf` on that table. -/
def exIterator : Iterator := NewIterator exSelf exFarTable

/-- A schedule on which the request to `exFar` is answered by a `FindNodeResponse` that
names `exNear`, whose own request fails. -/
def exTrace : List Action :=
  [Action.pop 0, Action.endFill 0, Action.take 0, Action.reply 0 0 (Reply.response [exNear]),
   Action.send 0 0, Action.receive 0, Action.merge 0, Action.pop 0, Action.endFill 0,
   Action.take 0, Action.reply 0 0 Reply.error, Action.send 0 0, Action.receive 0,
   Action.merge 0, Action.endFill 0, Action.endFill 1, Action.endFill 2]

/-- What holds in every state of a call `Find(target)` on the iterator `it`: the node's own
key and `target` are marked visited, and so is the key of every ID that was appended to a
bucket; the IDs appended after the seeds have pairwise distinct keys that are neither the
node's key, nor `target`, nor the key of a seed; every appended ID is in a bucket, in a
channel `queue`, or was queried; every queried ID is with a worker or was answered; and
`closest` lists the IDs answered by a `FindNodeResponse`. -/
structure FindInv (it : Iterator) (target : PublicKey) (s : FindState) : Prop where
  visited_self : it.node.PubKey ∈ s.visited
  visited_target : target ∈ s.visited
  enqueued_visited : ∀ x ∈ s.enqueued, x.PubKey ∈ s.visited
  seeds : ∃ new : List ID, s.enqueued = Peers it.table ++ new ∧ (new.map ID.PubKey).Nodup ∧
    ∀ x ∈ new, x.PubKey ≠ it.node.PubKey ∧ x.PubKey ≠ target ∧
      x.PubKey ∉ (Peers it.table).map ID.PubKey
  flow : ∀ x, s.enqueued.count x =
    ((s.lookups.map (fun l => l.bucket ++ l.queue)).flatten).count x + s.queried.count x
  flow2 : ∀ x, s.queried.count x =
    ((s.lookups.map Lookup.requesting).flatten).count x + (s.answered.map Prod.fst).count x
  closest_eq : s.closest = (s.answered.filter (fun p => p.2.isResponse)).map Prod.fst

/-- The slice of candidates the goroutine of `processLookupBucket` has received and not yet
gone through counts as one ID in flight. -/
def Stage.inFlight : Stage → Nat
  | Stage.merge _ => 1
  | _ => 0

/-- The number of IDs of a lookup that were sent on `queue` and whose slice of candidates the
goroutine of `processLookupBucket` has not finished with. -/
def Lookup.inFlight (l : Lookup) : Nat :=
  l.queue.length + l.requesting.length + l.sending.length + l.results.length +
    l.stage.inFlight

/-- What holds of every lookup in every state of a `Find` with `n` request workers per lookup:
`pending` counts the IDs in flight, is positive at the receive, and neither the channel
`queue` nor the workers hold more than `n` IDs. -/
structure LookupInv (n : Nat) (l : Lookup) : Prop where
  pending_eq : l.pending = (l.inFlight : Int)
  waiting : l.stage = Stage.wait → 0 < l.inFlight
  queue_le : l.queue.length ≤ n
  workers_le : l.requesting.length + l.sending.length ≤ n

/-- The part of the weight of a lookup that comes from where its goroutine stands. -/
def Stage.weight : Stage → Nat
  | Stage.fill => 1
  | Stage.wait => 0
  | Stage.merge ids => 2 + 11 * ids.length
  | Stage.done => 0

/-- A bound on the number of steps a lookup can still take when no request is answered by a
`FindNodeResponse`. -/
def Lookup.weight (l : Lookup) : Nat :=
  10 * l.bucket.length + 8 * l.queue.length + 6 * l.requesting.length +
    (l.sending.map (fun ids => 4 + 11 * ids.length)).sum +
    (l.results.map (fun ids => 3 + 11 * ids.length)).sum + l.stage.weight

/-- The sum of the weights of the lookups. -/
def weight (s : FindState) : Nat := (s.lookups.map Lookup.weight).sum

/-- An iterator of the node `exNear` on the table of `exSelf`: `NewIterator` takes the node
and the table apart. -/
def exOtherIterator : Iterator := NewIterator exNear exFarTable

/-- A schedule on which the request to `exFar` is answered by a `FindNodeResponse` that
names `exNear` and nothing else. -/
def exOtherTrace : List Action :=
  [Action.pop 0, Action.endFill 0, Action.take 0, Action.reply 0 0 (Reply.response [exNear]),
   Action.send 0 0, Action.receive 0, Action.merge 0, Action.endFill 0, Action.endFill 1,
   Action.endFill 2]

/-- A schedule on which the one request, to `exFar`, fails with a transport error. -/
def exFailTrace : List Action :=
  [Action.pop 0, Action.endFill 0, Action.take 0, Action.reply 0 0 Reply.error,
   Action.send 0 0, Action.receive 0, Action.merge 0, Action.endFill 0, Action.endFill 1,
   Action.endFill 2]

end Kademlia

namespace Common

open Kademlia

/-! ## The typed message codec (`codec.go`) -/

/-- The identity of a Go type as `reflect.Type` tells it: a type that is not a pointer
type, known by a number, or the pointer type to a type. -/
inductive GoType where
  | named (id : Nat)
  | ptr (elem : GoType)
  deriving DecidableEq

/-- The step `if t.Kind() == reflect.Ptr { t = t.Elem() }` of `Encode`. -/
def GoType.elemIfPtr : GoType → GoType
  | GoType.ptr elem => elem
  | t => t

/-- The type `d.Type()` of the value handed to `Register` as decoder, as far as `Register`
tells it apart: `func([]byte) (ret, error)`, or anything else. -/
inductive FuncType where
  | decoder (ret : GoType)
  | other
  deriving DecidableEq

/-- A value held in the interface `Serializable` on which the method `Marshal` returns: its
dynamic type, its content (of a type `V` left open), and the bytes `Marshal` returns. -/
structure Message (V : Type) where
  typ : GoType
  value : V
  marshal : List Byte
  deriving DecidableEq

/-- A value of the interface type `Serializable` as `Encode` receives it: the nil interface;
a value of dynamic type `typ` on which the call `msg.Marshal()` panics, such as the nil
pointer `(*test)(nil)`, whose method `Marshal` has a value receiver; or a value on which
`Marshal` returns. -/
inductive Serializable (V : Type) where
  | nil
  | panicking (typ : GoType)
  | value (m : Message V)
  deriving DecidableEq

/-- The call `reflect.TypeOf(msg)`, `none` for the nil `reflect.Type`. -/
def Serializable.typ {V : Type} : Serializable V → Option GoType
  | Serializable.nil => none
  | Serializable.panicking typ => some typ
  | Serializable.value m => some m.typ

/-- The call `msg.Marshal()`, `none` when it panics. -/
def Serializable.Marshal {V : Type} : Serializable V → Option (List Byte)
  | Serializable.nil => none
  | Serializable.panicking _ => none
  | Serializable.value m => some m.marshal

/-- A value handed to `Register` as decoder: its type, and the value and error a call of
it returns. -/
structure Decoder (V : Type) where
  typ : FuncType
  call : List Byte → Message V × Option Err

/-- The struct `Codec`: the counter (a `uint16`) and the two maps `ser` and `de`, each
either the nil map (`none`) or a map made by `make`. The mutex is left out. -/
structure Codec (V : Type) where
  counter : Fin 65536
  serMap : Option (GoType → Option (Fin 65536))
  deMap : Option (Fin 65536 → Option (Decoder V))

/-- The Go expression `c.ser[t]`; a nil map reads as an empty one. -/
def Codec.ser {V : Type} (c : Codec V) (t : GoType) : Option (Fin 65536) :=
  match c.serMap with
  | none => none
  | some m => m t

/-- The Go expression `c.de[opCode]`; a nil map reads as an empty one. -/
def Codec.de {V : Type} (c : Codec V) (opCode : Fin 65536) : Option (Decoder V) :=
  match c.deMap with
  | none => none
  | some m => m opCode

/-- The function `NewCodec`. -/
def NewCodec {V : Type} : Codec V :=
  { counter := 0, serMap := some (fun _ => none), deMap := some (fun _ => none) }

/-- The zero value `Codec{}`, whose two maps are nil. -/
def zeroCodec {V : Type} : Codec V :=
  { counter := 0, serMap := none, deMap := none }

/-- The panics of `Register` and `Encode`: the two `panic` calls of `Register`, and the
run-time panics. -/
inductive Panic where
  /-- "attempted to register type … which is already registered under opcode …" -/
  | alreadyRegistered (t : GoType) (opCode : Fin 65536)
  /-- "provided decoder for message type … is …, but expected …" -/
  | decoderType (t : GoType)
  /-- "assignment to entry in nil map", at `c.ser[t] = c.counter`; nothing was written. -/
  | nilMapSer
  /-- "assignment to entry in nil map", at `c.de[c.counter] = d`; `c.ser[t]` was written. -/
  | nilMapDe
  /-- "invalid memory address or nil pointer dereference", at `t.Kind()` on the nil type. -/
  | nilType
  /-- The panic of the call `msg.Marshal()`. -/
  | marshal
  deriving DecidableEq

/-- A natural number as a `uint16`: its value modulo `2^16`. -/
def toUint16 (n : Nat) : Fin 65536 := ⟨n % 65536, Nat.mod_lt _ (by decide)⟩

/-- The statement `c.counter++` on a `uint16`. -/
def incr (k : Fin 65536) : Fin 65536 := toUint16 (k.val + 1)

/-- The expression `c.counter - 1` on a `uint16`. -/
def decr (k : Fin 65536) : Fin 65536 := toUint16 (k.val + 65535)

/-- The method `Codec.Register`, which reads of `ser` only its dynamic type; the result is
the codec afterwards and the op-code, or the panic. -/
def Register {V : Type} (c : Codec V) (ser : Message V) (de : Decoder V) :
    Except Panic (Codec V × Fin 65536) :=
  let t := ser.typ
  match c.ser t with
  | some opCode => Except.error (Panic.alreadyRegistered t opCode)
  | none =>
    if de.typ ≠ FuncType.decoder t then Except.error (Panic.decoderType t)
    else
      match c.serMap, c.deMap with
      | none, _ => Except.error Panic.nilMapSer
      | some _, none => Except.error Panic.nilMapDe
      | some s, some d =>
        let c : Codec V :=
          { counter := incr c.counter,
            serMap := some (fun k => if k = t then some c.counter else s k),
            deMap := some (fun k => if k = c.counter then some de else d k) }
        Except.ok (c, decr c.counter)

/-- The method `Codec.Encode`: the bytes or the error it returns, or the panic. -/
def Encode {V : Type} (c : Codec V) (msg : Serializable V) :
    Except Panic (Except Err (List Byte)) :=
  match msg.typ with
  | none => Except.error Panic.nilType
  | some t =>
    let t := t.elemIfPtr
    match c.ser t with
    | none => Except.ok (Except.error Err.opcodeNotRegistered)
    | some opCode =>
      match msg.Marshal with
      | none => Except.error Panic.marshal
      | some bytes => Except.ok (Except.ok (PutUint16 opCode ++ bytes))

/-- The method `Codec.Decode`. -/
def Decode {V : Type} (c : Codec V) (data : List Byte) : Except Err (Message V) :=
  if data.length < 2 then Except.error Err.unexpectedEOF
  else
    let opCode := Uint16 (data.take 2)
    let data := data.drop 2
    match c.de opCode with
    | none => Except.error Err.opcodeNotRegistered
    | some decoder =>
      match decoder.call data with
      | (_, some err) => Except.error err
      | (msg, none) => Except.ok msg

/-- A sequence of `Register` calls in turn: the codec afterwards and the op-codes returned,
or the first panic. -/
def registerAll {V : Type} (c : Codec V) (regs : List (Message V × Decoder V)) :
    Except Panic (Codec V × List (Fin 65536)) :=
  regs.foldl
    (fun acc r =>
      match acc with
      | Except.error p => Except.error p
      | Except.ok (c, ops) =>
        match Register c r.1 r.2 with
        | Except.error p => Except.error p
        | Except.ok (c, op) => Except.ok (c, ops ++ [op]))
    (Except.ok (c, []))

/-! ## Concrete messages, decoders and codecs used to exercise the theorems -/

/-- The type `test` of `codec_test.go`. -/
def testType : GoType := GoType.named 0

/-- The type `test2` of `codec_test.go`. -/
def test2Type : GoType := GoType.named 1

/-- The value `test{data: data}`; `Marshal` returns `data`. -/
def testMsg (data : List Byte) : Message (List Byte) := ⟨testType, data, data⟩

/-- The function `unmarshalTest` of `codec_test.go`. -/
def unmarshalTest : Decoder (List Byte) :=
  ⟨FuncType.decoder testType, fun data => (testMsg data, none)⟩

/-- The value `test2{data: data}`; `Marshal` returns `data`. -/
def test2Msg (data : List Byte) : Message (List Byte) := ⟨test2Type, data, data⟩

/-- The function `unmarshalTest2` of `codec_test.go`. -/
def unmarshalTest2 : Decoder (List Byte) :=
  ⟨FuncType.decoder test2Type, fun data => (test2Msg data, none)⟩

/-- The bytes of the string `"hello world"`. -/
def helloWorld : List Byte := [104, 101, 108, 108, 111, 32, 119, 111, 114, 108, 100]

/-- The codec after `Register(test{}, unmarshalTest)` on a new codec. -/
def exCodec : Codec (List Byte) :=
  { counter := 1,
    serMap := some (fun k => if k = testType then some 0 else none),
    deMap := some (fun k => if k = 0 then some unmarshalTest else none) }

/-- The value `&test{data: data}` of the pointer type `*test`; `Marshal` returns `data`. -/
def testPtrMsg (data : List Byte) : Message (List Byte) := ⟨GoType.ptr testType, data, data⟩

/-- A decoder `func([]byte) (*test, error)` that returns `&test{data: data}`. -/
def unmarshalTestPtr : Decoder (List Byte) :=
  ⟨FuncType.decoder (GoType.ptr testType), fun data => (testPtrMsg data, none)⟩

/-- The codec after `Register(&test{}, unmarshalTestPtr)` on a new codec. -/
def exPtrCodec : Codec (List Byte) :=
  { counter := 1,
    serMap := some (fun k => if k = GoType.ptr testType then some 0 else none),
    deMap := some (fun k => if k = 0 then some unmarshalTestPtr else none) }

/-- The nil pointer `(*test)(nil)`: the call of `Marshal`, a method with the receiver type
`test`, panics on it. -/
def nilTestPtr : Serializable (List Byte) := Serializable.panicking (GoType.ptr testType)

/-- The `i`-th of a family of message types with their decoders: the type number `i`, whose
one value marshals to no bytes. -/
def manyReg (i : Nat) : Message Unit × Decoder Unit :=
  (⟨GoType.named i, (), []⟩,
    ⟨FuncType.decoder (GoType.named i), fun _ => (⟨GoType.named i, (), []⟩, none)⟩)

/-- The registrations of the first `n` types of the family `manyReg`, in order. -/
def manyRegs (n : Nat) : List (Message Unit × Decoder Unit) := (List.range n).map manyReg

end Common

namespace Metrics

/-! ## The heavy-hitters stream (`metrics/topk.go`) -/

/-- The number of bits of a Go `int`, on a 64-bit platform. -/
abbrev IntSize : Nat := 64

/-- The largest Go `int`. -/
abbrev MaxInt : Nat := 2 ^ (IntSize - 1) - 1

/-- The Go `int` that the result `n` of an addition of two `int`s wraps to. -/
def wrapInt (n : Int) : Int := (n + 2 ^ (IntSize - 1)) % 2 ^ IntSize - 2 ^ (IntSize - 1)

/-- The struct `Element`; `Count` is a Go `int`. -/
structure Element where
  Value : String
  Count : Int
  deriving DecidableEq

/-- The struct `Stream`, for `0 ≤ k ≤ MaxInt` (with a negative `k` the slice expression
`sm[:s.k]` of `Query` panics). A pointer `*Element` is an index into `heap`, the list
of the `Element` objects allocated so far; the map `mon` is the list of its pairs of key and
pointer, in which no key occurs twice. The mutex is left out. -/
structure Stream where
  k : Nat
  heap : List Element
  mon : List (String × Nat)
  min : Nat
  lastNewElements : List Nat
  deriving DecidableEq

/-- The object a pointer points to. -/
def Stream.deref (s : Stream) (p : Nat) : Element := s.heap.getD p ⟨"", 0⟩

/-- The Go expression `m[key]` on the map, `none` for `nil`. -/
def mapGet (key : String) : List (String × Nat) → Option Nat
  | [] => none
  | (k, v) :: rest => if k = key then some v else mapGet key rest

/-- The Go call `delete(m, key)`. -/
def mapDelete (key : String) : List (String × Nat) → List (String × Nat)
  | [] => []
  | (k, v) :: rest => if k = key then rest else (k, v) :: mapDelete key rest

/-- The function `NewStream`: `min` points to a fresh `Element{}`. -/
def NewStream (k : Nat) : Stream :=
  { k := k, heap := [⟨"", 0⟩], mon := [], min := 0, lastNewElements := [] }

/-- The method `Stream.insert`; the argument is the element `in` points to, which is only
read. The sum `s.k+1` and the sums of counts are sums of Go `int`s and wrap. -/
def Stream.insert (s : Stream) (el : Element) : Stream :=
  let r : Stream × Nat :=
    match mapGet el.Value s.mon with
    | some e =>
      ({ s with heap := s.heap.set e
                  ⟨(s.deref e).Value, wrapInt ((s.deref e).Count + el.Count)⟩ }, e)
    | none =>
      if (s.mon.length : Int) < wrapInt ((s.k : Int) + 1) then
        ({ s with heap := s.heap ++ [⟨el.Value, el.Count⟩],
                  mon := s.mon ++ [(el.Value, s.heap.length)] }, s.heap.length)
      else
        ({ s with mon := mapDelete (s.deref s.min).Value s.mon,
                  heap := s.heap.set s.min
                    ⟨el.Value, wrapInt ((s.deref s.min).Count + el.Count)⟩,
                  min := s.min }, s.min)
  if (r.1.deref r.2).Count < (r.1.deref r.1.min).Count then { r.1 with min := r.2 } else r.1

/-- The method `Stream.Insert`. -/
def Stream.Insert (s : Stream) (x : String) : Stream := s.insert ⟨x, 1⟩

/-- The method `Stream.Query`: the pointers held by the map, sorted by descending count and
cut to `k`. Go fixes neither the iteration order of a map nor the order `sort.Sort` gives to
elements of equal count; the embedding takes the order of the list `mon` and a stable
sort. -/
def Stream.Query (s : Stream) : List Nat :=
  let sm := s.mon.map (fun kv => kv.2)
  let sm := sm.insertionSort (fun a b => (s.deref b).Count ≤ (s.deref a).Count)
  if sm.length < s.k then sm else sm.take s.k

/-- A sequence of `Insert` calls in turn. -/
def insertAll (s : Stream) (xs : List String) : Stream := xs.foldl Stream.Insert s

end Metrics

namespace Kademlia

/-! ## Helper lemmas -/

theorem LeadingZeros8_lt (b : Byte) (h : b.val ≠ 0) : LeadingZeros8 b < 8 := by
  unfold LeadingZeros8
  split_ifs <;> omega

theorem PrefixLen_le (l : List Byte) : PrefixLen l ≤ 8 * l.length := by
  induction l with
  | nil => simp [PrefixLen]
  | cons b rest ih =>
    simp only [PrefixLen, List.length_cons]
    split_ifs with h
    · omega
    · have := LeadingZeros8_lt b h
      omega

theorem XOR_length (a b : List Byte) : (XOR a b).length = min a.length b.length := by
  simp [XOR]

/-- Every index computed by `getBucketIndex` is a valid index of the bucket array. -/
theorem getBucketIndex_lt (t : Table) (target : PublicKey) :
    getBucketIndex t target < SizePublicKey * 8 := by
  have h := PrefixLen_le (XOR target.bytes t.self.PubKey.bytes)
  rw [XOR_length, target.size_eq, t.self.PubKey.size_eq] at h
  simp only [getBucketIndex, SizePublicKey] at h ⊢
  split_ifs with h1
  · omega
  · simp at h; omega

theorem rangeFind_eq_none (p : ID → Bool) (l : List ID) :
    rangeFind p l = none ↔ ∀ x ∈ l, p x = false := by
  induction l with
  | nil => simp [rangeFind]
  | cons a rest ih =>
    simp only [rangeFind, List.mem_cons, forall_eq_or_imp]
    split_ifs with h
    · simp [h]
    · simp [h, ih]

theorem rangeFind_eq_some (p : ID → Bool) (l : List ID) (i : Nat) (x : ID)
    (h : rangeFind p l = some (i, x)) :
    l[i]? = some x ∧ p x = true ∧ ∀ j y, j < i → l[j]? = some y → p y = false := by
  induction l generalizing i with
  | nil => simp [rangeFind] at h
  | cons a rest ih =>
    simp only [rangeFind] at h
    split_ifs at h with ha
    · simp only [Option.some.injEq, Prod.mk.injEq] at h
      obtain ⟨rfl, rfl⟩ := h
      simp [ha]
    · simp only [Option.map_eq_some'] at h
      obtain ⟨⟨i', x'⟩, hr, heq⟩ := h
      simp only [Prod.mk.injEq] at heq
      obtain ⟨rfl, rfl⟩ := heq
      obtain ⟨h1, h2, h3⟩ := ih i' hr
      refine ⟨by simpa using h1, h2, ?_⟩
      intro j y hj hy
      cases j with
      | zero => simp at hy; subst hy; simpa using ha
      | succ j => exact h3 j y (by omega) (by simpa using hy)

theorem getD_set (l : List (List ID)) (i j : Nat) (b : List ID) (hi : i < l.length) :
    (l.set i b).getD j [] = if j = i then b else l.getD j [] := by
  simp only [List.getD_eq_getElem?_getD, List.getElem?_set]
  by_cases h : i = j
  · subst h; simp [hi]
  · simp [h, Ne.symm h]

theorem sum_length_set (l : List (List ID)) (i : Nat) (b : List ID) (hi : i < l.length) :
    ((l.set i b).map List.length).sum + (l.getD i []).length
      = (l.map List.length).sum + b.length := by
  induction l generalizing i with
  | nil => simp at hi
  | cons a rest ih =>
    cases i with
    | zero => simp; omega
    | succ i =>
      have := ih i (by simpa using hi)
      simp only [List.set_cons_succ, List.map_cons, List.sum_cons, List.getD_cons_succ]
      omega

/-- Removing position `i` from a list: what `append(b[:i], b[i+1:]...)` leaves. -/
theorem take_drop_eq_eraseIdx (l : List ID) (i : Nat) :
    l.take i ++ l.drop (i + 1) = l.eraseIdx i :=
  (List.eraseIdx_eq_take_drop_succ l i).symm

theorem mem_of_mem_eraseIdx (l : List ID) (i : Nat) (x : ID) (h : x ∈ l.eraseIdx i) : x ∈ l :=
  (List.eraseIdx_sublist l i).subset h

theorem nodup_map_eraseIdx (l : List ID) (i : Nat) (h : (l.map ID.PubKey).Nodup) :
    ((l.eraseIdx i).map ID.PubKey).Nodup :=
  h.sublist ((List.eraseIdx_sublist l i).map _)

theorem length_eraseIdx_add_one (l : List ID) (i : Nat) (x : ID) (h : l[i]? = some x) :
    (l.eraseIdx i).length + 1 = l.length := by
  have hi : i < l.length := by
    rcases (List.getElem?_eq_some_iff.mp h) with ⟨hi, _⟩
    exact hi
  rw [List.length_eraseIdx]
  simp [hi]
  omega

/-- In a bucket without repeated keys, removing the entry at position `i` removes its key
from the bucket. -/
theorem key_not_in_eraseIdx (l : List ID) (i : Nat) (x : ID) (h : l[i]? = some x)
    (hn : (l.map ID.PubKey).Nodup) : ∀ z ∈ l.eraseIdx i, z.PubKey ≠ x.PubKey := by
  induction l generalizing i with
  | nil => simp at h
  | cons a rest ih =>
    simp only [List.map_cons, List.nodup_cons, List.mem_map, not_exists, not_and] at hn
    cases i with
    | zero =>
      simp only [List.getElem?_cons_zero, Option.some.injEq] at h
      subst h
      intro z hz heq
      exact hn.1 z (by simpa using hz) heq
    | succ i =>
      simp only [List.getElem?_cons_succ] at h
      intro z hz
      simp only [List.eraseIdx_cons_succ, List.mem_cons] at hz
      rcases hz with rfl | hz
      · intro heq
        exact hn.1 x (List.getElem?_mem h) heq.symm
      · exact ih i h hn.2 z hz

/-! ### The four outcomes of `Update` and the two of `Delete` -/

theorem Update_zero (t : Table) (x : ID) (hz : x.PubKey = ZeroPublicKey) :
    Update t x = (t, false, none) := by
  simp [Update, hz]

theorem Update_found (t : Table) (x : ID) (i : Nat) (y : ID) (hz : x.PubKey ≠ ZeroPublicKey)
    (h : rangeFind (fun id => id.PubKey = x.PubKey) (Bucket t x.PubKey) = some (i, y)) :
    Update t x =
      (⟨t.entries.set (getBucketIndex t x.PubKey) (x :: (Bucket t x.PubKey).eraseIdx i),
        t.self, t.size⟩, false, none) := by
  simp only [Bucket] at h
  simp only [Update, hz, if_false, h, Bucket, ← take_drop_eq_eraseIdx]
  simp

theorem Update_insert (t : Table) (x : ID) (hz : x.PubKey ≠ ZeroPublicKey)
    (h : rangeFind (fun id => id.PubKey = x.PubKey) (Bucket t x.PubKey) = none)
    (hlen : (Bucket t x.PubKey).length < BucketSize) :
    Update t x =
      (⟨t.entries.set (getBucketIndex t x.PubKey) (x :: Bucket t x.PubKey), t.self, t.size + 1⟩,
        true, none) := by
  simp only [Bucket] at h hlen
  simp only [Update, hz, if_false, h, Bucket, hlen, if_true]
  simp

theorem Update_full (t : Table) (x : ID) (hz : x.PubKey ≠ ZeroPublicKey)
    (h : rangeFind (fun id => id.PubKey = x.PubKey) (Bucket t x.PubKey) = none)
    (hlen : ¬ (Bucket t x.PubKey).length < BucketSize) :
    Update t x = (t, false, some (Err.bucketFull x.PubKey)) := by
  simp only [Bucket] at h hlen
  simp only [Update, hz, if_false, h, hlen]

theorem Delete_found (t : Table) (pk : PublicKey) (i : Nat) (y : ID)
    (h : rangeFind (fun id => id.PubKey = pk) (Bucket t pk) = some (i, y)) :
    Delete t pk =
      (⟨t.entries.set (getBucketIndex t pk) ((Bucket t pk).eraseIdx i), t.self, t.size - 1⟩,
        y, true) := by
  simp only [Bucket] at h
  simp only [Delete, h, Bucket, ← take_drop_eq_eraseIdx]

theorem Delete_missing (t : Table) (pk : PublicKey)
    (h : rangeFind (fun id => id.PubKey = pk) (Bucket t pk) = none) :
    Delete t pk = (t, zeroID, false) := by
  simp only [Bucket] at h
  simp only [Delete, h]

theorem rangeFindBuckets_eq_some (p : ID → Bool) (l : List (List ID)) (i j : Nat) (x : ID)
    (h : rangeFindBuckets p l = some (i, j, x)) :
    i < l.length ∧ (l.getD i [])[j]? = some x ∧ p x = true := by
  induction l generalizing i with
  | nil => simp [rangeFindBuckets] at h
  | cons b rest ih =>
    simp only [rangeFindBuckets] at h
    split at h
    · next j' id hb =>
      simp only [Option.some.injEq, Prod.mk.injEq] at h
      obtain ⟨rfl, rfl, rfl⟩ := h
      obtain ⟨h1, h2, _⟩ := rangeFind_eq_some p b j' id hb
      simp [h1, h2]
    · simp only [Option.map_eq_some'] at h
      obtain ⟨⟨i', r⟩, hr, heq⟩ := h
      simp only [Prod.mk.injEq] at heq
      obtain ⟨rfl, rfl⟩ := heq
      obtain ⟨h1, h2, h3⟩ := ih i' hr
      simp only [List.length_cons, List.getD_cons_succ]
      exact ⟨by omega, h2, h3⟩

theorem DeleteByAddress_found (t : Table) (addr : String) (i j : Nat) (y : ID)
    (h : rangeFindBuckets (fun id => id.Address = addr) t.entries = some (i, j, y)) :
    DeleteByAddress t addr =
      (⟨t.entries.set i ((t.bucket i).eraseIdx j), t.self, t.size - 1⟩, y, true) := by
  simp only [DeleteByAddress, h, ← take_drop_eq_eraseIdx]

theorem DeleteByAddress_missing (t : Table) (addr : String)
    (h : rangeFindBuckets (fun id => id.Address = addr) t.entries = none) :
    DeleteByAddress t addr = (t, zeroID, false) := by
  simp only [DeleteByAddress, h]

/-! ### The invariant is kept by every operation -/

theorem bucket_set (t : Table) (idx j : Nat) (b : List ID) (s : Int)
    (hidx : idx < t.entries.length) :
    Table.bucket ⟨t.entries.set idx b, t.self, s⟩ j = if j = idx then b else t.bucket j := by
  simp only [Table.bucket]
  exact getD_set t.entries idx j b hidx

theorem getBucketIndex_set (t : Table) (l : List (List ID)) (s : Int) (pk : PublicKey) :
    getBucketIndex ⟨l, t.self, s⟩ pk = getBucketIndex t pk := rfl

/-- Replacing one bucket by a well-formed bucket, and adjusting `size` by the change of
length, keeps the invariant. -/
theorem Inv.setBucket {self : ID} {t : Table} (h : Inv self t) (idx : Nat) (b : List ID)
    (s : Int) (hidx : idx < t.entries.length)
    (hplaced : ∀ id ∈ b, getBucketIndex t id.PubKey = idx)
    (hnodup : (b.map ID.PubKey).Nodup)
    (hlen : b.length ≤ BucketSize)
    (hsize : s + (t.bucket idx).length = t.size + b.length)
    (hnz : ∀ id ∈ b, id.PubKey ≠ ZeroPublicKey) :
    Inv self ⟨t.entries.set idx b, t.self, s⟩ := by
  refine ⟨h.self_eq, ?_, ?_, ?_, ?_, ?_, ?_⟩
  · simpa using h.numBuckets
  · intro i id hid
    rw [bucket_set t idx i b s hidx] at hid
    rw [getBucketIndex_set]
    split_ifs at hid with hi
    · subst hi; exact hplaced id hid
    · exact h.placed i id hid
  · intro i
    rw [bucket_set t idx i b s hidx]
    split_ifs
    · exact hnodup
    · exact h.nodup i
  · intro i
    rw [bucket_set t idx i b s hidx]
    split_ifs
    · exact hlen
    · exact h.bounded i
  · have h1 := sum_length_set t.entries idx b hidx
    have h2 := h.size_eq
    simp only [Table.bucket] at hsize
    show s = (((List.map List.length (t.entries.set idx b)).sum : Nat) : Int)
    omega
  · intro i id hid
    rw [bucket_set t idx i b s hidx] at hid
    split_ifs at hid
    · exact hnz id hid
    · exact h.nonzero i id hid

theorem Inv.idx_lt {self : ID} {t : Table} (h : Inv self t) (pk : PublicKey) :
    getBucketIndex t pk < t.entries.length := by
  rw [h.numBuckets]
  exact getBucketIndex_lt t pk

theorem Inv.update {self : ID} {t : Table} (h : Inv self t) (x : ID) :
    Inv self (Update t x).1 := by
  by_cases hz : x.PubKey = ZeroPublicKey
  · rw [Update_zero t x hz]; exact h
  · cases hf : rangeFind (fun id => id.PubKey = x.PubKey) (Bucket t x.PubKey) with
    | some r =>
      obtain ⟨i, y⟩ := r
      obtain ⟨hy, hp, _⟩ := rangeFind_eq_some _ _ i y hf
      have hpk : y.PubKey = x.PubKey := by simpa using hp
      rw [Update_found t x i y hz hf]
      have hlen := length_eraseIdx_add_one _ i y hy
      have hb := h.bounded (getBucketIndex t x.PubKey)
      apply h.setBucket _ _ _ (h.idx_lt _)
      · intro id hid
        rcases List.mem_cons.mp hid with rfl | hid
        · rfl
        · exact h.placed _ id (mem_of_mem_eraseIdx _ _ _ hid)
      · simp only [List.map_cons, List.nodup_cons, List.mem_map, not_exists, not_and]
        refine ⟨?_, nodup_map_eraseIdx _ i (h.nodup _)⟩
        intro z hz' heq
        exact key_not_in_eraseIdx _ i y hy (h.nodup _) z hz' (heq.trans hpk.symm)
      · simp only [List.length_cons, Bucket] at hlen ⊢
        omega
      · simp only [List.length_cons, Bucket] at hlen ⊢
        omega
      · intro id hid
        rcases List.mem_cons.mp hid with rfl | hid
        · exact hz
        · exact h.nonzero _ id (mem_of_mem_eraseIdx _ _ _ hid)
    | none =>
      by_cases hlen : (Bucket t x.PubKey).length < BucketSize
      · rw [Update_insert t x hz hf hlen]
        have hnone := (rangeFind_eq_none _ _).mp hf
        apply h.setBucket _ _ _ (h.idx_lt _)
        · intro id hid
          rcases List.mem_cons.mp hid with rfl | hid
          · rfl
          · exact h.placed _ id hid
        · simp only [List.map_cons, List.nodup_cons, List.mem_map, not_exists, not_and]
          refine ⟨?_, h.nodup _⟩
          intro z hz' heq
          have := hnone z hz'
          simp [heq] at this
        · simp only [List.length_cons, Bucket] at hlen ⊢
          omega
        · simp only [List.length_cons, Bucket]
          push_cast
          omega
        · intro id hid
          rcases List.mem_cons.mp hid with rfl | hid
          · exact hz
          · exact h.nonzero _ id hid
      · rw [Update_full t x hz hf hlen]; exact h

/-- Removing the entry at a valid position of a bucket keeps the invariant. -/
theorem Inv.eraseAt {self : ID} {t : Table} (h : Inv self t) (i j : Nat) (y : ID)
    (hi : i < t.entries.length) (hy : (t.bucket i)[j]? = some y) :
    Inv self ⟨t.entries.set i ((t.bucket i).eraseIdx j), t.self, t.size - 1⟩ := by
  have hlen := length_eraseIdx_add_one _ j y hy
  have hb := h.bounded i
  apply h.setBucket _ _ _ hi
  · intro id hid
    exact h.placed _ id (mem_of_mem_eraseIdx _ _ _ hid)
  · exact nodup_map_eraseIdx _ j (h.nodup _)
  · omega
  · omega
  · intro id hid
    exact h.nonzero _ id (mem_of_mem_eraseIdx _ _ _ hid)

theorem Inv.delete {self : ID} {t : Table} (h : Inv self t) (pk : PublicKey) :
    Inv self (Delete t pk).1 := by
  cases hf : rangeFind (fun id => id.PubKey = pk) (Bucket t pk) with
  | some r =>
    obtain ⟨i, y⟩ := r
    obtain ⟨hy, _, _⟩ := rangeFind_eq_some _ _ i y hf
    rw [Delete_found t pk i y hf]
    exact h.eraseAt _ i y (h.idx_lt _) hy
  | none => rw [Delete_missing t pk hf]; exact h

theorem Inv.deleteByAddress {self : ID} {t : Table} (h : Inv self t) (addr : String) :
    Inv self (DeleteByAddress t addr).1 := by
  cases hf : rangeFindBuckets (fun id => id.Address = addr) t.entries with
  | some r =>
    obtain ⟨i, j, y⟩ := r
    obtain ⟨hi, hy, _⟩ := rangeFindBuckets_eq_some _ _ i j y hf
    rw [DeleteByAddress_found t addr i j y hf]
    exact h.eraseAt i j y hi hy
  | none => rw [DeleteByAddress_missing t addr hf]; exact h

/-- The table `Table{self: self}` that `NewTable` starts from. -/
theorem Inv.empty (self : ID) :
    Inv self ⟨List.replicate (SizePublicKey * 8) [], self, 0⟩ := by
  have hb : ∀ i, Table.bucket ⟨List.replicate (SizePublicKey * 8) [], self, 0⟩ i = [] := by
    intro i
    simp only [Table.bucket, List.getD_eq_getElem?_getD, List.getElem?_replicate]
    split_ifs <;> rfl
  refine ⟨rfl, by simp, ?_, ?_, ?_, ?_, ?_⟩
  · intro i id hid; rw [hb] at hid; simp at hid
  · intro i; rw [hb]; simp
  · intro i; rw [hb]; simp
  · simp
  · intro i id hid; rw [hb] at hid; simp at hid

/-- `NewTable` never takes its `panic` branch: it returns the empty table updated with
`self`. -/
theorem NewTable_ok (self : ID) :
    NewTable self = Except.ok (Update ⟨List.replicate (SizePublicKey * 8) [], self, 0⟩ self).1 := by
  have hb : Bucket ⟨List.replicate (SizePublicKey * 8) [], self, 0⟩ self.PubKey = [] := by
    simp only [Bucket, Table.bucket, List.getD_eq_getElem?_getD, List.getElem?_replicate]
    split_ifs <;> rfl
  by_cases hz : self.PubKey = ZeroPublicKey
  · simp only [NewTable, Update_zero _ _ hz]
  · have hf : rangeFind (fun id => id.PubKey = self.PubKey)
        (Bucket ⟨List.replicate (SizePublicKey * 8) [], self, 0⟩ self.PubKey) = none := by
      rw [hb]; rfl
    have hlen : (Bucket ⟨List.replicate (SizePublicKey * 8) [], self, 0⟩ self.PubKey).length
        < BucketSize := by
      rw [hb]; simp
    simp only [NewTable, Update_insert _ _ hz hf hlen]

/-- Every reachable table satisfies the representation invariant. -/
theorem Reachable.inv {self : ID} {t : Table} (h : Reachable self t) : Inv self t := by
  induction h with
  | newTable t ht =>
    rw [NewTable_ok] at ht
    cases ht
    exact (Inv.empty self).update self
  | update t x _ ih => exact ih.update x
  | delete t pk _ ih => exact ih.delete pk
  | deleteByAddress t addr _ ih => exact ih.deleteByAddress addr

/-! ### Buckets and entries -/

theorem bucket_eq_getElem (t : Table) (i : Nat) (hi : i < t.entries.length) :
    t.bucket i = t.entries[i] := by
  simp [Table.bucket, List.getD_eq_getElem?_getD, hi]

theorem mem_Entries (t : Table) (id : ID) :
    id ∈ Entries t ↔ ∃ i, i < t.entries.length ∧ id ∈ t.bucket i := by
  simp only [Entries, List.mem_flatten]
  constructor
  · rintro ⟨l, hl, hid⟩
    obtain ⟨i, hi, rfl⟩ := List.getElem_of_mem hl
    exact ⟨i, hi, by rw [bucket_eq_getElem t i hi]; exact hid⟩
  · rintro ⟨i, hi, hid⟩
    rw [bucket_eq_getElem t i hi] at hid
    exact ⟨t.entries[i], List.getElem_mem hi, hid⟩

theorem Inv.nodup_entries {self : ID} {t : Table} (h : Inv self t) :
    ((Entries t).map ID.PubKey).Nodup := by
  simp only [Entries, List.map_flatten, List.nodup_flatten, List.mem_map]
  constructor
  · rintro l ⟨b, hb, rfl⟩
    obtain ⟨i, hi, rfl⟩ := List.getElem_of_mem hb
    rw [← bucket_eq_getElem t i hi]
    exact h.nodup i
  · rw [List.pairwise_map, List.pairwise_iff_getElem]
    intro i j hi hj hij
    rw [← bucket_eq_getElem t i hi, ← bucket_eq_getElem t j hj]
    intro pk hpi hpj
    obtain ⟨a, ha, rfl⟩ := List.mem_map.mp hpi
    obtain ⟨b, hb, hab⟩ := List.mem_map.mp hpj
    have h1 := h.placed i a ha
    have h2 := h.placed j b hb
    rw [hab] at h2
    omega

/-- In a bucket without repeated keys the search loop stops at the one entry that has the
key. -/
theorem rangeFind_of_nodup (l : List ID) (i : Nat) (y : ID) (pk : PublicKey)
    (hn : (l.map ID.PubKey).Nodup) (hy : l[i]? = some y) (hpk : y.PubKey = pk) :
    rangeFind (fun id => id.PubKey = pk) l = some (i, y) := by
  induction l generalizing i with
  | nil => simp at hy
  | cons a rest ih =>
    simp only [List.map_cons, List.nodup_cons, List.mem_map, not_exists, not_and] at hn
    cases i with
    | zero =>
      simp only [List.getElem?_cons_zero, Option.some.injEq] at hy
      subst hy
      simp [rangeFind, hpk]
    | succ i =>
      simp only [List.getElem?_cons_succ] at hy
      have hne : a.PubKey ≠ pk := by
        intro heq
        exact hn.1 y (List.getElem?_mem hy) (hpk.trans heq.symm)
      simp [rangeFind, hne, ih i hn.2 hy]

theorem Bucket_set (t : Table) (pk : PublicKey) (b : List ID) (s : Int)
    (hidx : getBucketIndex t pk < t.entries.length) :
    Bucket ⟨t.entries.set (getBucketIndex t pk) b, t.self, s⟩ pk = b := by
  simp only [Bucket, getBucketIndex_set]
  rw [bucket_set t _ _ b s hidx]
  simp

/-! ### The example tables are reachable -/

theorem Reachable.updateAll {self : ID} {t : Table} (h : Reachable self t) (xs : List ID) :
    Reachable self (updateAll t xs) := by
  induction xs generalizing t with
  | nil => exact h
  | cons x xs ih => exact ih (Reachable.update t x h)

set_option maxRecDepth 100000 in
theorem exTable0_reachable : Reachable exSelf exTable0 :=
  Reachable.newTable exTable0 (by rfl)

theorem exTable_reachable : Reachable exSelf exTable :=
  Reachable.update _ exNear (Reachable.update _ exFar exTable0_reachable)

theorem exFullTable_reachable : Reachable exSelf exFullTable :=
  exTable0_reachable.updateAll _

/-! ## The invariants of the routing table -/

/-- C1: in every table reachable from `NewTable(self)` by `Update`, `Delete` and
`DeleteByAddress`, no public key occurs twice over all buckets, and every ID stored in
bucket `i` has `i = getBucketIndex(ID.PubKey)`, which is the number of leading zero bits of
`XOR(PubKey, self.PubKey)` with 256 clamped to 255. -/
theorem C1_key_once_and_in_own_bucket (self : ID) (t : Table) (h : Reachable self t) :
    ((Entries t).map ID.PubKey).Nodup ∧
    (∀ i id, id ∈ t.bucket i → i = getBucketIndex t id.PubKey) ∧
    (∀ pk : PublicKey,
      getBucketIndex t pk = min (PrefixLen (XOR pk.bytes self.PubKey.bytes)) 255) := by
  have hinv := h.inv
  refine ⟨hinv.nodup_entries, fun i id hid => (hinv.placed i id hid).symm, ?_⟩
  intro pk
  have hle := PrefixLen_le (XOR pk.bytes t.self.PubKey.bytes)
  rw [XOR_length, pk.size_eq, t.self.PubKey.size_eq] at hle
  rw [← hinv.self_eq]
  simp only [getBucketIndex, SizePublicKey] at hle ⊢
  simp only [Nat.min_self] at hle
  split_ifs with h1
  · omega
  · omega

theorem C1_witness :
    Reachable exSelf exTable ∧ ((Entries exTable).map ID.PubKey).Nodup ∧
    (∀ i id, id ∈ exTable.bucket i → i = getBucketIndex exTable id.PubKey) ∧
    (∀ pk : PublicKey,
      getBucketIndex exTable pk = min (PrefixLen (XOR pk.bytes exSelf.PubKey.bytes)) 255) :=
  ⟨exTable_reachable, C1_key_once_and_in_own_bucket exSelf exTable exTable_reachable⟩

/-- C2: in every table reachable from `NewTable(self)` by `Update`, `Delete` and
`DeleteByAddress` there are 256 buckets and each of them has at most `BucketSize`
entries. -/
theorem C2_bucket_length_le_BucketSize (self : ID) (t : Table) (h : Reachable self t) :
    t.entries.length = 256 ∧ (∀ b ∈ t.entries, b.length ≤ BucketSize) ∧
    ∀ i, (t.bucket i).length ≤ BucketSize := by
  refine ⟨h.inv.numBuckets, ?_, h.inv.bounded⟩
  intro b hb
  obtain ⟨i, hi, rfl⟩ := List.getElem_of_mem hb
  rw [← bucket_eq_getElem t i hi]
  exact h.inv.bounded i

theorem C2_witness :
    Reachable exSelf exFullTable ∧ exFullTable.entries.length = 256 ∧
    (∀ b ∈ exFullTable.entries, b.length ≤ BucketSize) ∧
    ∀ i, (exFullTable.bucket i).length ≤ BucketSize :=
  ⟨exFullTable_reachable, C2_bucket_length_le_BucketSize exSelf exFullTable exFullTable_reachable⟩

/-- C3: in every table reachable from `NewTable(self)` by `Update`, `Delete` and
`DeleteByAddress`, `NumEntries()` (the field `size`) is the sum of the lengths of all
buckets, which is the length of `Entries()`. -/
theorem C3_size_eq_sum_of_bucket_lengths (self : ID) (t : Table) (h : Reachable self t) :
    NumEntries t = (((t.entries.map List.length).sum : Nat) : Int) ∧
    (t.entries.map List.length).sum = (Entries t).length := by
  refine ⟨h.inv.size_eq, ?_⟩
  simp [Entries, List.length_flatten]

theorem C3_witness :
    Reachable exSelf exTable ∧
    NumEntries exTable = (((exTable.entries.map List.length).sum : Nat) : Int) ∧
    (exTable.entries.map List.length).sum = (Entries exTable).length :=
  ⟨exTable_reachable, C3_size_eq_sum_of_bucket_lengths exSelf exTable exTable_reachable⟩

/-! ## `Update` -/

/-- C4: for every reachable table and every ID `x` whose public key is not the zero key,
if the bucket `x.PubKey` maps to holds fewer than `BucketSize` entries, then after
`Update(x)` the first element of `Bucket(x.PubKey)` is `x`. -/
theorem C4_update_puts_id_at_head (self : ID) (t : Table) (h : Reachable self t) (x : ID)
    (hz : x.PubKey ≠ ZeroPublicKey) (hlen : (Bucket t x.PubKey).length < BucketSize) :
    (Bucket (Update t x).1 x.PubKey)[0]? = some x := by
  have hidx := h.inv.idx_lt x.PubKey
  cases hf : rangeFind (fun id => id.PubKey = x.PubKey) (Bucket t x.PubKey) with
  | some r =>
    obtain ⟨i, y⟩ := r
    rw [Update_found t x i y hz hf, Bucket_set t _ _ _ hidx]
    simp
  | none =>
    rw [Update_insert t x hz hf hlen, Bucket_set t _ _ _ hidx]
    simp

set_option maxRecDepth 100000 in
theorem C4_witness :
    exNear.PubKey ≠ ZeroPublicKey ∧ (Bucket exTable0 exNear.PubKey).length < BucketSize ∧
    (Bucket (Update exTable0 exNear).1 exNear.PubKey)[0]? = some exNear :=
  ⟨by decide, by decide,
    C4_update_puts_id_at_head exSelf exTable0 exTable0_reachable exNear (by decide) (by decide)⟩

/-- C5: for every reachable table and every ID `x`, `Update(x)` returns an error exactly
when `x.PubKey` is not the zero key, no entry of the bucket of `x` has the key of `x`, and
that bucket already holds `BucketSize` entries; it then returns `false` with the
bucket-full error for `x.PubKey` and leaves the table (every bucket and `size`) as it was.
`Update` returns no other error. -/
theorem C5_update_fails_iff_bucket_full (self : ID) (t : Table) (h : Reachable self t)
    (x : ID) :
    ((Update t x).2.2.isSome = true ↔
      (x.PubKey ≠ ZeroPublicKey ∧ (∀ id ∈ Bucket t x.PubKey, id.PubKey ≠ x.PubKey) ∧
        (Bucket t x.PubKey).length = BucketSize)) ∧
    ((Update t x).2.2.isSome = true →
      Update t x = (t, false, some (Err.bucketFull x.PubKey))) ∧
    (∀ e, (Update t x).2.2 = some e → e = Err.bucketFull x.PubKey) := by
  have hb : (Bucket t x.PubKey).length ≤ BucketSize := h.inv.bounded _
  by_cases hz : x.PubKey = ZeroPublicKey
  · rw [Update_zero t x hz]
    simp [hz]
  · cases hf : rangeFind (fun id => id.PubKey = x.PubKey) (Bucket t x.PubKey) with
    | some r =>
      obtain ⟨i, y⟩ := r
      obtain ⟨hy, hp, _⟩ := rangeFind_eq_some _ _ i y hf
      have hpk : y.PubKey = x.PubKey := by simpa using hp
      rw [Update_found t x i y hz hf]
      refine ⟨?_, by simp, by simp⟩
      simp only [Option.isSome_none, Bool.false_eq_true, false_iff, not_and]
      intro _ hall
      exact absurd hpk (hall y (List.getElem?_mem hy))
    | none =>
      have hnone : ∀ id ∈ Bucket t x.PubKey, id.PubKey ≠ x.PubKey := by
        intro id hid
        simpa using (rangeFind_eq_none _ _).mp hf id hid
      by_cases hlen : (Bucket t x.PubKey).length < BucketSize
      · rw [Update_insert t x hz hf hlen]
        refine ⟨?_, by simp, by simp⟩
        simp only [Option.isSome_none, Bool.false_eq_true, false_iff, not_and]
        intro _ _
        omega
      · rw [Update_full t x hz hf hlen]
        refine ⟨?_, by simp, ?_⟩
        · simp only [Option.isSome_some, true_iff]
          exact ⟨hz, hnone, by omega⟩
        · intro e he
          simpa using he.symm

set_option maxRecDepth 100000 in
theorem C5_witness :
    Update exFullTable (exPeer 16) = (exFullTable, false, some (Err.bucketFull (exPeer 16).PubKey)) :=
  (C5_update_fails_iff_bucket_full exSelf exFullTable exFullTable_reachable (exPeer 16)).2.1
    ((C5_update_fails_iff_bucket_full exSelf exFullTable exFullTable_reachable (exPeer 16)).1.mpr
      ⟨by decide, by decide, by decide⟩)

/-- C6: for every reachable table and every ID `x` whose public key already occurs at
position `i` of its bucket `b`, `Update(x)` returns `false` without error, the bucket
becomes `x` followed by `b` without position `i` (the other entries in their order), the
length of the bucket and `size` stay as they were, and so does every other bucket; a full
bucket makes no difference. -/
theorem C6_update_existing_moves_to_head (self : ID) (t : Table) (h : Reachable self t)
    (x y : ID) (i : Nat) (hy : (Bucket t x.PubKey)[i]? = some y) (hpk : y.PubKey = x.PubKey) :
    (Update t x).2 = (false, none) ∧
    Bucket (Update t x).1 x.PubKey = x :: (Bucket t x.PubKey).eraseIdx i ∧
    (Bucket t x.PubKey).eraseIdx i = (Bucket t x.PubKey).take i ++ (Bucket t x.PubKey).drop (i + 1) ∧
    (Bucket (Update t x).1 x.PubKey).length = (Bucket t x.PubKey).length ∧
    NumEntries (Update t x).1 = NumEntries t ∧
    (Update t x).1.entries.length = t.entries.length ∧
    (∀ j, j ≠ getBucketIndex t x.PubKey → (Update t x).1.bucket j = t.bucket j) := by
  have hidx := h.inv.idx_lt x.PubKey
  have hz : x.PubKey ≠ ZeroPublicKey := by
    rw [← hpk]
    exact h.inv.nonzero _ y (List.getElem?_mem hy)
  have hf := rangeFind_of_nodup _ i y x.PubKey (h.inv.nodup _) hy hpk
  have hlen := length_eraseIdx_add_one _ i y hy
  rw [Update_found t x i y hz hf, Bucket_set t _ _ _ hidx]
  refine ⟨rfl, rfl, (take_drop_eq_eraseIdx _ _).symm, ?_, rfl, by simp, ?_⟩
  · simp only [List.length_cons]
    exact hlen
  · intro j hj
    rw [bucket_set t _ j _ _ hidx]
    simp [hj]

set_option maxRecDepth 100000 in
theorem C6_witness :
    (Bucket exFullTable exPeerMoved.PubKey).length = BucketSize ∧
    (Bucket exFullTable exPeerMoved.PubKey)[12]? = some (exPeer 3) ∧
    (Update exFullTable exPeerMoved).2 = (false, none) ∧
    Bucket (Update exFullTable exPeerMoved).1 exPeerMoved.PubKey =
      exPeerMoved :: (Bucket exFullTable exPeerMoved.PubKey).eraseIdx 12 ∧
    (Bucket exFullTable exPeerMoved.PubKey).eraseIdx 12 =
      (Bucket exFullTable exPeerMoved.PubKey).take 12 ++
        (Bucket exFullTable exPeerMoved.PubKey).drop (12 + 1) ∧
    (Bucket (Update exFullTable exPeerMoved).1 exPeerMoved.PubKey).length =
      (Bucket exFullTable exPeerMoved.PubKey).length ∧
    NumEntries (Update exFullTable exPeerMoved).1 = NumEntries exFullTable ∧
    (Update exFullTable exPeerMoved).1.entries.length = exFullTable.entries.length ∧
    (∀ j, j ≠ getBucketIndex exFullTable exPeerMoved.PubKey →
      (Update exFullTable exPeerMoved).1.bucket j = exFullTable.bucket j) :=
  ⟨by decide, by decide,
    C6_update_existing_moves_to_head exSelf exFullTable exFullTable_reachable exPeerMoved
      (exPeer 3) 12 (by decide) (by decide)⟩

/-- C7: for every table and every ID `x` with the all-zero public key, `Update(x)` returns
`false` without error and leaves the table as it was; so no reachable table stores an
entry with the zero public key. -/
theorem C7_zero_key_is_never_inserted :
    (∀ (t : Table) (x : ID), x.PubKey = ZeroPublicKey → Update t x = (t, false, none)) ∧
    (∀ (self : ID) (t : Table), Reachable self t →
      ∀ id ∈ Entries t, id.PubKey ≠ ZeroPublicKey) := by
  refine ⟨Update_zero, ?_⟩
  intro self t h id hid
  obtain ⟨i, _, hi⟩ := (mem_Entries t id).mp hid
  exact h.inv.nonzero i id hi

theorem C7_witness :
    Update exTable zeroID = (exTable, false, none) ∧
    Reachable exSelf (Update exTable zeroID).1 ∧
    ∀ id ∈ Entries (Update exTable zeroID).1, id.PubKey ≠ ZeroPublicKey :=
  ⟨C7_zero_key_is_never_inserted.1 exTable zeroID rfl,
    Reachable.update _ _ exTable_reachable,
    C7_zero_key_is_never_inserted.2 exSelf _ (Reachable.update _ _ exTable_reachable)⟩

/-! ## `Delete` -/

/-- C8: for every reachable table and every public key `pk`: if an entry `y` with key `pk`
is stored, `Delete(pk)` returns `y` and `true`, the bucket of `pk` becomes the old bucket
without that one entry (the others in their order), every other bucket stays as it was and
`size` goes down by exactly 1; if no entry has the key `pk`, `Delete(pk)` returns the
zero-value ID and `false` and leaves the table as it was. -/
theorem C8_delete_removes_one_entry (self : ID) (t : Table) (h : Reachable self t)
    (pk : PublicKey) :
    (∀ y ∈ Entries t, y.PubKey = pk →
      (Delete t pk).2 = (y, true) ∧
      (∃ i, (Bucket t pk)[i]? = some y ∧
        Bucket (Delete t pk).1 pk = (Bucket t pk).take i ++ (Bucket t pk).drop (i + 1)) ∧
      (∀ j, j ≠ getBucketIndex t pk → (Delete t pk).1.bucket j = t.bucket j) ∧
      (Delete t pk).1.entries.length = t.entries.length ∧
      NumEntries (Delete t pk).1 = NumEntries t - 1) ∧
    ((∀ y ∈ Entries t, y.PubKey ≠ pk) → Delete t pk = (t, zeroID, false)) := by
  have hidx := h.inv.idx_lt pk
  constructor
  · intro y hy hpk
    obtain ⟨j, _, hj⟩ := (mem_Entries t y).mp hy
    have hjdx : getBucketIndex t pk = j := by rw [← hpk]; exact h.inv.placed j y hj
    subst hjdx
    obtain ⟨i, hi⟩ := List.getElem?_of_mem hj
    have hf := rangeFind_of_nodup _ i y pk (h.inv.nodup _) hi hpk
    rw [Delete_found t pk i y hf, Bucket_set t _ _ _ hidx]
    refine ⟨rfl, ⟨i, hi, (take_drop_eq_eraseIdx _ _).symm⟩, ?_, by simp, rfl⟩
    intro j hj
    rw [bucket_set t _ j _ _ hidx]
    simp [hj]
  · intro hall
    apply Delete_missing
    rw [rangeFind_eq_none]
    intro y hy
    have : y ∈ Entries t := (mem_Entries t y).mpr ⟨_, hidx, hy⟩
    simpa using hall y this

set_option maxRecDepth 100000 in
theorem C8_witness :
    ((Delete exTable exFar.PubKey).2 = (exFar, true) ∧
      (∃ i, (Bucket exTable exFar.PubKey)[i]? = some exFar ∧
        Bucket (Delete exTable exFar.PubKey).1 exFar.PubKey =
          (Bucket exTable exFar.PubKey).take i ++ (Bucket exTable exFar.PubKey).drop (i + 1)) ∧
      (∀ j, j ≠ getBucketIndex exTable exFar.PubKey →
        (Delete exTable exFar.PubKey).1.bucket j = exTable.bucket j) ∧
      (Delete exTable exFar.PubKey).1.entries.length = exTable.entries.length ∧
      NumEntries (Delete exTable exFar.PubKey).1 = NumEntries exTable - 1) ∧
    Delete exTable exTarget = (exTable, zeroID, false) :=
  ⟨(C8_delete_removes_one_entry exSelf exTable exTable_reachable exFar.PubKey).1 exFar
      (by decide) rfl,
    (C8_delete_removes_one_entry exSelf exTable exTable_reachable exTarget).2 (by decide)⟩

/-! ## Distance order and sorting -/

theorem bytesLess_asymm (a b : List Byte) (h : bytesLess a b = true) : bytesLess b a = false := by
  induction a generalizing b with
  | nil => cases b <;> simp [bytesLess] at h ⊢
  | cons x xs ih =>
    cases b with
    | nil => simp [bytesLess] at h
    | cons y ys =>
      simp only [bytesLess] at h ⊢
      split_ifs at h ⊢ <;> first
        | omega
        | rfl
        | exact ih ys h

/-- The order "not farther than" is transitive. -/
theorem bytesLess_trans_le (a b c : List Byte) (hab : bytesLess b a = false)
    (hbc : bytesLess c b = false) : bytesLess c a = false := by
  induction a generalizing b c with
  | nil => cases c <;> simp [bytesLess]
  | cons x xs ih =>
    cases b with
    | nil => simp [bytesLess] at hab
    | cons y ys =>
      cases c with
      | nil => simp [bytesLess] at hbc
      | cons z zs =>
        simp only [bytesLess] at hab hbc ⊢
        split_ifs at hab hbc ⊢ <;> first
          | omega
          | rfl
          | exact ih ys zs hab hbc

theorem insertByDistance_perm (target : PublicKey) (x : ID) (l : List ID) :
    (insertByDistance target x l).Perm (x :: l) := by
  induction l with
  | nil => exact List.Perm.refl _
  | cons y ys ih =>
    simp only [insertByDistance]
    split_ifs
    · exact List.Perm.refl _
    · exact (ih.cons y).trans (List.Perm.swap x y ys)

/-- `SortByDistance` rearranges its input. -/
theorem SortByDistance_perm (target : PublicKey) (l : List ID) :
    (SortByDistance target l).Perm l := by
  induction l with
  | nil => exact List.Perm.refl _
  | cons x xs ih =>
    exact (insertByDistance_perm target x _).trans (ih.cons x)

theorem insertByDistance_sorted (target : PublicKey) (x : ID) (l : List ID)
    (h : l.Pairwise (fun a b => closer target b a = false)) :
    (insertByDistance target x l).Pairwise (fun a b => closer target b a = false) := by
  induction l with
  | nil => simp [insertByDistance]
  | cons y ys ih =>
    rw [List.pairwise_cons] at h
    simp only [insertByDistance]
    split_ifs with hxy
    · refine List.pairwise_cons.mpr ⟨?_, List.pairwise_cons.mpr h⟩
      intro z hz
      have hyx : closer target y x = false := bytesLess_asymm _ _ hxy
      rcases List.mem_cons.mp hz with rfl | hz
      · exact hyx
      · exact bytesLess_trans_le _ _ _ hyx (h.1 z hz)
    · refine List.pairwise_cons.mpr ⟨?_, ih h.2⟩
      intro z hz
      rcases List.mem_cons.mp ((insertByDistance_perm target x ys).subset hz) with rfl | hz
      · simpa using hxy
      · exact h.1 z hz

/-- `SortByDistance` returns a list in which no entry is strictly closer to `target` than an
entry before it. -/
theorem SortByDistance_sorted (target : PublicKey) (l : List ID) :
    (SortByDistance target l).Pairwise (fun a b => closer target b a = false) := by
  induction l with
  | nil => simp [SortByDistance]
  | cons x xs ih => exact insertByDistance_sorted target x _ ih

/-! ## `FindClosest` -/

/-- The truncation `if len(closest) > k { closest = closest[:k] }` is `take k`. -/
theorem FindClosest_eq (t : Table) (target : PublicKey) (k : Nat) :
    FindClosest t target k =
      (SortByDistance target
        (expand t target k (getBucketIndex t target) t.entries.length 1
          (collect target [] (t.bucket (getBucketIndex t target))))).take k := by
  simp only [FindClosest]
  split_ifs with h
  · rfl
  · rw [List.take_of_length_le (by omega)]

/-- The loop of `FindClosest` never uses up its `len(t.entries)` iterations: a larger bound
gives the same result. -/
theorem expand_fuel (t : Table) (target : PublicKey) (k idx : Nat) (fuel extra i : Nat)
    (closest : List ID) (hidx : idx < t.entries.length) (hfuel : t.entries.length ≤ fuel + i) :
    expand t target k idx (fuel + extra) i closest = expand t target k idx fuel i closest := by
  induction fuel generalizing i closest with
  | zero =>
    cases extra with
    | zero => rfl
    | succ e =>
      have hc : ¬ (closest.length < k ∧ (i ≤ idx ∨ idx + i < t.entries.length)) := by omega
      simp only [Nat.zero_add, expand, hc, if_false]
  | succ f ih =>
    rw [show f + 1 + extra = (f + extra) + 1 by omega]
    simp only [expand]
    split_ifs <;> first
      | rfl
      | exact ih _ _ (by omega)

/-- What the loop of `FindClosest` has collected when it stops: the entries with a key other
than `target` of pairwise different buckets `vis`, and either at least `k` of them or those
of all buckets. -/
theorem expand_visits (t : Table) (target : PublicKey) (k idx : Nat)
    (hidx : idx < t.entries.length) (fuel i : Nat) (closest : List ID) (vis : List Nat)
    (hi : 1 ≤ i) (hfuel : t.entries.length ≤ fuel + i)
    (hc : closest = vis.flatMap (fun j => (t.bucket j).filter (fun id => id.PubKey ≠ target)))
    (hn : vis.Nodup)
    (hv : ∀ j, j ∈ vis ↔ j < t.entries.length ∧ idx < j + i ∧ j < idx + i) :
    ∃ vis' : List Nat,
      expand t target k idx fuel i closest
        = vis'.flatMap (fun j => (t.bucket j).filter (fun id => id.PubKey ≠ target)) ∧
      vis'.Nodup ∧ (∀ j ∈ vis', j < t.entries.length) ∧
      (k ≤ (expand t target k idx fuel i closest).length ∨
        ∀ j, j < t.entries.length → j ∈ vis') := by
  induction fuel generalizing i closest vis with
  | zero =>
    refine ⟨vis, hc, hn, fun j hj => ((hv j).mp hj).1, Or.inr ?_⟩
    intro j hj
    exact (hv j).mpr ⟨hj, by omega, by omega⟩
  | succ f ih =>
    simp only [expand]
    split_ifs with hcond h1 h2 h2
    · apply ih (i + 1) _ (vis ++ [idx - i] ++ [idx + i]) (by omega) (by omega)
      · simp [collect, hc, List.flatMap_append]
      · simp only [List.append_assoc, List.singleton_append]
        rw [List.nodup_append]
        refine ⟨hn, by simp; omega, ?_⟩
        intro a ha hb
        have := (hv a).mp ha
        simp at hb
        omega
      · intro j
        simp only [List.mem_append, List.mem_singleton, hv j]
        omega
    · apply ih (i + 1) _ (vis ++ [idx + i]) (by omega) (by omega)
      · simp [collect, hc, List.flatMap_append]
      · rw [List.nodup_append]
        refine ⟨hn, by simp, ?_⟩
        intro a ha hb
        have := (hv a).mp ha
        simp at hb
        omega
      · intro j
        simp only [List.mem_append, List.mem_singleton, hv j]
        omega
    · apply ih (i + 1) _ (vis ++ [idx - i]) (by omega) (by omega)
      · simp [collect, hc, List.flatMap_append]
      · rw [List.nodup_append]
        refine ⟨hn, by simp, ?_⟩
        intro a ha hb
        have := (hv a).mp ha
        simp at hb
        omega
      · intro j
        simp only [List.mem_append, List.mem_singleton, hv j]
        omega
    · omega
    · refine ⟨vis, hc, hn, fun j hj => ((hv j).mp hj).1, ?_⟩
      by_cases hk : k ≤ closest.length
      · exact Or.inl hk
      · right
        intro j hj
        exact (hv j).mpr ⟨hj, by omega, by omega⟩

theorem map_getD_range (l : List (List ID)) :
    (List.range l.length).map (fun j => l.getD j []) = l := by
  apply List.ext_getElem
  · simp
  · intro n h1 h2
    simp [List.getD_eq_getElem?_getD, h2]

theorem filter_Entries_eq (t : Table) (p : ID → Bool) :
    (Entries t).filter p = (List.range t.entries.length).flatMap (fun j => (t.bucket j).filter p) := by
  have h : (fun j => (t.bucket j).filter p) = (List.filter p) ∘ (fun j => t.entries.getD j []) := rfl
  rw [Entries, List.filter_flatten, List.flatMap_def, h, ← List.map_map, map_getD_range]

/-- The list that `FindClosest` sorts and truncates holds entries of the table with a key
other than `target`, each of them once; it holds at least `k` of them or all of them. -/
theorem FindClosest_collected {self : ID} {t : Table} (h : Inv self t) (target : PublicKey)
    (k : Nat) :
    ∃ rest : List ID,
      ((Entries t).filter (fun id => id.PubKey ≠ target)).Perm
        (expand t target k (getBucketIndex t target) t.entries.length 1
          (collect target [] (t.bucket (getBucketIndex t target))) ++ rest) ∧
      (k ≤ (expand t target k (getBucketIndex t target) t.entries.length 1
          (collect target [] (t.bucket (getBucketIndex t target)))).length ∨ rest = []) := by
  obtain ⟨vis, hexp, hn, hlt, hall⟩ :=
    expand_visits t target k (getBucketIndex t target) (h.idx_lt target) t.entries.length 1
      (collect target [] (t.bucket (getBucketIndex t target))) [getBucketIndex t target]
      (le_refl 1) (by omega) (by simp [collect]) (by simp)
      (by
        intro j
        have := h.idx_lt target
        simp only [List.mem_singleton]
        omega)
  have hperm : (List.range t.entries.length).Perm
      (vis ++ (List.range t.entries.length).filter (fun j => j ∉ vis)) := by
    rw [List.perm_ext_iff_of_nodup (List.nodup_range _)]
    · intro a
      simp only [List.mem_range, List.mem_append, List.mem_filter, decide_eq_true_eq]
      constructor
      · intro ha
        by_cases hv : a ∈ vis
        · exact Or.inl hv
        · exact Or.inr ⟨ha, hv⟩
      · rintro (hv | ⟨ha, _⟩)
        · exact hlt a hv
        · exact ha
    · rw [List.nodup_append]
      refine ⟨hn, (List.nodup_range _).filter _, ?_⟩
      intro a ha hb
      simp only [List.mem_filter, decide_eq_true_eq] at hb
      exact hb.2 ha
  refine ⟨((List.range t.entries.length).filter (fun j => j ∉ vis)).flatMap
      (fun j => (t.bucket j).filter (fun id => id.PubKey ≠ target)), ?_, ?_⟩
  · rw [filter_Entries_eq, hexp, ← List.flatMap_append]
    exact hperm.flatMap_right _
  · rcases hall with hk | hall
    · exact Or.inl hk
    · right
      have : (List.range t.entries.length).filter (fun j => j ∉ vis) = [] := by
        rw [List.filter_eq_nil_iff]
        intro a ha
        simpa using hall a (List.mem_range.mp ha)
      rw [this]
      rfl

/-- C9: for every reachable table, every key `k` and every `n ≥ 0`, `FindClosest(k, n)`
returns entries of the table whose public keys are pairwise distinct and all different from
`k`; its length is the minimum of `n` and the number of stored entries whose key is not `k`;
it is sorted by ascending XOR distance to `k` (no entry is strictly closer to `k`, in the
big-endian lexicographic order of the XOR bytes, than an entry before it). When the table
holds at most `n` entries other than `k`, all of them are returned. -/
theorem C9_FindClosest_distinct_sorted_length (self : ID) (t : Table) (h : Reachable self t)
    (k : PublicKey) (n : Nat) :
    ((FindClosest t k n).map ID.PubKey).Nodup ∧
    (∀ id ∈ FindClosest t k n, id.PubKey ≠ k ∧ id ∈ Entries t) ∧
    (FindClosest t k n).length
      = min n ((Entries t).filter (fun id => id.PubKey ≠ k)).length ∧
    (FindClosest t k n).Pairwise (fun a b => closer k b a = false) ∧
    (((Entries t).filter (fun id => id.PubKey ≠ k)).length ≤ n →
      ∀ id ∈ Entries t, id.PubKey ≠ k → id ∈ FindClosest t k n) := by
  obtain ⟨rest, hperm, hrest⟩ := FindClosest_collected h.inv k n
  rw [FindClosest_eq]
  generalize expand t k n (getBucketIndex t k) t.entries.length 1
    (collect k [] (t.bucket (getBucketIndex t k))) = closest at hperm hrest
  have hsort := SortByDistance_perm k closest
  have hlen : ((Entries t).filter (fun id => id.PubKey ≠ k)).length
      = closest.length + rest.length := by
    rw [hperm.length_eq, List.length_append]
  have hsub : ∀ id ∈ (SortByDistance k closest).take n, id ∈ (Entries t).filter (fun id => id.PubKey ≠ k) := by
    intro id hid
    exact hperm.symm.subset (List.mem_append_left _ (hsort.subset (List.mem_of_mem_take hid)))
  refine ⟨?_, ?_, ?_, ?_, ?_⟩
  · have h1 : (((Entries t).filter (fun id => id.PubKey ≠ k)).map ID.PubKey).Nodup :=
      h.inv.nodup_entries.sublist ((List.filter_sublist _).map _)
    have h2 : ((closest ++ rest).map ID.PubKey).Nodup := ((hperm.map _).nodup_iff).mp h1
    rw [List.map_append] at h2
    have h3 : (closest.map ID.PubKey).Nodup := (List.nodup_append.mp h2).1
    have h4 : ((SortByDistance k closest).map ID.PubKey).Nodup :=
      ((hsort.map _).nodup_iff).mpr h3
    exact h4.sublist ((List.take_sublist _ _).map _)
  · intro id hid
    have := List.mem_filter.mp (hsub id hid)
    exact ⟨by simpa using this.2, this.1⟩
  · rw [List.length_take, hsort.length_eq, hlen]
    rcases hrest with hk | rfl
    · omega
    · simp
  · exact (SortByDistance_sorted k closest).sublist (List.take_sublist _ _)
  · intro hle id hid hne
    have hr : rest = [] := by
      rcases hrest with hk | hr
      · exact List.eq_nil_of_length_eq_zero (by omega)
      · exact hr
    subst hr
    rw [List.take_of_length_le (by rw [hsort.length_eq]; omega)]
    have hmem : id ∈ (Entries t).filter (fun id => id.PubKey ≠ k) :=
      List.mem_filter.mpr ⟨hid, by simpa using hne⟩
    have := hperm.subset hmem
    rw [List.append_nil] at this
    exact hsort.symm.subset this

set_option maxRecDepth 100000 in
theorem C9_witness :
    Reachable exSelf exTable ∧
    ((Entries exTable).filter (fun id => id.PubKey ≠ exTarget)).length ≤ 5 ∧
    ((FindClosest exTable exTarget 5).map ID.PubKey).Nodup ∧
    (∀ id ∈ FindClosest exTable exTarget 5, id.PubKey ≠ exTarget ∧ id ∈ Entries exTable) ∧
    (FindClosest exTable exTarget 5).length
      = min 5 ((Entries exTable).filter (fun id => id.PubKey ≠ exTarget)).length ∧
    (FindClosest exTable exTarget 5).Pairwise (fun a b => closer exTarget b a = false) ∧
    (∀ id ∈ Entries exTable, id.PubKey ≠ exTarget → id ∈ FindClosest exTable exTarget 5) :=
  have hc := C9_FindClosest_distinct_sorted_length exSelf exTable exTable_reachable exTarget 5
  ⟨exTable_reachable, by decide, hc.1, hc.2.1, hc.2.2.1, hc.2.2.2.1, hc.2.2.2.2 (by decide)⟩

set_option maxRecDepth 100000 in
/-- C10: `FindClosest` does not always return the `k` closest IDs. In the table of `exSelf`
(key `00…01`) that holds `exFar` (key `80…00`, bucket 0) and `exNear` (key `10…00`,
bucket 3), `FindClosest(exTarget, 1)` with `exTarget = 40…00` (bucket 1) returns `[exFar]`:
the loop stops after the buckets 1, 0 and 2. The stored `exNear`, whose key is not the
target, is missing from the result and is strictly closer to the target (XOR distance
`50…00`) than the returned `exFar` (XOR distance `C0…00`). -/
theorem C10_FindClosest_misses_a_closer_entry :
    Reachable exSelf exTable ∧
    getBucketIndex exTable exTarget = 1 ∧
    getBucketIndex exTable exFar.PubKey = 0 ∧
    getBucketIndex exTable exNear.PubKey = 3 ∧
    FindClosest exTable exTarget 1 = [exFar] ∧
    exNear ∈ Entries exTable ∧ exNear.PubKey ≠ exTarget ∧
    exNear ∉ FindClosest exTable exTarget 1 ∧
    closer exTarget exNear exFar = true ∧
    ¬ (∀ (self : ID) (t : Table) (target : PublicKey) (k : Nat), Reachable self t →
        ∀ a ∈ FindClosest t target k, ∀ b ∈ Entries t, b.PubKey ≠ target →
          b ∉ FindClosest t target k → closer target b a = false) := by
  refine ⟨exTable_reachable, by decide, by decide, by decide, by decide, by decide, by decide,
    by decide, by decide, ?_⟩
  intro hall
  have := hall exSelf exTable exTarget 1 exTable_reachable exFar (by decide) exNear
    (by decide) (by decide) (by decide)
  exact absurd this (by decide)

/-! ## `NewTable` -/

theorem bucket_empty_table (self : ID) (i : Nat) :
    Table.bucket ⟨List.replicate (SizePublicKey * 8) [], self, 0⟩ i = [] := by
  simp only [Table.bucket, List.getD_eq_getElem?_getD, List.getElem?_replicate]
  split_ifs <;> rfl

/-- C11, as the code has it: for every ID `self` whose public key is not the zero key, the
table returned by `NewTable(self)` holds `self` in its own bucket, and nothing else:
`Recorded(self.PubKey)` is true and `Bucket(self.PubKey)` is `[self]`. For a `self` with the
zero key `NewTable(self)` is the table with all buckets empty. -/
theorem C11_NewTable_holds_self_unless_zero_key (self : ID) :
    (self.PubKey ≠ ZeroPublicKey →
      ∃ t, NewTable self = Except.ok t ∧ Recorded t self.PubKey = true ∧
        self ∈ Bucket t self.PubKey ∧ Bucket t self.PubKey = [self] ∧ NumEntries t = 1) ∧
    (self.PubKey = ZeroPublicKey →
      NewTable self = Except.ok ⟨List.replicate (SizePublicKey * 8) [], self, 0⟩) := by
  constructor
  · intro hz
    have hb : Bucket ⟨List.replicate (SizePublicKey * 8) [], self, 0⟩ self.PubKey = [] :=
      bucket_empty_table self _
    have hf : rangeFind (fun id => id.PubKey = self.PubKey)
        (Bucket ⟨List.replicate (SizePublicKey * 8) [], self, 0⟩ self.PubKey) = none := by
      rw [hb]; rfl
    have hlen : (Bucket ⟨List.replicate (SizePublicKey * 8) [], self, 0⟩ self.PubKey).length
        < BucketSize := by
      rw [hb]; simp
    have hidx : getBucketIndex ⟨List.replicate (SizePublicKey * 8) [], self, 0⟩ self.PubKey
        < (List.replicate (SizePublicKey * 8) ([] : List ID)).length := by
      rw [List.length_replicate]
      exact getBucketIndex_lt _ _
    refine ⟨_, NewTable_ok self, ?_⟩
    rw [Update_insert _ _ hz hf hlen, hb]
    have hB := Bucket_set ⟨List.replicate (SizePublicKey * 8) [], self, 0⟩ self.PubKey [self]
      (0 + 1) hidx
    refine ⟨?_, ?_, hB, rfl⟩
    · have hB' := hB
      simp only [Bucket] at hB'
      simp only [Recorded]
      rw [hB']
      simp [rangeFind]
    · rw [hB]; simp
  · intro hz
    rw [NewTable_ok, Update_zero _ _ hz]

set_option maxRecDepth 100000 in
theorem C11_witness :
    exSelf.PubKey ≠ ZeroPublicKey ∧
    ∃ t, NewTable exSelf = Except.ok t ∧ Recorded t exSelf.PubKey = true ∧
      exSelf ∈ Bucket t exSelf.PubKey ∧ Bucket t exSelf.PubKey = [exSelf] ∧ NumEntries t = 1 :=
  ⟨by decide, (C11_NewTable_holds_self_unless_zero_key exSelf).1 (by decide)⟩

set_option maxRecDepth 100000 in
/-- C11 fails for a `self` with the zero public key: `Update(self)` returns at its zero-key
guard, so `NewTable(exZeroSelf)` is the empty table, `Recorded(self.PubKey)` is false and
`Bucket(self.PubKey)` does not contain `self`. -/
theorem C11_counterexample :
    NewTable exZeroSelf = Except.ok exZeroTable ∧
    Recorded exZeroTable exZeroSelf.PubKey = false ∧
    exZeroSelf ∉ Bucket exZeroTable exZeroSelf.PubKey ∧
    Bucket exZeroTable exZeroSelf.PubKey = [] :=
  ⟨by rfl, by decide, by decide, by decide⟩

/-! ## The bucket index -/

theorem xorByte_eq_zero (a b : Byte) : (xorByte a b).val = 0 ↔ a = b := by
  have ha : a.val < 2 ^ 8 := a.isLt
  have hb : b.val < 2 ^ 8 := b.isLt
  have hlt : a.val ^^^ b.val < 256 := Nat.xor_lt_two_pow ha hb
  simp only [xorByte, Nat.mod_eq_of_lt hlt, Nat.xor_eq_zero]
  exact ⟨fun h => Fin.ext h, fun h => by rw [h]⟩

theorem beNat_lt (l : List Byte) : beNat l < 256 ^ l.length := by
  induction l with
  | nil => simp [beNat]
  | cons b rest ih =>
    simp only [beNat, List.length_cons, pow_succ]
    have hb : b.val + 1 ≤ 256 := b.isLt
    have := Nat.mul_le_mul_right (256 ^ rest.length) hb
    rw [Nat.add_mul] at this
    omega

theorem beNat_eq_zero (l : List Byte) : beNat l = 0 ↔ ∀ b ∈ l, b.val = 0 := by
  induction l with
  | nil => simp [beNat]
  | cons b rest ih =>
    simp only [beNat, List.mem_cons, forall_eq_or_imp, Nat.add_eq_zero_iff, ih, mul_eq_zero]
    have : 256 ^ rest.length ≠ 0 := by positivity
    simp [this]

/-- A nonzero byte with `z` leading zero bits lies between `2^(7-z)` and `2^(8-z)`. -/
theorem LeadingZeros8_spec (b : Byte) (h : b.val ≠ 0) :
    LeadingZeros8 b ≤ 7 ∧ 2 ^ (7 - LeadingZeros8 b) ≤ b.val ∧
      b.val < 2 ^ (8 - LeadingZeros8 b) := by
  have hb := b.isLt
  unfold LeadingZeros8
  split_ifs <;> simp <;> omega

/-- The number of leading zero bits of a nonzero byte string locates its highest set
bit. -/
theorem PrefixLen_spec (l : List Byte) (h : beNat l ≠ 0) :
    PrefixLen l < 8 * l.length ∧ 2 ^ (8 * l.length - 1 - PrefixLen l) ≤ beNat l ∧
      beNat l < 2 ^ (8 * l.length - PrefixLen l) := by
  induction l with
  | nil => simp [beNat] at h
  | cons b rest ih =>
    simp only [PrefixLen, List.length_cons]
    split_ifs with hb
    · have hrest : beNat rest ≠ 0 := by
        simpa [beNat, hb] using h
      obtain ⟨h1, h2, h3⟩ := ih hrest
      have e : beNat (b :: rest) = beNat rest := by simp [beNat, hb]
      rw [e]
      refine ⟨by omega, ?_, ?_⟩
      · rw [show 8 * (rest.length + 1) - 1 - (8 + PrefixLen rest)
            = 8 * rest.length - 1 - PrefixLen rest by omega]
        exact h2
      · rw [show 8 * (rest.length + 1) - (8 + PrefixLen rest)
            = 8 * rest.length - PrefixLen rest by omega]
        exact h3
    · obtain ⟨hz, hlo, hhi⟩ := LeadingZeros8_spec b hb
      have hr := beNat_lt rest
      have hp : (256 : Nat) ^ rest.length = 2 ^ (8 * rest.length) := by
        rw [show (256 : Nat) = 2 ^ 8 by norm_num, ← pow_mul]
      rw [hp] at hr
      simp only [beNat, hp]
      refine ⟨by omega, ?_, ?_⟩
      · rw [show 8 * (rest.length + 1) - 1 - LeadingZeros8 b
            = (7 - LeadingZeros8 b) + 8 * rest.length by omega, pow_add]
        have := Nat.mul_le_mul_right (2 ^ (8 * rest.length)) hlo
        omega
      · rw [show 8 * (rest.length + 1) - LeadingZeros8 b
            = (8 - LeadingZeros8 b) + 8 * rest.length by omega, pow_add]
        have h1 : b.val + 1 ≤ 2 ^ (8 - LeadingZeros8 b) := hhi
        have := Nat.mul_le_mul_right (2 ^ (8 * rest.length)) h1
        rw [Nat.add_mul] at this
        omega

theorem PrefixLen_of_zero (l : List Byte) (h : ∀ b ∈ l, b.val = 0) :
    PrefixLen l = 8 * l.length := by
  induction l with
  | nil => rfl
  | cons b rest ih =>
    simp only [List.mem_cons, forall_eq_or_imp] at h
    simp only [PrefixLen, h.1, if_true, List.length_cons, ih h.2]
    omega

/-- The XOR of two byte strings of equal length is all zero only if they are equal. -/
theorem XOR_zero_iff (a b : List Byte) (hlen : a.length = b.length) :
    (∀ x ∈ XOR a b, x.val = 0) ↔ a = b := by
  induction a generalizing b with
  | nil =>
    cases b with
    | nil => simp [XOR]
    | cons y ys => simp at hlen
  | cons x xs ih =>
    cases b with
    | nil => simp at hlen
    | cons y ys =>
      have hl : xs.length = ys.length := by simpa using hlen
      have := ih ys hl
      simp only [XOR] at this
      simp only [XOR, List.zipWith_cons_cons, List.mem_cons, forall_eq_or_imp, xorByte_eq_zero,
        this, List.cons.injEq]

theorem PublicKey.ext_bytes (a b : PublicKey) (h : a.bytes = b.bytes) : a = b := by
  cases a; cases b; simp only [PublicKey.mk.injEq]; exact h

/-- C12: for every self key and every target key, `getBucketIndex(target)` is at most 255.
When `target ≠ self`, the XOR `d` of the two keys is not zero, `getBucketIndex(target)` is
the number `p` of leading zero bits of `d` (that is, `2^(255-p) ≤ d < 2^(256-p)` for `d` read
as a big-endian integer), and `p = 255 - floor(log2(d))`. When `target = self`, `p` is 256
and `getBucketIndex(target)` is 255. -/
theorem C12_getBucketIndex_is_clamped_prefix_length (t : Table) (target : PublicKey) :
    getBucketIndex t target ≤ 255 ∧
    (target ≠ t.self.PubKey →
      beNat (XOR target.bytes t.self.PubKey.bytes) ≠ 0 ∧
      getBucketIndex t target = PrefixLen (XOR target.bytes t.self.PubKey.bytes) ∧
      2 ^ (255 - PrefixLen (XOR target.bytes t.self.PubKey.bytes))
        ≤ beNat (XOR target.bytes t.self.PubKey.bytes) ∧
      beNat (XOR target.bytes t.self.PubKey.bytes)
        < 2 ^ (256 - PrefixLen (XOR target.bytes t.self.PubKey.bytes)) ∧
      PrefixLen (XOR target.bytes t.self.PubKey.bytes)
        = 255 - Nat.log 2 (beNat (XOR target.bytes t.self.PubKey.bytes))) ∧
    (target = t.self.PubKey →
      PrefixLen (XOR target.bytes t.self.PubKey.bytes) = 256 ∧
      getBucketIndex t target = 255) := by
  have hlen : target.bytes.length = t.self.PubKey.bytes.length := by
    rw [target.size_eq, t.self.PubKey.size_eq]
  have hxl : (XOR target.bytes t.self.PubKey.bytes).length = 32 := by
    rw [XOR_length, target.size_eq, t.self.PubKey.size_eq]
    rfl
  refine ⟨?_, ?_, ?_⟩
  · have := getBucketIndex_lt t target
    simp only [SizePublicKey] at this
    omega
  · intro hne
    have hnz : beNat (XOR target.bytes t.self.PubKey.bytes) ≠ 0 := by
      intro h0
      rw [beNat_eq_zero, XOR_zero_iff _ _ hlen] at h0
      exact hne (PublicKey.ext_bytes _ _ h0)
    obtain ⟨h1, h2, h3⟩ := PrefixLen_spec _ hnz
    rw [hxl] at h1 h2 h3
    have hidx : getBucketIndex t target = PrefixLen (XOR target.bytes t.self.PubKey.bytes) := by
      simp only [getBucketIndex, SizePublicKey]
      rw [if_neg (by omega)]
    refine ⟨hnz, hidx, by simpa using h2, by simpa using h3, ?_⟩
    have hlog : Nat.log 2 (beNat (XOR target.bytes t.self.PubKey.bytes))
        = 8 * 32 - 1 - PrefixLen (XOR target.bytes t.self.PubKey.bytes) := by
      apply Nat.log_eq_of_pow_le_of_lt_pow h2
      rw [show 8 * 32 - 1 - PrefixLen (XOR target.bytes t.self.PubKey.bytes) + 1
          = 8 * 32 - PrefixLen (XOR target.bytes t.self.PubKey.bytes) by omega]
      exact h3
    omega
  · intro heq
    have hz : ∀ x ∈ XOR target.bytes t.self.PubKey.bytes, x.val = 0 := by
      rw [XOR_zero_iff _ _ hlen, heq]
    have hp := PrefixLen_of_zero _ hz
    rw [hxl] at hp
    refine ⟨hp, ?_⟩
    simp only [getBucketIndex, SizePublicKey, hp]
    rfl

set_option maxRecDepth 100000 in
theorem C12_witness :
    (exTarget ≠ exTable.self.PubKey ∧
      getBucketIndex exTable exTarget = 1 ∧
      PrefixLen (XOR exTarget.bytes exTable.self.PubKey.bytes) = 1 ∧
      PrefixLen (XOR exTarget.bytes exTable.self.PubKey.bytes)
        = 255 - Nat.log 2 (beNat (XOR exTarget.bytes exTable.self.PubKey.bytes))) ∧
    (PrefixLen (XOR exSelf.PubKey.bytes exTable.self.PubKey.bytes) = 256 ∧
      getBucketIndex exTable exSelf.PubKey = 255) :=
  ⟨⟨by decide, by decide, by decide,
      ((C12_getBucketIndex_is_clamped_prefix_length exTable exTarget).2.1 (by decide)).2.2.2.2⟩,
    (C12_getBucketIndex_is_clamped_prefix_length exTable exSelf.PubKey).2.2 (by decide)⟩

/-! ## Seventeen keys for one bucket -/

theorem LeadingZeros8_of_ge (b : Byte) (h : 128 ≤ b.val) : LeadingZeros8 b = 0 := by
  unfold LeadingZeros8
  split_ifs <;> omega

/-- With the all-zero self key, a key whose first bit is 1 maps to bucket 0. -/
theorem getBucketIndex_of_firstBitSet (t : Table) (pk : PublicKey)
    (hself : t.self.PubKey = ZeroPublicKey) (hbit : firstBitSet pk = true) :
    getBucketIndex t pk = 0 := by
  obtain ⟨bytes, hsize⟩ := pk
  cases bytes with
  | nil => simp [firstBitSet] at hbit
  | cons b rest =>
    simp only [firstBitSet, decide_eq_true_eq] at hbit
    have hx : (xorByte b 0).val = b.val := by
      simp [xorByte, Nat.mod_eq_of_lt b.isLt]
    have hz : List.replicate SizePublicKey (0 : Byte) = 0 :: List.replicate 31 0 := rfl
    have hne : ¬ (b.val = 0) := by omega
    simp only [getBucketIndex, hself, ZeroPublicKey, hz, XOR, List.zipWith_cons_cons, PrefixLen,
      hx, hne, if_false, LeadingZeros8_of_ge _ (hx ▸ hbit)]
    rfl

theorem ne_zero_of_firstBitSet (pk : PublicKey) (hbit : firstBitSet pk = true) :
    pk ≠ ZeroPublicKey := by
  intro h
  rw [h] at hbit
  exact absurd hbit (by decide)

/-- One `Update` with a new first-bit-1 key on a table with the all-zero self key whose
first bucket is `b`. -/
theorem Update_first_bucket (self : ID) (b : List ID) (tl : List (List ID)) (x : ID)
    (hself : self.PubKey = ZeroPublicKey) (hbit : firstBitSet x.PubKey = true)
    (hnew : ∀ id ∈ b, id.PubKey ≠ x.PubKey) :
    Update ⟨b :: tl, self, (b.length : Int)⟩ x =
      if b.length < BucketSize then
        (⟨(x :: b) :: tl, self, ((x :: b).length : Int)⟩, true, none)
      else (⟨b :: tl, self, (b.length : Int)⟩, false, some (Err.bucketFull x.PubKey)) := by
  have hidx : getBucketIndex ⟨b :: tl, self, (b.length : Int)⟩ x.PubKey = 0 :=
    getBucketIndex_of_firstBitSet _ _ hself hbit
  have hB : Bucket ⟨b :: tl, self, (b.length : Int)⟩ x.PubKey = b := by
    simp [Bucket, hidx, Table.bucket]
  have hz := ne_zero_of_firstBitSet _ hbit
  have hf : rangeFind (fun id => id.PubKey = x.PubKey)
      (Bucket ⟨b :: tl, self, (b.length : Int)⟩ x.PubKey) = none := by
    rw [hB, rangeFind_eq_none]
    intro id hid
    simpa using hnew id hid
  split_ifs with hlen
  · rw [Update_insert _ _ hz hf (by rw [hB]; exact hlen), hB, hidx]
    simp
  · rw [Update_full _ _ hz hf (by rw [hB]; exact hlen)]

theorem updateAll_cons (t : Table) (x : ID) (xs : List ID) :
    updateAll t (x :: xs) = updateAll (Update t x).1 xs := rfl

theorem updateAll_append (t : Table) (xs ys : List ID) :
    updateAll t (xs ++ ys) = updateAll (updateAll t xs) ys := by
  simp [updateAll, List.foldl_append]

theorem updateResults_append (t : Table) (xs ys : List ID) :
    updateResults t (xs ++ ys) = updateResults t xs ++ updateResults (updateAll t xs) ys := by
  induction xs generalizing t with
  | nil => rfl
  | cons x xs ih => simp [updateResults, updateAll_cons, ih]

/-- New first-bit-1 keys, as long as the first bucket has room, are all inserted at the
head of the first bucket. -/
theorem updateAll_first_bucket (self : ID) (hself : self.PubKey = ZeroPublicKey)
    (tl : List (List ID)) (xs b : List ID) (hbit : ∀ x ∈ xs, firstBitSet x.PubKey = true)
    (hnd : (xs.map ID.PubKey).Nodup) (hnew : ∀ x ∈ xs, ∀ id ∈ b, id.PubKey ≠ x.PubKey)
    (hlen : b.length + xs.length ≤ BucketSize) :
    updateAll ⟨b :: tl, self, (b.length : Int)⟩ xs
      = ⟨(xs.reverse ++ b) :: tl, self, ((xs.reverse ++ b).length : Int)⟩ ∧
    updateResults ⟨b :: tl, self, (b.length : Int)⟩ xs
      = List.replicate xs.length (true, none) := by
  induction xs generalizing b with
  | nil => simp [updateAll, updateResults]
  | cons x xs ih =>
    simp only [List.map_cons, List.nodup_cons, List.mem_map, not_exists, not_and] at hnd
    simp only [List.length_cons] at hlen
    have hstep := Update_first_bucket self b tl x hself (hbit x (List.mem_cons_self _ _))
      (hnew x (List.mem_cons_self _ _))
    rw [if_pos (by omega)] at hstep
    have hih := ih (x :: b) (fun y hy => hbit y (List.mem_cons_of_mem _ hy)) hnd.2
      (by
        intro y hy id hid
        rcases List.mem_cons.mp hid with rfl | hid
        · exact fun h => hnd.1 y hy h.symm
        · exact hnew y (List.mem_cons_of_mem _ hy) id hid)
      (by simp only [List.length_cons]; omega)
    rw [updateAll_cons, updateResults, hstep]
    refine ⟨?_, ?_⟩
    · rw [hih.1]; simp
    · rw [hih.2]; simp [List.replicate_succ]

/-- C13, as the code has it: for the table created with an all-zero self public key and any
17 IDs (`xs` and then `y`) with pairwise distinct public keys whose first bit is 1, updated
in turn: the first 16 `Update`s return `true` without error, the 17th returns the bucket-full
error, `NumEntries()` is 16, and the bucket at index 0 — the keys share no leading bit with
the self key — has length 16; every other bucket, the one at index 255 included, is
empty. -/
theorem C13_seventeen_keys_fill_bucket_zero (self : ID) (xs : List ID) (y : ID)
    (hself : self.PubKey = ZeroPublicKey) (hlen : xs.length = 16)
    (hnd : ((xs ++ [y]).map ID.PubKey).Nodup)
    (hbit : ∀ x ∈ xs ++ [y], firstBitSet x.PubKey = true) :
    ∃ t0, NewTable self = Except.ok t0 ∧
      updateResults t0 (xs ++ [y])
        = List.replicate 16 (true, none) ++ [(false, some (Err.bucketFull y.PubKey))] ∧
      NumEntries (updateAll t0 (xs ++ [y])) = 16 ∧
      ((updateAll t0 (xs ++ [y])).bucket 0).length = 16 ∧
      (updateAll t0 (xs ++ [y])).bucket 0 = xs.reverse ∧
      (∀ i, i ≠ 0 → (updateAll t0 (xs ++ [y])).bucket i = []) ∧
      ((updateAll t0 (xs ++ [y])).bucket 255).length = 0 := by
  obtain ⟨tl, htl⟩ : ∃ tl : List (List ID), tl = List.replicate 255 [] := ⟨_, rfl⟩
  have htl_empty : ∀ j, tl.getD j [] = [] := by
    intro j
    rw [htl]
    simp only [List.getD_eq_getElem?_getD, List.getElem?_replicate]
    split_ifs <;> rfl
  have hnew : NewTable self = Except.ok ⟨[] :: tl, self, (([] : List ID).length : Int)⟩ := by
    rw [NewTable_ok, Update_zero _ _ hself, htl]
    rfl
  rw [List.map_append, List.nodup_append] at hnd
  obtain ⟨hndx, _, hdis⟩ := hnd
  have hall := updateAll_first_bucket self hself tl xs []
    (fun x hx => hbit x (List.mem_append_left _ hx)) hndx (by simp) (by simp [hlen])
  simp only [List.append_nil] at hall
  have hy : ∀ id ∈ xs.reverse, id.PubKey ≠ y.PubKey := by
    intro id hid heq
    exact hdis (List.mem_map_of_mem _ (List.mem_reverse.mp hid)) (by simp [heq])
  have hlast := Update_first_bucket self xs.reverse tl y hself
    (hbit y (List.mem_append_right _ (List.mem_singleton_self _))) hy
  rw [if_neg (by simp [hlen])] at hlast
  have hfin : updateAll ⟨[] :: tl, self, (([] : List ID).length : Int)⟩ (xs ++ [y])
      = ⟨xs.reverse :: tl, self, (xs.reverse.length : Int)⟩ := by
    rw [updateAll_append, hall.1, updateAll_cons, hlast]
    rfl
  refine ⟨_, hnew, ?_, ?_, ?_, ?_, ?_, ?_⟩
  · rw [updateResults_append, hall.1, hall.2, hlen]
    simp only [updateResults, hlast]
  · rw [hfin]; simp [NumEntries, hlen]
  · rw [hfin]; simp [Table.bucket, hlen]
  · rw [hfin]; simp [Table.bucket]
  · intro i hi
    rw [hfin]
    obtain ⟨j, rfl⟩ := Nat.exists_eq_succ_of_ne_zero hi
    simp only [Table.bucket, List.getD_cons_succ]
    exact htl_empty j
  · rw [hfin]
    simp only [Table.bucket, List.getD_cons_succ, htl_empty, List.length_nil]

set_option maxRecDepth 100000 in
theorem C13_witness :
    ∃ t0, NewTable exZeroSelf = Except.ok t0 ∧
      updateResults t0 ((List.range 16).map exPeer ++ [exPeer 16])
        = List.replicate 16 (true, none) ++ [(false, some (Err.bucketFull (exPeer 16).PubKey))] ∧
      NumEntries (updateAll t0 ((List.range 16).map exPeer ++ [exPeer 16])) = 16 ∧
      ((updateAll t0 ((List.range 16).map exPeer ++ [exPeer 16])).bucket 0).length = 16 ∧
      (updateAll t0 ((List.range 16).map exPeer ++ [exPeer 16])).bucket 0
        = ((List.range 16).map exPeer).reverse ∧
      (∀ i, i ≠ 0 → (updateAll t0 ((List.range 16).map exPeer ++ [exPeer 16])).bucket i = []) ∧
      ((updateAll t0 ((List.range 16).map exPeer ++ [exPeer 16])).bucket 255).length = 0 :=
  C13_seventeen_keys_fill_bucket_zero exZeroSelf ((List.range 16).map exPeer) (exPeer 16)
    (by rfl) (by decide) (by decide) (by decide)

set_option maxRecDepth 100000 in
/-- C13 fails in its last part: with the all-zero self key `exZeroSelf` and the 17 IDs
`exPeers17` (pairwise distinct keys, first bit 1), after the 17 `Update`s the bucket at
index 255 is empty, not of length 16; the 16 entries are in the bucket at index 0. -/
theorem C13_counterexample :
    NewTable exZeroSelf = Except.ok exZeroTable ∧
    exZeroSelf.PubKey = ZeroPublicKey ∧ exPeers17.length = 17 ∧
    (exPeers17.map ID.PubKey).Nodup ∧
    (∀ x ∈ exPeers17, firstBitSet x.PubKey = true) ∧
    NumEntries (updateAll exZeroTable exPeers17) = 16 ∧
    ((updateAll exZeroTable exPeers17).bucket 255).length = 0 ∧
    ((updateAll exZeroTable exPeers17).bucket 0).length = 16 :=
  ⟨by rfl, by rfl, by decide, by decide, by decide, by decide, by decide, by decide⟩

/-! ## Serialization of IDs -/

theorem copyBytes_full (dst src : List Byte) (h : src.length = dst.length) :
    copyBytes dst src = src := by
  simp [copyBytes, ← h]

theorem Uint16_val_eq_beNat (l : List Byte) (h : l.length = 2) : (Uint16 l).val = beNat l := by
  match l, h with
  | [b0, b1], _ => simp [Uint16, beNat]

theorem Uint16_PutUint16 (v : Fin 65536) : Uint16 (PutUint16 v) = v := by
  apply Fin.ext
  simp only [PutUint16, Uint16]
  exact Nat.div_add_mod' v.val 256

theorem UnmarshalID_short (addrOf : List Byte → Fin 65536 → String) (buf : List Byte)
    (h : buf.length < 50) : UnmarshalID addrOf buf = Except.error Err.unexpectedEOF := by
  simp only [UnmarshalID, SizePublicKey, IPv6len, List.length_drop]
  split_ifs <;> first
    | rfl
    | omega

theorem UnmarshalID_long (addrOf : List Byte → Fin 65536 → String) (buf : List Byte)
    (h : 50 ≤ buf.length) :
    ∃ pk : PublicKey, pk.bytes = buf.take 32 ∧
      UnmarshalID addrOf buf
        = Except.ok (NewID addrOf pk ((buf.drop 32).take 16) (Uint16 ((buf.drop 48).take 2))) := by
  refine ⟨⟨buf.take 32, by rw [List.length_take]; simp only [SizePublicKey]; omega⟩, rfl, ?_⟩
  have hhost : copyBytes (List.replicate 16 0) ((buf.drop 32).take 16) = (buf.drop 32).take 16 := by
    apply copyBytes_full
    simp only [List.length_take, List.length_drop, List.length_replicate]
    omega
  simp only [UnmarshalID, SizePublicKey, IPv6len, List.length_drop, List.drop_drop, hhost]
  rw [dif_neg (by omega), if_neg (by omega), if_neg (by omega)]

/-- C19: for every byte string `buf`, `UnmarshalID(buf)` fails if and only if
`len(buf) < SizePublicKey + 16 + 2 = 50`, and the error is then the unexpected-end-of-input
error; for `len(buf) ≥ 50` it succeeds with `PubKey = buf[0:32]`, `Host = buf[32:48]` and
`Port` the big-endian 16-bit value of `buf[48:50]`. -/
theorem C19_UnmarshalID_fails_iff_shorter_than_50 (addrOf : List Byte → Fin 65536 → String)
    (buf : List Byte) :
    SizePublicKey + 16 + 2 = 50 ∧
    ((∃ e, UnmarshalID addrOf buf = Except.error e) ↔ buf.length < 50) ∧
    (buf.length < 50 → UnmarshalID addrOf buf = Except.error Err.unexpectedEOF) ∧
    (50 ≤ buf.length →
      ∃ i, UnmarshalID addrOf buf = Except.ok i ∧
        i.PubKey.bytes = buf.take 32 ∧ i.Host = (buf.drop 32).take 16 ∧
        i.Port = Uint16 ((buf.drop 48).take 2) ∧
        i.Port.val = beNat ((buf.drop 48).take 2) ∧
        i.Address = addrOf i.Host i.Port) := by
  have hlong : 50 ≤ buf.length →
      ∃ i, UnmarshalID addrOf buf = Except.ok i ∧
        i.PubKey.bytes = buf.take 32 ∧ i.Host = (buf.drop 32).take 16 ∧
        i.Port = Uint16 ((buf.drop 48).take 2) ∧
        i.Port.val = beNat ((buf.drop 48).take 2) ∧
        i.Address = addrOf i.Host i.Port := by
    intro h
    obtain ⟨pk, hpk, hu⟩ := UnmarshalID_long addrOf buf h
    refine ⟨_, hu, hpk, rfl, rfl, ?_, rfl⟩
    apply Uint16_val_eq_beNat
    simp only [List.length_take, List.length_drop]
    omega
  refine ⟨rfl, ⟨?_, ?_⟩, UnmarshalID_short addrOf buf, hlong⟩
  · rintro ⟨e, he⟩
    by_contra hge
    obtain ⟨i, hi, _⟩ := hlong (by omega)
    rw [hi] at he
    cases he
  · intro h
    exact ⟨_, UnmarshalID_short addrOf buf h⟩

set_option maxRecDepth 100000 in
theorem C19_witness :
    (([] : List Byte).length < 50 ∧
      UnmarshalID exAddrOf [] = Except.error Err.unexpectedEOF) ∧
    ((List.replicate 32 (0 : Byte) ++ [1]).length < 50 ∧
      UnmarshalID exAddrOf (List.replicate 32 0 ++ [1]) = Except.error Err.unexpectedEOF) ∧
    ((List.replicate 32 (0 : Byte) ++ exHost ++ [1]).length < 50 ∧
      UnmarshalID exAddrOf (List.replicate 32 0 ++ exHost ++ [1])
        = Except.error Err.unexpectedEOF) ∧
    (50 ≤ exBuf.length ∧
      ∃ i, UnmarshalID exAddrOf exBuf = Except.ok i ∧
        i.PubKey.bytes = exBuf.take 32 ∧ i.Host = (exBuf.drop 32).take 16 ∧
        i.Port = Uint16 ((exBuf.drop 48).take 2) ∧
        i.Port.val = beNat ((exBuf.drop 48).take 2) ∧
        i.Address = exAddrOf i.Host i.Port) :=
  ⟨⟨by decide, (C19_UnmarshalID_fails_iff_shorter_than_50 exAddrOf []).2.2.1 (by decide)⟩,
    ⟨by decide,
      (C19_UnmarshalID_fails_iff_shorter_than_50 exAddrOf _).2.2.1 (by decide)⟩,
    ⟨by decide,
      (C19_UnmarshalID_fails_iff_shorter_than_50 exAddrOf _).2.2.1 (by decide)⟩,
    ⟨by decide, (C19_UnmarshalID_fails_iff_shorter_than_50 exAddrOf exBuf).2.2.2 (by decide)⟩⟩

/-- C20: for every public key `pk`, every host `h` of 16 bytes (IPv6 form) and every port
`p`, with `i = NewID(pk, h, p)`: `i.Marshal()` has length 50 and is the bytes of `pk`, then
`h`, then `p` in big-endian order (`p / 256`, `p mod 256`), and `UnmarshalID(i.Marshal())`
returns `i` (the same key, host, port and cached address) without error. -/
theorem C20_UnmarshalID_undoes_Marshal (addrOf : List Byte → Fin 65536 → String)
    (pk : PublicKey) (h : List Byte) (p : Fin 65536) (hh : h.length = 16) :
    (NewID addrOf pk h p).Marshal.length = 50 ∧
    (NewID addrOf pk h p).Marshal = pk.bytes ++ h ++ PutUint16 p ∧
    (PutUint16 p).map Fin.val = [p.val / 256, p.val % 256] ∧
    beNat (PutUint16 p) = p.val ∧
    UnmarshalID addrOf (NewID addrOf pk h p).Marshal = Except.ok (NewID addrOf pk h p) := by
  have hpk : pk.bytes.length = 32 := pk.size_eq
  have hm : (NewID addrOf pk h p).Marshal = pk.bytes ++ h ++ PutUint16 p := by
    simp only [ID.Marshal, NewID, IPv6len]
    rw [copyBytes_full _ _ (by simp), copyBytes_full _ _ (by simp [hh])]
  have hlen : (pk.bytes ++ h ++ PutUint16 p).length = 50 := by
    simp [hpk, hh, PutUint16]
  have hbe : beNat (PutUint16 p) = p.val := by
    simp only [PutUint16, beNat]
    have := Nat.div_add_mod' p.val 256
    simp
    omega
  refine ⟨by rw [hm, hlen], hm, by simp [PutUint16], hbe, ?_⟩
  rw [hm]
  obtain ⟨pk', hpk', hu⟩ := UnmarshalID_long addrOf (pk.bytes ++ h ++ PutUint16 p) (by omega)
  have e1 : (pk.bytes ++ h ++ PutUint16 p).take 32 = pk.bytes := by
    rw [List.append_assoc, List.take_left' hpk]
  have e2 : ((pk.bytes ++ h ++ PutUint16 p).drop 32).take 16 = h := by
    rw [List.append_assoc, List.drop_left' hpk, List.take_left' hh]
  have e3 : ((pk.bytes ++ h ++ PutUint16 p).drop 48).take 2 = PutUint16 p := by
    rw [List.drop_left' (by simp [hpk, hh])]
    simp [PutUint16]
  rw [hu, e2, e3, Uint16_PutUint16, PublicKey.ext_bytes pk' pk (hpk'.trans e1)]

set_option maxRecDepth 100000 in
theorem C20_witness :
    exHost.length = 16 ∧
    (NewID exAddrOf exTarget exHost 9000).Marshal.length = 50 ∧
    (NewID exAddrOf exTarget exHost 9000).Marshal = exTarget.bytes ++ exHost ++ PutUint16 9000 ∧
    (PutUint16 9000).map Fin.val = [(9000 : Fin 65536).val / 256, (9000 : Fin 65536).val % 256] ∧
    beNat (PutUint16 9000) = (9000 : Fin 65536).val ∧
    UnmarshalID exAddrOf (NewID exAddrOf exTarget exHost 9000).Marshal
      = Except.ok (NewID exAddrOf exTarget exHost 9000) :=
  ⟨by decide, C20_UnmarshalID_undoes_Marshal exAddrOf exTarget exHost 9000 (by decide)⟩

/-! ## `Peers` -/

/-- The entries that the loop of `FindClosest` has collected when it stops are those, with a
key other than `target`, of the buckets at distance less than some offset `i'` from the
bucket of `target`. -/
theorem expand_window (t : Table) (target : PublicKey) (k idx : Nat)
    (hidx : idx < t.entries.length) (fuel i : Nat) (closest : List ID) (hi : 1 ≤ i)
    (hc : ∀ x, x ∈ closest ↔
      ∃ j, (j < t.entries.length ∧ idx < j + i ∧ j < idx + i) ∧
        x ∈ (t.bucket j).filter (fun id => id.PubKey ≠ target)) :
    ∃ i', 1 ≤ i' ∧ ∀ x, x ∈ expand t target k idx fuel i closest ↔
      ∃ j, (j < t.entries.length ∧ idx < j + i' ∧ j < idx + i') ∧
        x ∈ (t.bucket j).filter (fun id => id.PubKey ≠ target) := by
  induction fuel generalizing i closest with
  | zero => exact ⟨i, hi, hc⟩
  | succ f ih =>
    by_cases hcond : closest.length < k ∧ (i ≤ idx ∨ idx + i < t.entries.length)
    · have hstep : expand t target k idx (f + 1) i closest =
          expand t target k idx f (i + 1)
            ((closest ++ (if i ≤ idx then (t.bucket (idx - i)).filter
                (fun id => id.PubKey ≠ target) else [])) ++
              (if idx + i < t.entries.length then (t.bucket (idx + i)).filter
                (fun id => id.PubKey ≠ target) else [])) := by
        simp only [expand, hcond, and_self, if_true, collect]
        by_cases h1 : i ≤ idx <;> by_cases h2 : idx + i < t.entries.length <;>
          simp [h1, h2]
      rw [hstep]
      apply ih (i + 1) _ (by omega)
      intro x
      simp only [List.mem_append, hc x]
      constructor
      · rintro ((⟨j, hj, hx⟩ | hx) | hx)
        · exact ⟨j, by omega, hx⟩
        · by_cases h1 : i ≤ idx
          · rw [if_pos h1] at hx
            exact ⟨idx - i, by omega, hx⟩
          · rw [if_neg h1] at hx
            cases hx
        · by_cases h2 : idx + i < t.entries.length
          · rw [if_pos h2] at hx
            exact ⟨idx + i, by omega, hx⟩
          · rw [if_neg h2] at hx
            cases hx
      · rintro ⟨j, hj, hx⟩
        by_cases hw : idx < j + i ∧ j < idx + i
        · exact Or.inl (Or.inl ⟨j, ⟨hj.1, hw.1, hw.2⟩, hx⟩)
        · by_cases hlow : j + i = idx
          · left; right
            rw [if_pos (by omega)]
            have hj' : idx - i = j := by omega
            rw [hj']
            exact hx
          · right
            have hj' : j = idx + i := by omega
            rw [if_pos (by omega), ← hj']
            exact hx
    · refine ⟨i, hi, ?_⟩
      simp only [expand, hcond, if_false]
      exact hc

/-- More leading zero bits make a byte string of the same length smaller. -/
theorem bytesLess_of_PrefixLen_lt (x y : List Byte) (hlen : x.length = y.length)
    (h : PrefixLen x < PrefixLen y) : bytesLess y x = true := by
  induction x generalizing y with
  | nil =>
    cases y with
    | nil => simp [PrefixLen] at h
    | cons b ys => simp at hlen
  | cons a xs ih =>
    cases y with
    | nil => simp at hlen
    | cons b ys =>
      have hl : xs.length = ys.length := by simpa using hlen
      simp only [PrefixLen] at h
      simp only [bytesLess]
      by_cases ha : a.val = 0
      · rw [if_pos ha] at h
        by_cases hb : b.val = 0
        · rw [if_pos hb] at h
          rw [if_neg (by omega), if_neg (by omega)]
          exact ih ys hl (by omega)
        · rw [if_neg hb] at h
          have := LeadingZeros8_lt b hb
          omega
      · rw [if_neg ha] at h
        by_cases hb : b.val = 0
        · rw [if_pos (by omega)]
        · rw [if_neg hb] at h
          obtain ⟨hza, hlo, _⟩ := LeadingZeros8_spec a ha
          obtain ⟨hzb, _, hhi⟩ := LeadingZeros8_spec b hb
          have hpow : 2 ^ (8 - LeadingZeros8 b) ≤ 2 ^ (7 - LeadingZeros8 a) :=
            Nat.pow_le_pow_right (by decide) (by omega)
          rw [if_pos (by omega)]

/-- An entry of a bucket with a higher index is strictly closer to the self key than an
entry of a bucket with a lower index. -/
theorem closer_of_getBucketIndex_lt (t : Table) (a b : ID)
    (h : getBucketIndex t a.PubKey < getBucketIndex t b.PubKey) :
    closer t.self.PubKey b a = true := by
  have hla := PrefixLen_le (XOR a.PubKey.bytes t.self.PubKey.bytes)
  have hlb := PrefixLen_le (XOR b.PubKey.bytes t.self.PubKey.bytes)
  rw [XOR_length, a.PubKey.size_eq, t.self.PubKey.size_eq] at hla
  rw [XOR_length, b.PubKey.size_eq, t.self.PubKey.size_eq] at hlb
  simp only [SizePublicKey, Nat.min_self] at hla hlb
  apply bytesLess_of_PrefixLen_lt
  · rw [XOR_length, XOR_length, a.PubKey.size_eq, b.PubKey.size_eq]
  · simp only [getBucketIndex, SizePublicKey] at h
    split_ifs at h <;> omega

theorem getBucketIndex_self (t : Table) : getBucketIndex t t.self.PubKey = 255 := by
  have hz : ∀ x ∈ XOR t.self.PubKey.bytes t.self.PubKey.bytes, x.val = 0 := by
    rw [XOR_zero_iff _ _ rfl]
  have hp := PrefixLen_of_zero _ hz
  rw [XOR_length, t.self.PubKey.size_eq] at hp
  simp only [getBucketIndex, SizePublicKey, hp]
  rfl

/-- The length of the list `FindClosest` returns. -/
theorem FindClosest_length {self : ID} {t : Table} (h : Inv self t) (target : PublicKey)
    (k : Nat) :
    (FindClosest t target k).length
      = min k ((Entries t).filter (fun id => id.PubKey ≠ target)).length := by
  obtain ⟨rest, hperm, hrest⟩ := FindClosest_collected h target k
  rw [FindClosest_eq, List.length_take, (SortByDistance_perm _ _).length_eq, hperm.length_eq,
    List.length_append]
  rcases hrest with hk | rfl
  · omega
  · simp

theorem collect_ne_target (target : PublicKey) (closest bucket : List ID)
    (hc : ∀ x ∈ closest, x.PubKey ≠ target) :
    ∀ x ∈ collect target closest bucket, x.PubKey ≠ target := by
  intro x hx
  simp only [collect, List.mem_append, List.mem_filter, decide_eq_true_eq] at hx
  rcases hx with hx | hx
  · exact hc x hx
  · exact hx.2

theorem expand_ne_target (t : Table) (target : PublicKey) (k idx : Nat) (fuel i : Nat)
    (closest : List ID) (hc : ∀ x ∈ closest, x.PubKey ≠ target) :
    ∀ x ∈ expand t target k idx fuel i closest, x.PubKey ≠ target := by
  induction fuel generalizing i closest with
  | zero => exact hc
  | succ f ih =>
    by_cases hcond : closest.length < k ∧ (i ≤ idx ∨ idx + i < t.entries.length)
    · have hlen := hcond.1
      by_cases h1 : i ≤ idx
      · by_cases h2 : idx + i < t.entries.length
        · simp only [expand, hlen, h1, h2, or_self, and_self, if_true]
          exact ih _ _ (collect_ne_target _ _ _ (collect_ne_target _ _ _ hc))
        · simp only [expand, hlen, h1, h2, or_false, and_self, if_true, if_false]
          exact ih _ _ (collect_ne_target _ _ _ hc)
      · by_cases h2 : idx + i < t.entries.length
        · simp only [expand, hlen, h1, h2, false_or, and_self, if_true, if_false]
          exact ih _ _ (collect_ne_target _ _ _ hc)
        · exact absurd hcond.2 (by omega)
    · simp only [expand, hcond, if_false]
      exact hc

/-- Every ID that `FindClosest` returns has a key other than `target`. -/
theorem FindClosest_ne_target (t : Table) (target : PublicKey) (k : Nat) :
    ∀ x ∈ FindClosest t target k, x.PubKey ≠ target := by
  intro x hx
  rw [FindClosest_eq] at hx
  have hx' := (SortByDistance_perm _ _).subset (List.mem_of_mem_take hx)
  exact expand_ne_target t target k _ _ _ _ (collect_ne_target _ _ _ (by simp)) x hx'

/-- C25: for every reachable table, `Peers()`, which is `FindClosest` with target
`self.PubKey` and `k = BucketSize`, returns the closest entries to self: its length is the
minimum of `BucketSize` and the number of stored entries whose key is not the self key, it
holds stored entries only and never one with the self key (so never `self`), and no stored
entry with another key that is missing from it is strictly closer to self by XOR distance
than an entry in it. -/
theorem C25_Peers_returns_the_closest_entries (self : ID) (t : Table)
    (h : Reachable self t) :
    Peers t = FindClosest t self.PubKey BucketSize ∧
    (Peers t).length
      = min BucketSize ((Entries t).filter (fun id => id.PubKey ≠ self.PubKey)).length ∧
    (∀ x ∈ Peers t, x.PubKey ≠ self.PubKey ∧ x ∈ Entries t) ∧
    self ∉ Peers t ∧
    (∀ x ∈ Peers t, ∀ y ∈ Entries t, y.PubKey ≠ self.PubKey → y ∉ Peers t →
      closer self.PubKey y x = false) := by
  have hinv := h.inv
  have hself : t.self = self := hinv.self_eq
  have hP : Peers t = FindClosest t self.PubKey BucketSize := by rw [Peers, hself]
  have hidx : getBucketIndex t self.PubKey = 255 := by
    rw [← hself]; exact getBucketIndex_self t
  have hlen : t.entries.length = 256 := hinv.numBuckets
  obtain ⟨i', hi', hwin⟩ := expand_window t self.PubKey BucketSize (getBucketIndex t self.PubKey)
    (hinv.idx_lt _) t.entries.length 1
    (collect self.PubKey [] (t.bucket (getBucketIndex t self.PubKey))) (le_refl 1)
    (by
      intro x
      simp only [collect, List.nil_append]
      constructor
      · intro hx
        exact ⟨_, ⟨hinv.idx_lt _, by omega, by omega⟩, hx⟩
      · rintro ⟨j, hj, hx⟩
        have : j = getBucketIndex t self.PubKey := by omega
        rw [← this]
        exact hx)
  rw [hidx, hlen] at hwin
  have hsorted := SortByDistance_sorted self.PubKey
    (expand t self.PubKey BucketSize (getBucketIndex t self.PubKey) t.entries.length 1
      (collect self.PubKey [] (t.bucket (getBucketIndex t self.PubKey))))
  have hperm := SortByDistance_perm self.PubKey
    (expand t self.PubKey BucketSize (getBucketIndex t self.PubKey) t.entries.length 1
      (collect self.PubKey [] (t.bucket (getBucketIndex t self.PubKey))))
  rw [hidx, hlen] at hperm hsorted
  have hmem : ∀ x ∈ Peers t, ∃ j, (j < 256 ∧ 255 < j + i' ∧ j < 255 + i') ∧
      x ∈ (t.bucket j).filter (fun id => id.PubKey ≠ self.PubKey) := by
    intro x hx
    rw [hP, FindClosest_eq, hidx, hlen] at hx
    exact (hwin x).mp (hperm.subset (List.mem_of_mem_take hx))
  have hne : ∀ x ∈ Peers t, x.PubKey ≠ self.PubKey := by
    intro x hx
    rw [hP] at hx
    exact FindClosest_ne_target t self.PubKey BucketSize x hx
  refine ⟨hP, by rw [hP]; exact FindClosest_length hinv _ _, ?_, ?_, ?_⟩
  · intro x hx
    refine ⟨hne x hx, ?_⟩
    obtain ⟨j, hj, hxj⟩ := hmem x hx
    exact (mem_Entries t x).mpr ⟨j, by omega, (List.mem_filter.mp hxj).1⟩
  · intro hs
    exact hne self hs rfl
  · intro x hx y hy hyne hynot
    obtain ⟨jx, hjx, hxj⟩ := hmem x hx
    have hxb := (List.mem_filter.mp hxj).1
    obtain ⟨jy, hjy, hyb⟩ := (mem_Entries t y).mp hy
    have hgx := hinv.placed jx x hxb
    have hgy := hinv.placed jy y hyb
    by_cases hw : 255 < jy + i'
    · have hyc : y ∈ expand t self.PubKey BucketSize 255 256 1
          (collect self.PubKey [] (t.bucket 255)) :=
        (hwin y).mpr ⟨jy, ⟨by omega, hw, by omega⟩,
          List.mem_filter.mpr ⟨hyb, by simpa using hyne⟩⟩
      have hys := hperm.symm.subset hyc
      rw [hP, FindClosest_eq, hidx, hlen] at hx hynot
      rw [← List.take_append_drop BucketSize (SortByDistance self.PubKey _)] at hys hsorted
      rcases List.mem_append.mp hys with hyt | hyd
      · exact absurd hyt hynot
      · exact (List.pairwise_append.mp hsorted).2.2 x hx y hyd
    · have hlt : getBucketIndex t y.PubKey < getBucketIndex t x.PubKey := by
        rw [hgx, hgy]; omega
      have hc := closer_of_getBucketIndex_lt t y x hlt
      rw [hself] at hc
      exact bytesLess_asymm _ _ hc

set_option maxRecDepth 100000 in
theorem C25_witness :
    Reachable exSelf exTable ∧
    Peers exTable = FindClosest exTable exSelf.PubKey BucketSize ∧
    (Peers exTable).length
      = min BucketSize ((Entries exTable).filter (fun id => id.PubKey ≠ exSelf.PubKey)).length ∧
    (∀ x ∈ Peers exTable, x.PubKey ≠ exSelf.PubKey ∧ x ∈ Entries exTable) ∧
    exSelf ∉ Peers exTable ∧
    (∀ x ∈ Peers exTable, ∀ y ∈ Entries exTable, y.PubKey ≠ exSelf.PubKey →
      y ∉ Peers exTable → closer exSelf.PubKey y x = false) :=
  ⟨exTable_reachable, C25_Peers_returns_the_closest_entries exSelf exTable exTable_reachable⟩

/-! ## The iterator -/

/-! ### Lists with one element replaced or removed -/

theorem count_flatten_set {α β : Type} [DecidableEq β] (f : α → List β) (x : β) :
    ∀ (ls : List α) (i : Nat) (l l' : α), ls[i]? = some l →
      ((ls.set i l').map f).flatten.count x + (f l).count x
        = (ls.map f).flatten.count x + (f l').count x := by
  intro ls
  induction ls with
  | nil => intro i l l' h; simp at h
  | cons a as ih =>
    intro i l l' h
    cases i with
    | zero =>
      simp only [List.getElem?_cons_zero, Option.some.injEq] at h
      subst h
      simp only [List.set_cons_zero, List.map_cons, List.flatten_cons, List.count_append]
      omega
    | succ i =>
      simp only [List.getElem?_cons_succ] at h
      have := ih i l l' h
      simp only [List.set_cons_succ, List.map_cons, List.flatten_cons, List.count_append]
      omega

theorem sum_map_set {α : Type} (g : α → Nat) :
    ∀ (ls : List α) (i : Nat) (l l' : α), ls[i]? = some l →
      ((ls.set i l').map g).sum + g l = (ls.map g).sum + g l' := by
  intro ls
  induction ls with
  | nil => intro i l l' h; simp at h
  | cons a as ih =>
    intro i l l' h
    cases i with
    | zero =>
      simp only [List.getElem?_cons_zero, Option.some.injEq] at h
      subst h
      simp only [List.set_cons_zero, List.map_cons, List.sum_cons]
      omega
    | succ i =>
      simp only [List.getElem?_cons_succ] at h
      have := ih i l l' h
      simp only [List.set_cons_succ, List.map_cons, List.sum_cons]
      omega

theorem forall_mem_set {α : Type} (P : α → Prop) (ls : List α) (i : Nat) (l' : α)
    (h : ∀ y ∈ ls, P y) (h' : P l') : ∀ y ∈ ls.set i l', P y := by
  intro y hy
  rcases List.mem_or_eq_of_mem_set hy with hy | hy
  · exact h y hy
  · exact hy ▸ h'

theorem count_eraseIdx {β : Type} [DecidableEq β] (x : β) :
    ∀ (l : List β) (j : Nat) (y : β), l[j]? = some y →
      (l.eraseIdx j).count x + [y].count x = l.count x := by
  intro l
  induction l with
  | nil => intro j y h; simp at h
  | cons a as ih =>
    intro j y h
    cases j with
    | zero =>
      simp only [List.getElem?_cons_zero, Option.some.injEq] at h
      subst h
      simp only [List.eraseIdx_cons_zero, List.count_cons, List.count_nil]
      omega
    | succ j =>
      simp only [List.getElem?_cons_succ] at h
      have := ih j y h
      simp only [List.eraseIdx_cons_succ, List.count_cons, List.count_nil] at this ⊢
      omega

theorem sum_map_eraseIdx {α : Type} (g : α → Nat) :
    ∀ (l : List α) (j : Nat) (y : α), l[j]? = some y →
      ((l.eraseIdx j).map g).sum + g y = (l.map g).sum := by
  intro l
  induction l with
  | nil => intro j y h; simp at h
  | cons a as ih =>
    intro j y h
    cases j with
    | zero =>
      simp only [List.getElem?_cons_zero, Option.some.injEq] at h
      subst h
      simp only [List.eraseIdx_cons_zero, List.map_cons, List.sum_cons]
      omega
    | succ j =>
      simp only [List.getElem?_cons_succ] at h
      have := ih j y h
      simp only [List.eraseIdx_cons_succ, List.map_cons, List.sum_cons]
      omega

/-! ### The loops of `init` and of the locked section -/

/-- The locked loop appends to the map, to the bucket and to the history the same IDs: a
sublist of `ids` with pairwise distinct public keys, none of which was in the map. -/
theorem integrate_spec (ids : List ID) :
    ∀ (visited : List PublicKey) (bucket enqueued : List ID),
      ∃ new : List ID,
        integrate ids visited bucket enqueued
          = (visited ++ new.map ID.PubKey, bucket ++ new, enqueued ++ new) ∧
        (new.map ID.PubKey).Nodup ∧ (∀ x ∈ new, x.PubKey ∉ visited) ∧ new.Sublist ids := by
  induction ids with
  | nil =>
    intro visited bucket enqueued
    exact ⟨[], by simp [integrate], by simp, by simp, List.Sublist.refl _⟩
  | cons id ids ih =>
    intro visited bucket enqueued
    by_cases hv : id.PubKey ∈ visited
    · obtain ⟨new, h1, h2, h3, h4⟩ := ih visited bucket enqueued
      exact ⟨new, by simp only [integrate, hv, if_true]; exact h1, h2, h3, h4.cons _⟩
    · obtain ⟨new, h1, h2, h3, h4⟩ :=
        ih (visited ++ [id.PubKey]) (bucket ++ [id]) (enqueued ++ [id])
      refine ⟨id :: new, ?_, ?_, ?_, h4.cons₂ _⟩
      · simp only [integrate, hv, if_false]
        rw [h1]
        simp
      · rw [List.map_cons, List.nodup_cons]
        refine ⟨?_, h2⟩
        intro hmem
        obtain ⟨y, hy, hyk⟩ := List.mem_map.mp hmem
        exact h3 y hy (by simp [hyk])
      · intro x hx
        rcases List.mem_cons.mp hx with hx | hx
        · subst hx; exact hv
        · intro hxv
          exact h3 x hx (List.mem_append_left _ hxv)

/-- The seeding loop marks every peer visited and spreads the peers over the buckets. -/
theorem seed_spec (n : Nat) (hn : 0 < n) (ids : List ID) :
    ∀ (i : Nat) (visited : List PublicKey) (buckets : List (List ID)), buckets.length = n →
      (seed n i ids visited buckets).1 = visited ++ ids.map ID.PubKey ∧
      (seed n i ids visited buckets).2.length = n ∧
      ∀ x, (seed n i ids visited buckets).2.flatten.count x
        = buckets.flatten.count x + ids.count x := by
  induction ids with
  | nil => intro i visited buckets hb; simp [seed, hb]
  | cons p ids ih =>
    intro i visited buckets hb
    have hlt : i % n < buckets.length := by rw [hb]; exact Nat.mod_lt _ hn
    obtain ⟨h1, h2, h3⟩ := ih (i + 1) (visited ++ [p.PubKey])
      (buckets.set (i % n) (buckets.getD (i % n) [] ++ [p])) (by simp [hb])
    simp only [seed]
    refine ⟨by rw [h1]; simp, h2, ?_⟩
    intro x
    rw [h3 x]
    have hget : buckets[i % n]? = some (buckets.getD (i % n) []) := by
      rw [List.getD_eq_getElem?_getD, List.getElem?_eq_getElem hlt]
      simp
    have := count_flatten_set (id : List ID → List ID) x buckets (i % n) _
      (buckets.getD (i % n) [] ++ [p]) hget
    simp only [List.map_id, id_eq, List.count_append] at this
    simp only [List.count_cons, List.count_nil] at this ⊢
    omega
/-! ### The seven steps -/

/-- Every step acts on one lookup, in one of seven ways. -/
theorem step_inv (it : Iterator) (s s' : FindState) (a : Action) (h : step it s a = some s') :
    ∃ i l, s.lookups[i]? = some l ∧
      ((∃ popped rest, a = Action.pop i ∧ l.stage = Stage.fill ∧ l.bucket = popped :: rest ∧
          l.queue.length < it.numParallelRequestsPerLookup ∧
          s' = { s with
            lookups := s.lookups.set i
              ({ l with
                bucket := rest, queue := l.queue ++ [popped], pending := l.pending + 1 }) }) ∨
       (a = Action.endFill i ∧ l.stage = Stage.fill ∧
          ¬ (0 < l.bucket.length ∧ l.queue.length < it.numParallelRequestsPerLookup) ∧
          s' = { s with
            lookups := s.lookups.set i
              ({ l with stage := if l.pending = 0 then Stage.done else Stage.wait }) }) ∨
       (∃ x rest, a = Action.take i ∧ l.queue = x :: rest ∧
          l.requesting.length + l.sending.length < it.numParallelRequestsPerLookup ∧
          s' = { s with
            lookups := s.lookups.set i
              ({ l with queue := rest, requesting := l.requesting ++ [x] }),
            queried := s.queried ++ [x] }) ∨
       (∃ j r x, a = Action.reply i j r ∧ l.requesting[j]? = some x ∧
          s' = { s with
            lookups := s.lookups.set i
              ({ l with
                requesting := l.requesting.eraseIdx j, sending := l.sending ++ [r.candidates] }),
            closest := if r.isResponse then s.closest ++ [x] else s.closest,
            answered := s.answered ++ [(x, r)] }) ∨
       (∃ j ids, a = Action.send i j ∧ l.sending[j]? = some ids ∧
          l.results.length < it.numParallelRequestsPerLookup ∧
          s' = { s with
            lookups := s.lookups.set i
              ({ l with sending := l.sending.eraseIdx j, results := l.results ++ [ids] }) }) ∨
       (∃ ids rest, a = Action.receive i ∧ l.stage = Stage.wait ∧ l.results = ids :: rest ∧
          s' = { s with
            lookups := s.lookups.set i
              ({ l with stage := Stage.merge ids, results := rest }) }) ∨
       (∃ ids, a = Action.merge i ∧ l.stage = Stage.merge ids ∧
          s' = { s with
            visited := (integrate ids s.visited l.bucket s.enqueued).1,
            enqueued := (integrate ids s.visited l.bucket s.enqueued).2.2,
            lookups := s.lookups.set i
              ({ l with
                stage := Stage.fill,
                bucket := (integrate ids s.visited l.bucket s.enqueued).2.1,
                pending := l.pending - 1 }) })) := by
  cases a with
  | pop i =>
    simp only [step] at h
    cases hl : s.lookups[i]? with
    | none => simp [hl] at h
    | some l =>
      simp only [hl] at h
      cases hp : l.pop it.numParallelRequestsPerLookup with
      | none => simp [hp] at h
      | some l' =>
        simp only [hp, Option.some.injEq] at h
        unfold Lookup.pop at hp
        split at hp
        · rename_i popped rest hst hb
          split at hp
          · rename_i hlen
            simp only [Option.some.injEq] at hp
            subst hp
            exact ⟨i, l, hl, Or.inl ⟨popped, rest, rfl, hst, hb, hlen, h.symm⟩⟩
          · cases hp
        · cases hp
  | endFill i =>
    simp only [step] at h
    cases hl : s.lookups[i]? with
    | none => simp [hl] at h
    | some l =>
      simp only [hl] at h
      cases hp : l.endFill it.numParallelRequestsPerLookup with
      | none => simp [hp] at h
      | some l' =>
        simp only [hp, Option.some.injEq] at h
        unfold Lookup.endFill at hp
        split at hp
        · rename_i hc
          simp only [Option.some.injEq] at hp
          subst hp
          exact ⟨i, l, hl, Or.inr (Or.inl ⟨rfl, hc.1, hc.2, h.symm⟩)⟩
        · cases hp
  | take i =>
    simp only [step] at h
    cases hl : s.lookups[i]? with
    | none => simp [hl] at h
    | some l =>
      simp only [hl] at h
      cases hp : l.take it.numParallelRequestsPerLookup with
      | none => simp [hp] at h
      | some r =>
        obtain ⟨l', x⟩ := r
        simp only [hp, Option.some.injEq] at h
        unfold Lookup.take at hp
        split at hp
        · rename_i y rest hq
          split at hp
          · rename_i hlen
            simp only [Option.some.injEq, Prod.mk.injEq] at hp
            obtain ⟨hp1, hp2⟩ := hp
            subst hp1 hp2
            exact ⟨i, l, hl, Or.inr (Or.inr (Or.inl ⟨y, rest, rfl, hq, hlen, h.symm⟩))⟩
          · cases hp
        · cases hp
  | reply i j r =>
    simp only [step] at h
    cases hl : s.lookups[i]? with
    | none => simp [hl] at h
    | some l =>
      simp only [hl] at h
      cases hp : l.reply j r with
      | none => simp [hp] at h
      | some q =>
        obtain ⟨l', x⟩ := q
        simp only [hp, Option.some.injEq] at h
        unfold Lookup.reply at hp
        split at hp
        · rename_i y hq
          simp only [Option.some.injEq, Prod.mk.injEq] at hp
          obtain ⟨hp1, hp2⟩ := hp
          subst hp1 hp2
          exact ⟨i, l, hl, Or.inr (Or.inr (Or.inr (Or.inl ⟨j, r, y, rfl, hq, h.symm⟩)))⟩
        · cases hp
  | send i j =>
    simp only [step] at h
    cases hl : s.lookups[i]? with
    | none => simp [hl] at h
    | some l =>
      simp only [hl] at h
      cases hp : l.send it.numParallelRequestsPerLookup j with
      | none => simp [hp] at h
      | some l' =>
        simp only [hp, Option.some.injEq] at h
        unfold Lookup.send at hp
        split at hp
        · rename_i ids hq
          split at hp
          · rename_i hlen
            simp only [Option.some.injEq] at hp
            subst hp
            exact ⟨i, l, hl,
              Or.inr (Or.inr (Or.inr (Or.inr (Or.inl ⟨j, ids, rfl, hq, hlen, h.symm⟩))))⟩
          · cases hp
        · cases hp
  | receive i =>
    simp only [step] at h
    cases hl : s.lookups[i]? with
    | none => simp [hl] at h
    | some l =>
      simp only [hl] at h
      cases hp : l.receive with
      | none => simp [hp] at h
      | some l' =>
        simp only [hp, Option.some.injEq] at h
        unfold Lookup.receive at hp
        split at hp
        · rename_i ids rest hst hq
          simp only [Option.some.injEq] at hp
          subst hp
          exact ⟨i, l, hl, Or.inr (Or.inr (Or.inr (Or.inr (Or.inr (Or.inl
            ⟨ids, rest, rfl, hst, hq, h.symm⟩)))))⟩
        · cases hp
  | merge i =>
    simp only [step] at h
    cases hl : s.lookups[i]? with
    | none => simp [hl] at h
    | some l =>
      simp only [hl] at h
      split at h
      · rename_i ids hst
        simp only [Option.some.injEq] at h
        exact ⟨i, l, hl, Or.inr (Or.inr (Or.inr (Or.inr (Or.inr (Or.inr
          ⟨ids, rfl, hst, h.symm⟩)))))⟩
      · cases h
/-! ### The invariant of a `Find` -/

theorem FindInv.of_step {it : Iterator} {target : PublicKey} {s s' : FindState} {a : Action}
    (hinv : FindInv it target s) (h : step it s a = some s') : FindInv it target s' := by
  obtain ⟨i, l, hl, hcase⟩ := step_inv it s s' a h
  have hf := fun (l' : Lookup) (x : ID) =>
    count_flatten_set (fun l : Lookup => l.bucket ++ l.queue) x s.lookups i l l' hl
  have hg := fun (l' : Lookup) (x : ID) =>
    count_flatten_set Lookup.requesting x s.lookups i l l' hl
  rcases hcase with ⟨popped, rest, -, hst, hb, hlen, rfl⟩ | ⟨-, hst, hc, rfl⟩ |
    ⟨x, rest, -, hq, hlen, rfl⟩ | ⟨j, r, x, -, hq, rfl⟩ | ⟨j, ids, -, hq, hlen, rfl⟩ |
    ⟨ids, rest, -, hst, hq, rfl⟩ | ⟨ids, -, hst, rfl⟩
  · refine ⟨hinv.visited_self, hinv.visited_target, hinv.enqueued_visited, hinv.seeds, ?_, ?_,
      hinv.closest_eq⟩
    · intro y
      have h1 := hf { l with bucket := rest, queue := l.queue ++ [popped],
                             pending := l.pending + 1 } y
      have h2 := hinv.flow y
      simp only [hb, List.count_append, List.count_cons, List.count_nil] at h1 h2 ⊢
      omega
    · intro y
      have h1 := hg { l with bucket := rest, queue := l.queue ++ [popped],
                             pending := l.pending + 1 } y
      have h2 := hinv.flow2 y
      simp only at h1 h2 ⊢
      omega
  · refine ⟨hinv.visited_self, hinv.visited_target, hinv.enqueued_visited, hinv.seeds, ?_, ?_,
      hinv.closest_eq⟩
    · intro y
      have h1 := hf { l with stage := if l.pending = 0 then Stage.done else Stage.wait } y
      have h2 := hinv.flow y
      simp only at h1 h2 ⊢
      omega
    · intro y
      have h1 := hg { l with stage := if l.pending = 0 then Stage.done else Stage.wait } y
      have h2 := hinv.flow2 y
      simp only at h1 h2 ⊢
      omega
  · refine ⟨hinv.visited_self, hinv.visited_target, hinv.enqueued_visited, hinv.seeds, ?_, ?_,
      hinv.closest_eq⟩
    · intro y
      have h1 := hf { l with queue := rest, requesting := l.requesting ++ [x] } y
      have h2 := hinv.flow y
      simp only [hq, List.count_append, List.count_cons, List.count_nil] at h1 h2 ⊢
      omega
    · intro y
      have h1 := hg { l with queue := rest, requesting := l.requesting ++ [x] } y
      have h2 := hinv.flow2 y
      simp only [List.count_append, List.count_cons, List.count_nil] at h1 h2 ⊢
      omega
  · refine ⟨hinv.visited_self, hinv.visited_target, hinv.enqueued_visited, hinv.seeds, ?_, ?_,
      ?_⟩
    · intro y
      have h1 := hf { l with requesting := l.requesting.eraseIdx j,
                             sending := l.sending ++ [r.candidates] } y
      have h2 := hinv.flow y
      simp only at h1 h2 ⊢
      omega
    · intro y
      have h1 := hg { l with requesting := l.requesting.eraseIdx j,
                             sending := l.sending ++ [r.candidates] } y
      have h2 := hinv.flow2 y
      have h3 := count_eraseIdx y l.requesting j x hq
      simp only [List.map_append, List.map_cons, List.map_nil, List.count_append,
        List.count_cons, List.count_nil] at h1 h2 h3 ⊢
      omega
    · simp only [List.filter_append, List.map_append]
      rw [← hinv.closest_eq]
      cases hr : r.isResponse <;> simp [List.filter, hr]
  · refine ⟨hinv.visited_self, hinv.visited_target, hinv.enqueued_visited, hinv.seeds, ?_, ?_,
      hinv.closest_eq⟩
    · intro y
      have h1 := hf { l with sending := l.sending.eraseIdx j,
                             results := l.results ++ [ids] } y
      have h2 := hinv.flow y
      simp only at h1 h2 ⊢
      omega
    · intro y
      have h1 := hg { l with sending := l.sending.eraseIdx j,
                             results := l.results ++ [ids] } y
      have h2 := hinv.flow2 y
      simp only at h1 h2 ⊢
      omega
  · refine ⟨hinv.visited_self, hinv.visited_target, hinv.enqueued_visited, hinv.seeds, ?_, ?_,
      hinv.closest_eq⟩
    · intro y
      have h1 := hf { l with stage := Stage.merge ids, results := rest } y
      have h2 := hinv.flow y
      simp only at h1 h2 ⊢
      omega
    · intro y
      have h1 := hg { l with stage := Stage.merge ids, results := rest } y
      have h2 := hinv.flow2 y
      simp only at h1 h2 ⊢
      omega
  · obtain ⟨new, hnew, hnd, hnv, -⟩ := integrate_spec ids s.visited l.bucket s.enqueued
    simp only [hnew]
    refine ⟨List.mem_append_left _ hinv.visited_self,
      List.mem_append_left _ hinv.visited_target, ?_, ?_, ?_, ?_, hinv.closest_eq⟩
    · intro y hy
      rcases List.mem_append.mp hy with hy | hy
      · exact List.mem_append_left _ (hinv.enqueued_visited y hy)
      · exact List.mem_append_right _ (List.mem_map_of_mem _ hy)
    · obtain ⟨old, hold, holdnd, holdp⟩ := hinv.seeds
      refine ⟨old ++ new, by simp only [hold, List.append_assoc], ?_, ?_⟩
      · rw [List.map_append, List.nodup_append]
        refine ⟨holdnd, hnd, ?_⟩
        intro k hk hk'
        obtain ⟨y, hy, rfl⟩ := List.mem_map.mp hk
        obtain ⟨z, hz, hzk⟩ := List.mem_map.mp hk'
        apply hnv z hz
        rw [hzk]
        exact hinv.enqueued_visited y (by rw [hold]; exact List.mem_append_right _ hy)
      · intro y hy
        rcases List.mem_append.mp hy with hy | hy
        · exact holdp y hy
        · have hyv := hnv y hy
          refine ⟨?_, ?_, ?_⟩
          · intro he; exact hyv (he ▸ hinv.visited_self)
          · intro he; exact hyv (he ▸ hinv.visited_target)
          · intro hk
            obtain ⟨z, hz, hzk⟩ := List.mem_map.mp hk
            apply hyv
            rw [← hzk]
            exact hinv.enqueued_visited z (by rw [hold]; exact List.mem_append_left _ hz)
    · intro y
      have h1 := hf { l with stage := Stage.fill, bucket := l.bucket ++ new,
                             pending := l.pending - 1 } y
      have h2 := hinv.flow y
      simp only [List.count_append] at h1 h2 ⊢
      omega
    · intro y
      have h1 := hg { l with stage := Stage.fill, bucket := l.bucket ++ new,
                             pending := l.pending - 1 } y
      have h2 := hinv.flow2 y
      simp only at h1 h2 ⊢
      omega
theorem flatten_newLookup_held (bs : List (List ID)) :
    ((bs.map newLookup).map (fun l => l.bucket ++ l.queue)).flatten = bs.flatten := by
  induction bs with
  | nil => rfl
  | cons b bs ih =>
    simp only [List.map_cons, List.flatten_cons, ih, newLookup, List.append_nil]

theorem flatten_newLookup_requesting (bs : List (List ID)) :
    ((bs.map newLookup).map Lookup.requesting).flatten = [] := by
  induction bs with
  | nil => rfl
  | cons b bs ih =>
    simp only [List.map_cons, List.flatten_cons, ih, newLookup, List.append_nil]

theorem flatten_replicate_nil (n : Nat) : (List.replicate n ([] : List ID)).flatten = [] := by
  induction n with
  | zero => rfl
  | succ n ih => simp only [List.replicate_succ, List.flatten_cons, ih, List.append_nil]

/-- What `init` leaves: the visited keys are the node's key, `target` and the keys of the
peers, and the buckets hold the peers. -/
theorem init_spec {it : Iterator} {target : PublicKey} {s₀ : FindState}
    (h : init it target = some s₀) :
    s₀.visited = [it.node.PubKey, target] ++ (Peers it.table).map ID.PubKey ∧
    s₀.enqueued = Peers it.table ∧ s₀.queried = [] ∧ s₀.answered = [] ∧ s₀.closest = [] ∧
    (∃ bs : List (List ID), s₀.lookups = bs.map newLookup ∧
      bs.length = it.numParallelLookups ∧ ∀ x, bs.flatten.count x = (Peers it.table).count x) := by
  unfold init at h
  split at h
  · cases h
  · rename_i hc
    simp only [Option.some.injEq] at h
    subst h
    by_cases hn : 0 < it.numParallelLookups
    · obtain ⟨h1, h2, h3⟩ := seed_spec it.numParallelLookups hn (Peers it.table) 0
        [it.node.PubKey, target] (List.replicate it.numParallelLookups [])
        (List.length_replicate _ _)
      refine ⟨h1, rfl, rfl, rfl, rfl, _, rfl, h2, ?_⟩
      intro x
      rw [h3 x, flatten_replicate_nil]
      simp
    · have hp : Peers it.table = [] := by
        by_contra hne
        exact hc ⟨by omega, hne⟩
      have hz : it.numParallelLookups = 0 := by omega
      rw [hp, hz]
      exact ⟨rfl, rfl, rfl, rfl, rfl, [], rfl, rfl, fun _ => rfl⟩

theorem FindInv.of_init {it : Iterator} {target : PublicKey} {s₀ : FindState}
    (h : init it target = some s₀) : FindInv it target s₀ := by
  obtain ⟨hv, he, hq, ha, hc, bs, hl, -, hcount⟩ := init_spec h
  refine ⟨by rw [hv]; simp, by rw [hv]; simp, ?_, ⟨[], by rw [he]; simp, by simp, by simp⟩,
    ?_, ?_, by rw [hc, ha]; rfl⟩
  · intro x hx
    rw [hv]
    rw [he] at hx
    exact List.mem_append_right _ (List.mem_map_of_mem _ hx)
  · intro x
    rw [he, hq, hl, flatten_newLookup_held, hcount x]
    simp
  · intro x
    rw [hq, ha, hl, flatten_newLookup_requesting]
    simp

theorem FindInv.of_run {it : Iterator} {target : PublicKey} (tr : List Action) :
    ∀ {s s' : FindState}, FindInv it target s → run it s tr = some s' → FindInv it target s' := by
  induction tr with
  | nil =>
    intro s s' hinv h
    simp only [Kademlia.run, Option.some.injEq] at h
    exact h ▸ hinv
  | cons a rest ih =>
    intro s s' hinv h
    simp only [Kademlia.run] at h
    cases hs : Kademlia.step it s a with
    | none => simp [hs] at h
    | some s₁ =>
      simp only [hs] at h
      exact ih (hinv.of_step hs) h

/-- The seeds have pairwise distinct public keys when the table is reachable. -/
theorem Peers_nodup {self : ID} {t : Table} (h : Reachable self t) :
    ((Peers t).map ID.PubKey).Nodup := by
  obtain ⟨rest, hperm, -⟩ := FindClosest_collected h.inv t.self.PubKey BucketSize
  have hnd : (((Entries t).filter (fun id => id.PubKey ≠ t.self.PubKey)).map ID.PubKey).Nodup :=
    h.inv.nodup_entries.sublist ((List.filter_sublist _).map _)
  have hnd2 := (hperm.map ID.PubKey).nodup_iff.mp hnd
  rw [List.map_append] at hnd2
  have hnd3 := (List.nodup_append.mp hnd2).1
  simp only [Peers]
  rw [FindClosest_eq]
  exact (((SortByDistance_perm _ _).map ID.PubKey).nodup_iff.mpr hnd3).sublist
    ((List.take_sublist _ _).map _)

/-- The history of a `Find` in terms of lists: the queried IDs are among the appended ones,
the answered ones among the queried ones, as often at most. -/
theorem FindInv.subperm {it : Iterator} {target : PublicKey} {s : FindState}
    (hinv : FindInv it target s) :
    s.queried.Subperm s.enqueued ∧ (s.answered.map Prod.fst).Subperm s.queried ∧
    s.closest.Sublist (s.answered.map Prod.fst) := by
  refine ⟨?_, ?_, ?_⟩
  · rw [List.subperm_ext_iff]
    intro x _
    have := hinv.flow x
    omega
  · rw [List.subperm_ext_iff]
    intro x _
    have := hinv.flow2 x
    omega
  · rw [hinv.closest_eq]
    exact (List.filter_sublist _).map _

/-- The keys of the appended IDs are pairwise distinct when those of the seeds are. -/
theorem FindInv.enqueued_nodup {it : Iterator} {target : PublicKey} {s : FindState}
    (hinv : FindInv it target s) (hp : ((Peers it.table).map ID.PubKey).Nodup) :
    (s.enqueued.map ID.PubKey).Nodup := by
  obtain ⟨new, hnew, hnd, hprop⟩ := hinv.seeds
  rw [hnew, List.map_append, List.nodup_append]
  refine ⟨hp, hnd, ?_⟩
  intro k hk hk'
  obtain ⟨y, hy, rfl⟩ := List.mem_map.mp hk'
  exact (hprop y hy).2.2 hk

theorem FindResult_sublist_perm (it : Iterator) (target : PublicKey) (s : FindState) :
    ∃ l, (FindResult it target s).Sublist l ∧ l.Perm s.closest := by
  refine ⟨SortByDistance target s.closest, ?_, SortByDistance_perm _ _⟩
  simp only [FindResult]
  split_ifs
  · exact List.take_sublist _ _
  · exact List.Sublist.refl _
theorem nodup_map_of_subperm {l₁ l₂ : List ID} (h : l₁.Subperm l₂)
    (hnd : (l₂.map ID.PubKey).Nodup) : (l₁.map ID.PubKey).Nodup := by
  obtain ⟨l, hperm, hsub⟩ := h
  exact ((hperm.map ID.PubKey).nodup_iff).mp (hnd.sublist (hsub.map _))

/-- A step appends to the buckets only IDs whose key was not visited, and marks them
visited. -/
theorem step_enqueued {it : Iterator} {s s' : FindState} {a : Action}
    (h : step it s a = some s') :
    ∃ new : List ID, s'.enqueued = s.enqueued ++ new ∧
      ∀ x ∈ new, x.PubKey ∉ s.visited ∧ x.PubKey ∈ s'.visited := by
  obtain ⟨i, l, hl, hcase⟩ := step_inv it s s' a h
  rcases hcase with ⟨popped, rest, -, hst, hb, hlen, rfl⟩ | ⟨-, hst, hc, rfl⟩ |
    ⟨x, rest, -, hq, hlen, rfl⟩ | ⟨j, r, x, -, hq, rfl⟩ | ⟨j, ids, -, hq, hlen, rfl⟩ |
    ⟨ids, rest, -, hst, hq, rfl⟩ | ⟨ids, -, hst, rfl⟩
  · exact ⟨[], by simp, by simp⟩
  · exact ⟨[], by simp, by simp⟩
  · exact ⟨[], by simp, by simp⟩
  · exact ⟨[], by simp, by simp⟩
  · exact ⟨[], by simp, by simp⟩
  · exact ⟨[], by simp, by simp⟩
  · obtain ⟨new, hnew, -, hnv, -⟩ := integrate_spec ids s.visited l.bucket s.enqueued
    refine ⟨new, by simp only [hnew], ?_⟩
    intro x hx
    refine ⟨hnv x hx, ?_⟩
    simp only [hnew]
    exact List.mem_append_right _ (List.mem_map_of_mem _ hx)

/-- Every ID in a bucket or in a channel `queue` was appended to a bucket before. -/
theorem FindInv.held_enqueued {it : Iterator} {target : PublicKey} {s : FindState}
    (hinv : FindInv it target s) :
    ∀ l ∈ s.lookups, ∀ x ∈ l.bucket ++ l.queue, x ∈ s.enqueued := by
  intro l hl x hx
  have hmem : x ∈ (s.lookups.map (fun l => l.bucket ++ l.queue)).flatten :=
    List.mem_flatten.mpr ⟨_, List.mem_map_of_mem _ hl, hx⟩
  have h1 := hinv.flow x
  have h2 := List.count_pos_iff.mpr hmem
  exact List.count_pos_iff.mp (by omega)

/-- The returned IDs were appended to a bucket, and answered. -/
theorem FindInv.result_enqueued {it : Iterator} {target : PublicKey} {s : FindState}
    (hinv : FindInv it target s) : (FindResult it target s).Subperm s.enqueued := by
  obtain ⟨h1, h2, h3⟩ := hinv.subperm
  obtain ⟨l, hsub, hperm⟩ := FindResult_sublist_perm it target s
  exact (((hsub.subperm.trans hperm.subperm).trans h3.subperm).trans h2).trans h1

/-- A `Find` never returns the node's own ID when the table is the node's, and returns an ID
with the key `target` only when it is a seed from `Peers()`. -/
theorem Find_excludes_self (it : Iterator) (target : PublicKey) (result : List ID)
    (h : FindReturns it target result) :
    ∀ x ∈ result, (it.table.self = it.node → x.PubKey ≠ it.node.PubKey) ∧
      (x.PubKey = target → x ∈ Peers it.table) := by
  obtain ⟨s₀, tr, s, h₀, hrun, -, rfl⟩ := h
  have hinv := (FindInv.of_init h₀).of_run tr hrun
  intro x hx
  have hxe : x ∈ s.enqueued := hinv.result_enqueued.subset hx
  obtain ⟨new, hnew, -, hprop⟩ := hinv.seeds
  rw [hnew] at hxe
  rcases List.mem_append.mp hxe with hxp | hxn
  · refine ⟨fun hs => ?_, fun _ => hxp⟩
    rw [← hs]
    exact FindClosest_ne_target _ _ _ x hxp
  · exact ⟨fun _ => (hprop x hxn).1, fun ht => absurd ht (hprop x hxn).2.1⟩

set_option maxRecDepth 100000 in
/-- C21: on the table of `exSelf` that holds the one peer `exFar`, `Find(exFar.PubKey)`
returns `exFar`, whose public key is `target`, when the request to `exFar` is answered by
a `FindNodeResponse`: `init` puts the seeds of `Peers()` on the work queues without
looking at `visited`. -/
theorem C21_Find_returns_a_seed_with_the_target_key :
    exIterator.table.self = exIterator.node ∧ exFar ∈ Peers exIterator.table ∧
    FindReturns exIterator exFar.PubKey [exFar] := by
  refine ⟨rfl, by decide, ?_⟩
  have h : ((init exIterator exFar.PubKey).bind (fun s => run exIterator s exTrace)).map
      (fun s => (Final s, FindResult exIterator exFar.PubKey s)) = some (true, [exFar]) := by
    decide
  cases h₀ : init exIterator exFar.PubKey with
  | none => rw [h₀] at h; cases h
  | some s₀ =>
    rw [h₀] at h
    simp only [Option.some_bind] at h
    cases h₁ : run exIterator s₀ exTrace with
    | none => rw [h₁] at h; cases h
    | some s =>
      rw [h₁] at h
      simp only [Option.map_some', Option.some.injEq, Prod.mk.injEq] at h
      exact ⟨s₀, exTrace, s, h₀, h₁, h.1, h.2.symm⟩

/-- C22: for every table reachable from `NewTable(self)` for some `self`, which need not be
the ID of the iterator's node, every target and every behaviour of the transport and of
the scheduler, the seeds are the IDs of `Peers()`, all marked visited; and in every state
of the `Find` the IDs appended to the work queues so far have pairwise distinct public
keys, every ID in a work queue or in a channel `queue` is one of them, the IDs queried
so far are among them and have pairwise distinct public keys, every step appends only IDs
whose key was not in `visited` and puts their keys into `visited`, and the public keys in
the list that `Find` returns are pairwise distinct. -/
theorem C22_no_key_is_enqueued_twice (self : ID) (it : Iterator) (target : PublicKey)
    (s₀ : FindState) (hr : Reachable self it.table) (h₀ : init it target = some s₀) :
    (s₀.enqueued = Peers it.table ∧ ∀ x ∈ s₀.enqueued, x.PubKey ∈ s₀.visited) ∧
    ∀ (tr : List Action) (s : FindState), run it s₀ tr = some s →
      (s.enqueued.map ID.PubKey).Nodup ∧
      (∀ l ∈ s.lookups, ∀ x ∈ l.bucket ++ l.queue, x ∈ s.enqueued) ∧
      s.queried.Subperm s.enqueued ∧ (s.queried.map ID.PubKey).Nodup ∧
      (∀ (a : Action) (s' : FindState), step it s a = some s' →
        ∃ new : List ID, s'.enqueued = s.enqueued ++ new ∧
          ∀ x ∈ new, x.PubKey ∉ s.visited ∧ x.PubKey ∈ s'.visited) ∧
      ((FindResult it target s).map ID.PubKey).Nodup := by
  have hinv₀ := FindInv.of_init h₀
  refine ⟨⟨(init_spec h₀).2.1, hinv₀.enqueued_visited⟩, ?_⟩
  intro tr s hrun
  have hinv := hinv₀.of_run tr hrun
  have hnd := hinv.enqueued_nodup (Peers_nodup hr)
  exact ⟨hnd, hinv.held_enqueued, hinv.subperm.1, nodup_map_of_subperm hinv.subperm.1 hnd,
    fun a s' h => step_enqueued h, nodup_map_of_subperm hinv.result_enqueued hnd⟩

set_option maxRecDepth 100000 in
/-- The claim C22 on an iterator of the node `exNear` over the table of `exSelf` with the one
peer `exFar`, target `exTarget` and the schedule `exTrace`, on which `exFar` is queried and
answers with `exNear`, the node's own ID, which is not queued. -/
theorem C22_witness :
    Reachable exSelf exOtherIterator.table ∧ exOtherIterator.node ≠ exSelf ∧
    (∃ s₀ s, init exOtherIterator exTarget = some s₀ ∧
      run exOtherIterator s₀ exOtherTrace = some s ∧ s.queried = [exFar] ∧
      (s.enqueued.map ID.PubKey).Nodup ∧ (s.queried.map ID.PubKey).Nodup ∧
      ((FindResult exOtherIterator exTarget s).map ID.PubKey).Nodup) := by
  have hr : Reachable exSelf exOtherIterator.table :=
    Reachable.update _ exFar exTable0_reachable
  refine ⟨hr, by decide, ?_⟩
  have h : ((init exOtherIterator exTarget).bind
      (fun s => run exOtherIterator s exOtherTrace)).map
      (fun s => s.queried) = some [exFar] := by decide
  cases h₀ : init exOtherIterator exTarget with
  | none => rw [h₀] at h; cases h
  | some s₀ =>
    rw [h₀] at h
    simp only [Option.some_bind] at h
    cases h₁ : run exOtherIterator s₀ exOtherTrace with
    | none => rw [h₁] at h; cases h
    | some s =>
      rw [h₁] at h
      simp only [Option.map_some', Option.some.injEq] at h
      have hc := (C22_no_key_is_enqueued_twice exSelf exOtherIterator exTarget s₀ hr h₀).2
        exOtherTrace s h₁
      exact ⟨s₀, s, rfl, h₁, h, hc.1, hc.2.2.2.1, hc.2.2.2.2.2⟩

/-! ### Counting what is in flight -/

theorem LookupInv.new (n : Nat) (b : List ID) : LookupInv n (newLookup b) :=
  ⟨rfl, fun h => (by cases h), Nat.zero_le _, Nat.zero_le _⟩

theorem LookupInv.after_step {it : Iterator} {s s' : FindState} {a : Action}
    (hall : ∀ l ∈ s.lookups, LookupInv it.numParallelRequestsPerLookup l)
    (h : step it s a = some s') :
    ∀ l ∈ s'.lookups, LookupInv it.numParallelRequestsPerLookup l := by
  obtain ⟨i, l, hl, hcase⟩ := step_inv it s s' a h
  obtain ⟨hp, hw, hq, hwk⟩ := hall l (List.getElem?_mem hl)
  simp only [Lookup.inFlight] at hp hw
  rcases hcase with ⟨popped, rest, -, hst, hb, hlen, rfl⟩ | ⟨-, hst, hc, rfl⟩ |
    ⟨x, rest, -, hq', hlen, rfl⟩ | ⟨j, r, x, -, hq', rfl⟩ | ⟨j, ids, -, hq', hlen, rfl⟩ |
    ⟨ids, rest, -, hst, hq', rfl⟩ | ⟨ids, -, hst, rfl⟩
  · apply forall_mem_set _ _ _ _ hall
    refine ⟨?_, ?_, ?_, hwk⟩
    · simp only [Lookup.inFlight, List.length_append, List.length_singleton]
      rw [hp]; push_cast; omega
    · intro hs; simp only [hst] at hs; cases hs
    · simp only [List.length_append, List.length_singleton]; omega
  · apply forall_mem_set _ _ _ _ hall
    refine ⟨?_, ?_, hq, hwk⟩
    · simp only [Lookup.inFlight]
      split_ifs <;> simp only [hst, Stage.inFlight] at hp ⊢ <;> rw [hp]
    · intro hs
      by_cases h0 : l.pending = 0
      · simp only [h0, if_true] at hs
        cases hs
      · simp only [Lookup.inFlight, h0, if_false, Stage.inFlight]
        simp only [hst, Stage.inFlight] at hp
        omega
  · apply forall_mem_set _ _ _ _ hall
    have hlq : l.queue.length = rest.length + 1 := by rw [hq']; rfl
    refine ⟨?_, ?_, ?_, ?_⟩
    · simp only [Lookup.inFlight, List.length_append, List.length_singleton]
      rw [hp]; push_cast; omega
    · intro hs
      have := hw hs
      simp only [Lookup.inFlight, List.length_append, List.length_singleton]
      omega
    · simp only []; omega
    · simp only [List.length_append, List.length_singleton]; omega
  · apply forall_mem_set _ _ _ _ hall
    have hle := length_eraseIdx_add_one l.requesting j x hq'
    refine ⟨?_, ?_, hq, ?_⟩
    · simp only [Lookup.inFlight, List.length_append, List.length_singleton]
      rw [hp]; push_cast; omega
    · intro hs
      have := hw hs
      simp only [Lookup.inFlight, List.length_append, List.length_singleton]
      omega
    · simp only [List.length_append, List.length_singleton]; omega
  · apply forall_mem_set _ _ _ _ hall
    have hle := sum_map_eraseIdx (fun _ => 1) l.sending j ids hq'
    simp only [List.map_const', List.sum_replicate, smul_eq_mul, mul_one] at hle
    refine ⟨?_, ?_, hq, ?_⟩
    · simp only [Lookup.inFlight, List.length_append, List.length_singleton]
      rw [hp]; push_cast; omega
    · intro hs
      have := hw hs
      simp only [Lookup.inFlight, List.length_append, List.length_singleton]
      omega
    · simp only []; omega
  · apply forall_mem_set _ _ _ _ hall
    have hlr : l.results.length = rest.length + 1 := by rw [hq']; rfl
    refine ⟨?_, ?_, hq, hwk⟩
    · simp only [Lookup.inFlight, Stage.inFlight]
      simp only [hst, Stage.inFlight] at hp
      rw [hp]; push_cast; omega
    · intro hs; cases hs
  · apply forall_mem_set _ _ _ _ hall
    refine ⟨?_, ?_, hq, hwk⟩
    · simp only [Lookup.inFlight, Stage.inFlight]
      simp only [hst, Stage.inFlight] at hp
      rw [hp]; push_cast; omega
    · intro hs; cases hs

theorem LookupInv.after_run {it : Iterator} (tr : List Action) :
    ∀ {s s' : FindState}, (∀ l ∈ s.lookups, LookupInv it.numParallelRequestsPerLookup l) →
      run it s tr = some s' →
      ∀ l ∈ s'.lookups, LookupInv it.numParallelRequestsPerLookup l := by
  induction tr with
  | nil =>
    intro s s' hall h
    simp only [Kademlia.run, Option.some.injEq] at h
    exact h ▸ hall
  | cons a rest ih =>
    intro s s' hall h
    simp only [Kademlia.run] at h
    cases hs : Kademlia.step it s a with
    | none => simp [hs] at h
    | some s₁ =>
      simp only [hs] at h
      exact ih (LookupInv.after_step hall hs) h

theorem LookupInv.at_init {it : Iterator} {target : PublicKey} {s₀ : FindState}
    (h : init it target = some s₀) :
    ∀ l ∈ s₀.lookups, LookupInv it.numParallelRequestsPerLookup l := by
  obtain ⟨-, -, -, -, -, bs, hl, -, -⟩ := init_spec h
  rw [hl]
  intro l hl
  obtain ⟨b, -, rfl⟩ := List.mem_map.mp hl
  exact LookupInv.new _ b
/-! ### A `Find` whose requests all fail -/

/-- While some `processLookupBucket` has not returned, some goroutine can take a step, and
none of these steps needs a request to be answered by a `FindNodeResponse`. -/
theorem progress {it : Iterator} {s : FindState}
    (hall : ∀ l ∈ s.lookups, LookupInv it.numParallelRequestsPerLookup l)
    (hf : Final s = false) : ∃ a : Action, a.failing = true ∧ (step it s a).isSome = true := by
  have hex : ∃ l ∈ s.lookups, l.stage ≠ Stage.done := by
    by_contra hne
    push_neg at hne
    have : Final s = true := by
      simp only [Final, List.all_eq_true, decide_eq_true_eq]
      exact hne
    rw [this] at hf
    cases hf
  obtain ⟨l, hmem, hnd⟩ := hex
  obtain ⟨i, hl⟩ := List.mem_iff_getElem?.mp hmem
  obtain ⟨hp, hw, hq, hwk⟩ := hall l hmem
  simp only [Lookup.inFlight] at hp hw
  cases hst : l.stage with
  | fill =>
    cases hb : l.bucket with
    | nil =>
      exact ⟨Action.endFill i, rfl, by simp [step, hl, Lookup.endFill, hst, hb]⟩
    | cons popped rest =>
      by_cases hc : l.queue.length < it.numParallelRequestsPerLookup
      · exact ⟨Action.pop i, rfl, by simp [step, hl, Lookup.pop, hst, hb, hc]⟩
      · exact ⟨Action.endFill i, rfl, by simp [step, hl, Lookup.endFill, hst, hb, hc]⟩
  | wait =>
    have hpos := hw hst
    simp only [hst, Stage.inFlight] at hpos
    cases hr : l.results with
    | cons ids rest =>
      exact ⟨Action.receive i, rfl, by simp [step, hl, Lookup.receive, hst, hr]⟩
    | nil =>
      cases hs : l.sending with
      | cons ids rest =>
        have hn : 0 < it.numParallelRequestsPerLookup := by
          rw [hs] at hwk
          simp only [List.length_cons] at hwk
          omega
        exact ⟨Action.send i 0, rfl, by simp [step, hl, Lookup.send, hs, hr, hn]⟩
      | nil =>
        cases hq' : l.requesting with
        | cons x rest =>
          exact ⟨Action.reply i 0 Reply.error, rfl, by simp [step, hl, Lookup.reply, hq']⟩
        | nil =>
          cases hqu : l.queue with
          | nil =>
            rw [hr, hs, hq', hqu] at hpos
            simp at hpos
          | cons x rest =>
            have hn : 0 < it.numParallelRequestsPerLookup := by
              rw [hqu] at hq
              simp only [List.length_cons] at hq
              omega
            exact ⟨Action.take i, rfl, by simp [step, hl, Lookup.take, hqu, hs, hq', hn]⟩
  | merge ids =>
    exact ⟨Action.merge i, rfl, by simp [step, hl, hst]⟩
  | done => exact absurd hst hnd

theorem candidates_of_not_isResponse (r : Reply) (h : r.isResponse = false) :
    r.candidates = [] := by
  cases r with
  | error => rfl
  | notResponse => rfl
  | response results => cases h

/-- A step in which no request is answered by a `FindNodeResponse` lowers the weight and
leaves `closest` as it is. -/
theorem step_failing {it : Iterator} {s s' : FindState} {a : Action}
    (h : step it s a = some s') (hf : a.failing = true) :
    weight s' < weight s ∧ s'.closest = s.closest := by
  obtain ⟨i, l, hl, hcase⟩ := step_inv it s s' a h
  have hsum := fun l' : Lookup => sum_map_set Lookup.weight s.lookups i l l' hl
  rcases hcase with ⟨popped, rest, -, hst, hb, hlen, rfl⟩ | ⟨-, hst, hc, rfl⟩ |
    ⟨x, rest, -, hq', hlen, rfl⟩ | ⟨j, r, x, ha, hq', rfl⟩ | ⟨j, ids, -, hq', hlen, rfl⟩ |
    ⟨ids, rest, -, hst, hq', rfl⟩ | ⟨ids, -, hst, rfl⟩
  · refine ⟨?_, rfl⟩
    have h1 := hsum { l with bucket := rest, queue := l.queue ++ [popped],
                             pending := l.pending + 1 }
    simp only [weight, Lookup.weight, hb, List.length_append, List.length_cons,
      List.length_nil] at h1 ⊢
    omega
  · refine ⟨?_, rfl⟩
    have h1 := hsum { l with stage := if l.pending = 0 then Stage.done else Stage.wait }
    by_cases h0 : l.pending = 0
    · simp only [weight, Lookup.weight, hst, h0, if_true, Stage.weight] at h1 ⊢
      omega
    · simp only [weight, Lookup.weight, hst, h0, if_false, Stage.weight] at h1 ⊢
      omega
  · refine ⟨?_, rfl⟩
    have h1 := hsum { l with queue := rest, requesting := l.requesting ++ [x] }
    simp only [weight, Lookup.weight, hq', List.length_append, List.length_cons,
      List.length_nil] at h1 ⊢
    omega
  · subst ha
    have hr : r.isResponse = false := by simpa [Action.failing] using hf
    refine ⟨?_, by simp only [hr]; rfl⟩
    have h1 := hsum { l with requesting := l.requesting.eraseIdx j,
                             sending := l.sending ++ [r.candidates] }
    have h2 := length_eraseIdx_add_one l.requesting j x hq'
    simp only [weight, Lookup.weight, candidates_of_not_isResponse r hr, List.map_append,
      List.map_cons, List.map_nil, List.sum_append, List.sum_cons, List.sum_nil,
      List.length_nil] at h1 ⊢
    omega
  · refine ⟨?_, rfl⟩
    have h1 := hsum { l with sending := l.sending.eraseIdx j, results := l.results ++ [ids] }
    have h2 := sum_map_eraseIdx (fun ids : List ID => 4 + 11 * ids.length) l.sending j ids hq'
    simp only [weight, Lookup.weight, List.map_append, List.map_cons, List.map_nil,
      List.sum_append, List.sum_cons, List.sum_nil] at h1 h2 ⊢
    omega
  · refine ⟨?_, rfl⟩
    have h1 := hsum { l with stage := Stage.merge ids, results := rest }
    simp only [weight, Lookup.weight, hst, hq', Stage.weight, List.map_cons,
      List.sum_cons] at h1 ⊢
    omega
  · refine ⟨?_, rfl⟩
    obtain ⟨new, hnew, -, -, hsub⟩ := integrate_spec ids s.visited l.bucket s.enqueued
    have hlen := hsub.length_le
    have h1 := hsum { l with stage := Stage.fill, bucket := l.bucket ++ new,
                             pending := l.pending - 1 }
    simp only [hnew]
    simp only [weight, Lookup.weight, hst, Stage.weight, List.length_append] at h1 ⊢
    omega

/-- Along steps in which no request is answered by a `FindNodeResponse`, `closest` stays as it
was and the number of steps is bounded by the loss of weight. -/
theorem run_failing {it : Iterator} (tr : List Action) :
    ∀ {s s' : FindState}, run it s tr = some s' → tr.all Action.failing = true →
      s'.closest = s.closest ∧ tr.length + weight s' ≤ weight s := by
  induction tr with
  | nil =>
    intro s s' h _
    simp only [run, Option.some.injEq] at h
    subst h
    exact ⟨rfl, by simp⟩
  | cons a rest ih =>
    intro s s' h hf
    simp only [List.all_cons, Bool.and_eq_true] at hf
    simp only [run] at h
    cases hs : step it s a with
    | none => simp [hs] at h
    | some s₁ =>
      simp only [hs] at h
      obtain ⟨h1, h2⟩ := step_failing hs hf.1
      obtain ⟨h3, h4⟩ := ih h hf.2
      refine ⟨h3.trans h2, ?_⟩
      simp only [List.length_cons]
      omega

/-- From every state some schedule on which no request is answered by a `FindNodeResponse`
leads to the end of all lookups. -/
theorem exists_final {it : Iterator} :
    ∀ (n : Nat) (s : FindState), weight s ≤ n →
      (∀ l ∈ s.lookups, LookupInv it.numParallelRequestsPerLookup l) →
      ∃ tr s', tr.all Action.failing = true ∧ run it s tr = some s' ∧ Final s' = true := by
  intro n
  induction n with
  | zero =>
    intro s hw hall
    cases hF : Final s with
    | true => exact ⟨[], s, rfl, rfl, hF⟩
    | false =>
      obtain ⟨a, hfa, hsome⟩ := progress hall hF
      obtain ⟨s₁, hs₁⟩ := Option.isSome_iff_exists.mp hsome
      have := (step_failing hs₁ hfa).1
      omega
  | succ n ih =>
    intro s hw hall
    cases hF : Final s with
    | true => exact ⟨[], s, rfl, rfl, hF⟩
    | false =>
      obtain ⟨a, hfa, hsome⟩ := progress hall hF
      obtain ⟨s₁, hs₁⟩ := Option.isSome_iff_exists.mp hsome
      have hlt := (step_failing hs₁ hfa).1
      obtain ⟨tr, s', htr, hrun, hfin⟩ := ih s₁ (by omega) (LookupInv.after_step hall hs₁)
      refine ⟨a :: tr, s', ?_, ?_, hfin⟩
      · simp only [List.all_cons, hfa, htr, Bool.and_self]
      · simp only [run, hs₁, hrun]

theorem FindResult_nil (it : Iterator) (target : PublicKey) (s : FindState)
    (h : s.closest = []) : FindResult it target s = [] := by
  simp [FindResult, h, SortByDistance]
/-- C23: for every table and target, `init` does not panic when there is a lookup to seed;
every ID in the list `Find` returns was queried and its request returned a
`FindNodeResponse`; and when every request fails with a transport error or returns a value
that is not a `FindNodeResponse`, the list is empty in every state, the number of steps taken
is bounded, a step can be taken as long as some lookup has not ended, and so `Find` returns
the empty list. -/
theorem C23_Find_returns_only_answered_IDs (it : Iterator) (target : PublicKey) :
    (0 < it.numParallelLookups → (init it target).isSome = true) ∧
    ∀ s₀ : FindState, init it target = some s₀ →
      (∀ (tr : List Action) (s : FindState), run it s₀ tr = some s →
        ∀ x ∈ FindResult it target s,
          x ∈ s.queried ∧ ∃ results, (x, Reply.response results) ∈ s.answered) ∧
      (∀ (tr : List Action) (s : FindState), run it s₀ tr = some s →
        tr.all Action.failing = true →
          FindResult it target s = [] ∧ tr.length + weight s ≤ weight s₀ ∧
          (Final s = false →
            ∃ a : Action, a.failing = true ∧ (step it s a).isSome = true)) ∧
      (∃ tr s, tr.all Action.failing = true ∧ run it s₀ tr = some s ∧ Final s = true) ∧
      FindReturns it target [] := by
  refine ⟨fun hn => by simp [init, Nat.pos_iff_ne_zero.mp hn], ?_⟩
  intro s₀ h₀
  have hinv₀ := FindInv.of_init h₀
  have hall₀ := LookupInv.at_init h₀
  have hc₀ : s₀.closest = [] := (init_spec h₀).2.2.2.2.1
  have hfail : ∀ (tr : List Action) (s : FindState), run it s₀ tr = some s →
      tr.all Action.failing = true → FindResult it target s = [] := by
    intro tr s hrun hf
    exact FindResult_nil it target s ((run_failing tr hrun hf).1.trans hc₀)
  obtain ⟨tr, s, htr, hrun, hfin⟩ := exists_final (weight s₀) s₀ (Nat.le_refl _) hall₀
  refine ⟨?_, ?_, ⟨tr, s, htr, hrun, hfin⟩,
    ⟨s₀, tr, s, h₀, hrun, hfin, (hfail tr s hrun htr).symm⟩⟩
  · intro tr s hrun x hx
    have hinv := hinv₀.of_run tr hrun
    obtain ⟨l, hsub, hperm⟩ := FindResult_sublist_perm it target s
    have hxc : x ∈ s.closest := hperm.subset (hsub.subset hx)
    rw [hinv.closest_eq] at hxc
    obtain ⟨p, hp, hpx⟩ := List.mem_map.mp hxc
    obtain ⟨hpa, hpr⟩ := List.mem_filter.mp hp
    obtain ⟨y, r⟩ := p
    simp only at hpx hpr
    subst hpx
    refine ⟨hinv.subperm.2.1.subset (List.mem_map_of_mem Prod.fst hpa), ?_⟩
    cases r with
    | error => cases hpr
    | notResponse => cases hpr
    | response results => exact ⟨results, hpa⟩
  · intro tr s hrun hf
    exact ⟨hfail tr s hrun hf, (run_failing tr hrun hf).2,
      fun hF => progress (LookupInv.after_run tr hall₀ hrun) hF⟩

set_option maxRecDepth 100000 in
/-- The claim C23 on the table with the one peer `exFar` and the schedule `exFailTrace`: the
request to `exFar` fails and `Find` returns the empty list. -/
theorem C23_witness :
    ∃ s₀ s, init exIterator exTarget = some s₀ ∧ exFailTrace.all Action.failing = true ∧
      run exIterator s₀ exFailTrace = some s ∧ Final s = true ∧ s.queried = [exFar] ∧
      FindResult exIterator exTarget s = [] := by
  have h : ((init exIterator exTarget).bind (fun s => run exIterator s exFailTrace)).map
      (fun s => (Final s, s.queried)) = some (true, [exFar]) := by decide
  cases h₀ : init exIterator exTarget with
  | none => rw [h₀] at h; cases h
  | some s₀ =>
    rw [h₀] at h
    simp only [Option.some_bind] at h
    cases h₁ : run exIterator s₀ exFailTrace with
    | none => rw [h₁] at h; cases h
    | some s =>
      rw [h₁] at h
      simp only [Option.map_some', Option.some.injEq, Prod.mk.injEq] at h
      exact ⟨s₀, s, rfl, by decide, h₁, h.1, h.2,
        (((C23_Find_returns_only_answered_IDs exIterator exTarget).2 s₀ h₀).2.1
          exFailTrace s h₁ (by decide)).1⟩

end Kademlia

namespace Common

/-! ## Lemmas about the codec -/

open Kademlia

theorem toUint16_val (n : Nat) : (toUint16 n).val = n % 65536 := rfl

theorem decr_incr (k : Fin 65536) : decr (incr k) = k := by
  apply Fin.ext
  have := k.isLt
  simp only [decr, incr, toUint16_val]
  omega

theorem incr_toUint16 (n : Nat) : incr (toUint16 n) = toUint16 (n + 1) := by
  apply Fin.ext
  simp only [incr, toUint16_val]
  omega

/-! ### The outcomes of `Register` -/

theorem Codec.ser_of_serMap {V : Type} (c : Codec V) (s : GoType → Option (Fin 65536))
    (h : c.serMap = some s) (t : GoType) : c.ser t = s t := by
  simp only [Codec.ser, h]

theorem Codec.de_of_deMap {V : Type} (c : Codec V) (d : Fin 65536 → Option (Decoder V))
    (h : c.deMap = some d) (k : Fin 65536) : c.de k = d k := by
  simp only [Codec.de, h]

theorem Register_dup {V : Type} (c : Codec V) (m : Message V) (d : Decoder V)
    (op : Fin 65536) (h : c.ser m.typ = some op) :
    Register c m d = Except.error (Panic.alreadyRegistered m.typ op) := by
  simp only [Register, h]

theorem Register_badDecoder {V : Type} (c : Codec V) (m : Message V) (d : Decoder V)
    (h : c.ser m.typ = none) (hd : d.typ ≠ FuncType.decoder m.typ) :
    Register c m d = Except.error (Panic.decoderType m.typ) := by
  simp only [Register, h, hd, ne_eq, not_false_eq_true, if_true]

theorem Register_ok {V : Type} (c : Codec V) (m : Message V) (d : Decoder V)
    (h : c.ser m.typ = none) (hd : d.typ = FuncType.decoder m.typ)
    (s : GoType → Option (Fin 65536)) (hs : c.serMap = some s)
    (dm : Fin 65536 → Option (Decoder V)) (hdm : c.deMap = some dm) :
    Register c m d =
      Except.ok (⟨incr c.counter, some (fun k => if k = m.typ then some c.counter else s k),
        some (fun k => if k = c.counter then some d else dm k)⟩, c.counter) := by
  simp only [Register, h, hd, ne_eq, not_true_eq_false, if_false, hs, hdm, decr_incr]

/-- On a codec with a nil map, a `Register` call that passes the two checks panics at the
write to the map. -/
theorem Register_nilMap {V : Type} (c : Codec V) (m : Message V) (d : Decoder V)
    (h : c.ser m.typ = none) (hd : d.typ = FuncType.decoder m.typ) :
    (c.serMap = none → Register c m d = Except.error Panic.nilMapSer) ∧
    (c.serMap ≠ none → c.deMap = none → Register c m d = Except.error Panic.nilMapDe) := by
  constructor
  · intro hs
    simp only [Register, h, hd, ne_eq, not_true_eq_false, if_false, hs]
  · intro hs hdm
    obtain ⟨s, hs'⟩ := Option.ne_none_iff_exists'.mp hs
    simp only [Register, h, hd, ne_eq, not_true_eq_false, if_false, hs', hdm]

/-- A `Register` call that returns has found the type unregistered, the decoder of the
expected type and both maps made; it has advanced the counter and added one entry to each
map. -/
theorem Register_inv {V : Type} (c c' : Codec V) (m : Message V) (d : Decoder V)
    (op : Fin 65536) (h : Register c m d = Except.ok (c', op)) :
    c.ser m.typ = none ∧ d.typ = FuncType.decoder m.typ ∧ op = c.counter ∧
      c'.counter = incr c.counter ∧
      (∀ k, c'.ser k = if k = m.typ then some c.counter else c.ser k) ∧
      (∀ k, c'.de k = if k = c.counter then some d else c.de k) ∧
      (c.serMap ≠ none ∧ c.deMap ≠ none) ∧ (c'.serMap ≠ none ∧ c'.deMap ≠ none) := by
  cases hs : c.ser m.typ with
  | some op' => rw [Register_dup c m d op' hs] at h; cases h
  | none =>
    by_cases hd : d.typ = FuncType.decoder m.typ
    · cases hsm : c.serMap with
      | none => rw [(Register_nilMap c m d hs hd).1 hsm] at h; cases h
      | some s =>
        cases hdm : c.deMap with
        | none =>
          rw [(Register_nilMap c m d hs hd).2 (by rw [hsm]; simp) hdm] at h
          cases h
        | some dm =>
          rw [Register_ok c m d hs hd s hsm dm hdm] at h
          cases h
          refine ⟨rfl, hd, rfl, rfl, ?_, ?_, ⟨by simp, by simp⟩, ⟨by simp, by simp⟩⟩
          · intro k
            simp only [Codec.ser, hsm]
          · intro k
            simp only [Codec.de, hdm]
    · rw [Register_badDecoder c m d hs hd] at h; cases h

theorem registerAll_nil {V : Type} (c : Codec V) : registerAll c [] = Except.ok (c, []) := rfl

theorem registerAll_snoc {V : Type} (c : Codec V) (regs : List (Message V × Decoder V))
    (r : Message V × Decoder V) :
    registerAll c (regs ++ [r]) =
      match registerAll c regs with
      | Except.error p => Except.error p
      | Except.ok (c, ops) =>
        match Register c r.1 r.2 with
        | Except.error p => Except.error p
        | Except.ok (c, op) => Except.ok (c, ops ++ [op]) := by
  simp only [registerAll, List.foldl_append, List.foldl_cons, List.foldl_nil]

/-- A sequence of `Register` calls that returns, split at its last call. -/
theorem registerAll_snoc_inv {V : Type} (c c' : Codec V) (regs : List (Message V × Decoder V))
    (r : Message V × Decoder V) (ops : List (Fin 65536))
    (h : registerAll c (regs ++ [r]) = Except.ok (c', ops)) :
    ∃ c1 ops1 op, registerAll c regs = Except.ok (c1, ops1) ∧
      Register c1 r.1 r.2 = Except.ok (c', op) ∧ ops = ops1 ++ [op] := by
  rw [registerAll_snoc] at h
  cases h1 : registerAll c regs with
  | error p => rw [h1] at h; cases h
  | ok res =>
    obtain ⟨c1, ops1⟩ := res
    rw [h1] at h
    cases h2 : Register c1 r.1 r.2 with
    | error p => simp only [h2] at h; cases h
    | ok res2 =>
      obtain ⟨c2, op⟩ := res2
      simp only [h2] at h
      cases h
      exact ⟨c1, ops1, op, rfl, h2, rfl⟩

/-- The state of a codec after a sequence of `Register` calls on a new codec that all
returned: the counter and the op-codes count the calls modulo `2^16`, the types are pairwise
distinct and exactly those with an op-code, each type holds the op-code of its call, and an
op-code holds the decoder of the last call that returned it. -/
theorem registerAll_spec {V : Type} (regs : List (Message V × Decoder V)) (c : Codec V)
    (ops : List (Fin 65536)) (h : registerAll NewCodec regs = Except.ok (c, ops)) :
    c.counter = toUint16 regs.length ∧
    ops = (List.range regs.length).map toUint16 ∧
    (regs.map (fun r => r.1.typ)).Nodup ∧
    (∀ r ∈ regs, r.2.typ = FuncType.decoder r.1.typ) ∧
    (∀ t, c.ser t ≠ none ↔ t ∈ regs.map (fun r => r.1.typ)) ∧
    (∀ i r, regs[i]? = some r → c.ser r.1.typ = some (toUint16 i)) ∧
    (∀ i r, regs[i]? = some r → regs.length ≤ i + 65536 → c.de (toUint16 i) = some r.2) := by
  induction regs using List.reverseRecOn generalizing c ops with
  | nil =>
    rw [registerAll_nil] at h
    cases h
    refine ⟨rfl, rfl, List.nodup_nil, by simp, by simp [NewCodec, Codec.ser], by simp, by simp⟩
  | append_singleton regs r ih =>
    obtain ⟨c1, ops1, op, h1, h2, rfl⟩ := registerAll_snoc_inv _ _ _ _ _ h
    obtain ⟨hcnt, hops, hnd, hdec, hdom, hser, hde⟩ := ih c1 ops1 h1
    obtain ⟨hfresh, hd, rfl, hcnt', hser', hde', -, -⟩ := Register_inv _ _ _ _ _ h2
    have hnew : r.1.typ ∉ regs.map (fun r => r.1.typ) := by
      intro hmem
      exact (hdom _).mpr hmem hfresh
    have hlen : (regs ++ [r]).length = regs.length + 1 := by simp
    refine ⟨?_, ?_, ?_, ?_, ?_, ?_, ?_⟩
    · rw [hcnt', hlen, hcnt, incr_toUint16]
    · rw [hlen, List.range_succ, List.map_append, ← hops, hcnt]
      rfl
    · rw [List.map_append, List.nodup_append]
      refine ⟨hnd, by simp, ?_⟩
      intro t ht ht'
      simp only [List.map_cons, List.map_nil, List.mem_singleton] at ht'
      exact hnew (ht' ▸ ht)
    · intro r' hr'
      rcases List.mem_append.mp hr' with hr' | hr'
      · exact hdec r' hr'
      · rw [List.mem_singleton.mp hr']; exact hd
    · intro t
      rw [hser' t]
      simp only [List.map_append, List.map_cons, List.map_nil, List.mem_append,
        List.mem_singleton]
      by_cases ht : t = r.1.typ
      · simp [ht]
      · simp only [ht, if_false, or_false]
        exact hdom t
    · intro i r' hi
      rw [hser' r'.1.typ]
      by_cases hlt : i < regs.length
      · rw [List.getElem?_append_left hlt] at hi
        have hne : r'.1.typ ≠ r.1.typ := by
          intro heq
          have := hser i r' hi
          rw [heq, hfresh] at this
          cases this
        simp only [hne, if_false]
        exact hser i r' hi
      · have hge : regs.length ≤ i := by omega
        rw [List.getElem?_append_right hge] at hi
        have hi0 : i = regs.length := by
          by_contra hne
          have : i - regs.length ≠ 0 := by omega
          obtain ⟨j, hj⟩ := Nat.exists_eq_succ_of_ne_zero this
          rw [hj] at hi
          simp at hi
        subst hi0
        simp only [Nat.sub_self, List.getElem?_cons_zero, Option.some.injEq] at hi
        subst hi
        simp only [if_true, hcnt]
    · intro i r' hi hbound
      rw [hlen] at hbound
      rw [hde' (toUint16 i)]
      by_cases hlt : i < regs.length
      · rw [List.getElem?_append_left hlt] at hi
        have hne : toUint16 i ≠ c1.counter := by
          rw [hcnt]
          intro heq
          have := congrArg Fin.val heq
          simp only [toUint16_val] at this
          omega
        simp only [hne, if_false]
        exact hde i r' hi (by omega)
      · have hge : regs.length ≤ i := by omega
        rw [List.getElem?_append_right hge] at hi
        have hi0 : i = regs.length := by
          by_contra hne
          have : i - regs.length ≠ 0 := by omega
          obtain ⟨j, hj⟩ := Nat.exists_eq_succ_of_ne_zero this
          rw [hj] at hi
          simp at hi
        subst hi0
        simp only [Nat.sub_self, List.getElem?_cons_zero, Option.some.injEq] at hi
        subst hi
        simp only [hcnt, if_true]

/-- A sequence of `Register` calls that returns leaves both maps made when they were. -/
theorem registerAll_made {V : Type} (c c' : Codec V) (regs : List (Message V × Decoder V))
    (ops : List (Fin 65536)) (h : registerAll c regs = Except.ok (c', ops))
    (hc : c.serMap ≠ none ∧ c.deMap ≠ none) : c'.serMap ≠ none ∧ c'.deMap ≠ none := by
  induction regs using List.reverseRecOn generalizing c' ops with
  | nil =>
    rw [registerAll_nil] at h
    cases h
    exact hc
  | append_singleton regs r ih =>
    obtain ⟨c1, ops1, op1, h1, h2, rfl⟩ := registerAll_snoc_inv _ _ _ _ _ h
    exact (Register_inv _ _ _ _ _ h2).2.2.2.2.2.2.2

/-- Registrations of pairwise distinct types with decoders of the expected types all
return. -/
theorem registerAll_ok {V : Type} (regs : List (Message V × Decoder V))
    (hnd : (regs.map (fun r => r.1.typ)).Nodup)
    (hdec : ∀ r ∈ regs, r.2.typ = FuncType.decoder r.1.typ) :
    ∃ c ops, registerAll NewCodec regs = Except.ok (c, ops) := by
  induction regs using List.reverseRecOn with
  | nil => exact ⟨_, _, registerAll_nil _⟩
  | append_singleton regs r ih =>
    rw [List.map_append, List.nodup_append] at hnd
    obtain ⟨c1, ops1, h1⟩ := ih hnd.1 (fun r' hr' => hdec r' (List.mem_append_left _ hr'))
    have hspec := registerAll_spec regs c1 ops1 h1
    have hfresh : c1.ser r.1.typ = none := by
      by_contra hne
      have hmem := (hspec.2.2.2.2.1 _).mp hne
      exact hnd.2.2 hmem (by simp)
    have hd := hdec r (List.mem_append_right _ (List.mem_singleton_self _))
    have hmade := registerAll_made NewCodec c1 regs ops1 h1
      ⟨by simp [NewCodec], by simp [NewCodec]⟩
    obtain ⟨s, hs⟩ := Option.ne_none_iff_exists'.mp hmade.1
    obtain ⟨dm, hdm⟩ := Option.ne_none_iff_exists'.mp hmade.2
    have hres : registerAll NewCodec (regs ++ [r]) =
        Except.ok (⟨incr c1.counter,
          some (fun k => if k = r.1.typ then some c1.counter else s k),
          some (fun k => if k = c1.counter then some r.2 else dm k)⟩, ops1 ++ [c1.counter]) := by
      rw [registerAll_snoc, h1]
      simp only [Register_ok c1 r.1 r.2 hfresh hd s hs dm hdm]
    exact ⟨_, _, hres⟩

/-- Later `Register` calls keep the op-code of a registered type. -/
theorem registerAll_keeps {V : Type} (c c' : Codec V) (regs : List (Message V × Decoder V))
    (ops : List (Fin 65536)) (h : registerAll c regs = Except.ok (c', ops)) (t : GoType)
    (op : Fin 65536) (ht : c.ser t = some op) : c'.ser t = some op := by
  induction regs using List.reverseRecOn generalizing c' ops with
  | nil =>
    rw [registerAll_nil] at h
    cases h
    exact ht
  | append_singleton regs r ih =>
    obtain ⟨c1, ops1, op1, h1, h2, rfl⟩ := registerAll_snoc_inv _ _ _ _ _ h
    have h3 := ih c1 ops1 h1
    obtain ⟨hfresh, _, _, _, hser', _, _, _⟩ := Register_inv _ _ _ _ _ h2
    have hne : t ≠ r.1.typ := by
      intro heq
      rw [heq, hfresh] at h3
      cases h3
    rw [hser' t]
    simp only [hne, if_false]
    exact h3

/-! ## `Encode` and `Decode` -/

theorem Encode_registered {V : Type} (c : Codec V) (m : Message V) (op : Fin 65536)
    (h : c.ser m.typ.elemIfPtr = some op) :
    Encode c (Serializable.value m) = Except.ok (Except.ok (PutUint16 op ++ m.marshal)) := by
  simp only [Encode, Serializable.typ, Serializable.Marshal, h]

theorem Encode_unregistered {V : Type} (c : Codec V) (m : Message V)
    (h : c.ser m.typ.elemIfPtr = none) :
    Encode c (Serializable.value m) = Except.ok (Except.error Err.opcodeNotRegistered) := by
  simp only [Encode, Serializable.typ, h]

/-- The outcomes of `Encode` for every codec state and every value `msg` of the interface:
a panic for the nil interface; otherwise `Encode` looks up the dynamic type of `msg` when
that is not a pointer type, and the type pointed to when it is; if the type looked up is not
registered, `Encode` returns an error and no bytes; if it is registered with op-code `c`,
`Encode` panics when `msg.Marshal()` does and otherwise returns the two bytes
`[c / 256, c mod 256]` followed by `msg.Marshal()`. -/
theorem Encode_outcomes {V : Type} (c : Codec V) (msg : Serializable V) :
    (msg.typ = none → Encode c msg = Except.error Panic.nilType) ∧
    (∀ t, msg.typ = some t → c.ser t.elemIfPtr = none →
      Encode c msg = Except.ok (Except.error Err.opcodeNotRegistered)) ∧
    (∀ t op, msg.typ = some t → c.ser t.elemIfPtr = some op → msg.Marshal = none →
      Encode c msg = Except.error Panic.marshal) ∧
    (∀ t op bytes, msg.typ = some t → c.ser t.elemIfPtr = some op →
      msg.Marshal = some bytes →
      Encode c msg = Except.ok (Except.ok (PutUint16 op ++ bytes)) ∧
      (PutUint16 op).map Fin.val = [op.val / 256, op.val % 256]) := by
  refine ⟨?_, ?_, ?_, ?_⟩
  · intro h
    simp only [Encode, h]
  · intro t ht h
    simp only [Encode, ht, h]
  · intro t op ht h hm
    simp only [Encode, ht, h, hm]
  · intro t op bytes ht h hm
    exact ⟨by simp only [Encode, ht, h, hm], by simp [PutUint16]⟩

/-- C14: after `Register(&test{}, unmarshalTestPtr)` on a new codec the type `*test` of the
message `&test{data: "hello world"}` is registered with op-code 0, but `Encode` looks up
`test`, which is not registered, and returns an error: `Register` keys the map by the type
as it is and `Encode` by the type with the pointer taken off. On the codec with `test`
registered the same message is encoded under the op-code of `test`, and the nil pointer
`(*test)(nil)` makes `Encode` panic in `msg.Marshal()`. -/
theorem C14_Encode_fails_on_a_registered_pointer_type :
    Register NewCodec (testPtrMsg []) unmarshalTestPtr = Except.ok (exPtrCodec, 0) ∧
    exPtrCodec.ser (testPtrMsg helloWorld).typ = some 0 ∧
    Encode exPtrCodec (Serializable.value (testPtrMsg helloWorld))
      = Except.ok (Except.error Err.opcodeNotRegistered) ∧
    Encode exCodec (Serializable.value (testPtrMsg helloWorld))
      = Except.ok (Except.ok (PutUint16 0 ++ helloWorld)) ∧
    Encode exCodec nilTestPtr = Except.error Panic.marshal :=
  ⟨rfl, rfl, rfl, rfl, rfl⟩

/-- `Decode` on a frame: the op-code bytes and a payload. -/
theorem Decode_frame {V : Type} (c : Codec V) (op : Fin 65536) (data : List Byte) :
    Decode c (PutUint16 op ++ data) =
      match c.de op with
      | none => Except.error Err.opcodeNotRegistered
      | some decoder =>
        match decoder.call data with
        | (_, some err) => Except.error err
        | (msg, none) => Except.ok msg := by
  have h1 : ¬ (PutUint16 op ++ data).length < 2 := by simp [PutUint16]
  have h2 : (PutUint16 op ++ data).take 2 = PutUint16 op := by simp [PutUint16]
  have h3 : (PutUint16 op ++ data).drop 2 = data := by simp [PutUint16]
  simp only [Decode, h1, if_false, h2, h3, Uint16_PutUint16]

theorem toUint16_of_lt (i : Nat) (h : i < 65536) : (toUint16 i).val = i := by
  rw [toUint16_val]
  exact Nat.mod_eq_of_lt h

theorem manyRegs_length (n : Nat) : (manyRegs n).length = n := by
  simp [manyRegs]

theorem manyRegs_getElem? (n i : Nat) (h : i < n) : (manyRegs n)[i]? = some (manyReg i) := by
  rw [manyRegs, List.getElem?_map, List.getElem?_range h]
  rfl

theorem manyRegs_nodup (n : Nat) : ((manyRegs n).map (fun r => r.1.typ)).Nodup := by
  rw [manyRegs, List.map_map]
  apply List.Nodup.map _ (List.nodup_range n)
  intro a b hab
  simpa [manyReg] using hab

theorem manyRegs_decoders (n : Nat) :
    ∀ r ∈ manyRegs n, r.2.typ = FuncType.decoder r.1.typ := by
  intro r hr
  obtain ⟨i, _, rfl⟩ := List.mem_map.mp hr
  rfl

/-- C17, as the code has it: op-codes are assigned from 0 in registration order as long as
the 16-bit counter has not wrapped: for every sequence of at most 65536 successful `Register`
calls on a codec from `NewCodec`, the `i`-th call (counting from 0) returns op-code `i`, the
registered types are pairwise distinct and hold pairwise distinct op-codes, and the decoder
stored under the op-code of a type is the decoder registered with that type. -/
theorem C17_opcodes_in_registration_order {V : Type} (regs : List (Message V × Decoder V))
    (c : Codec V) (ops : List (Fin 65536))
    (h : registerAll NewCodec regs = Except.ok (c, ops)) (hn : regs.length ≤ 65536) :
    ops.map Fin.val = List.range regs.length ∧
    (regs.map (fun r => r.1.typ)).Nodup ∧
    (∀ i r, regs[i]? = some r →
      ∃ op, ops[i]? = some op ∧ op.val = i ∧ c.ser r.1.typ = some op ∧ c.de op = some r.2) ∧
    (∀ (i j : Nat) (ri rj : Message V × Decoder V),
      regs[i]? = some ri → regs[j]? = some rj → i ≠ j →
      ri.1.typ ≠ rj.1.typ ∧ c.ser ri.1.typ ≠ c.ser rj.1.typ) := by
  obtain ⟨_, hops, hnd, _, _, hser, hde⟩ := registerAll_spec regs c ops h
  have hlt : ∀ i r, regs[i]? = some r → i < regs.length := by
    intro i r hi
    exact (List.getElem?_eq_some_iff.mp hi).1
  have hval : ∀ i ∈ List.range regs.length, (toUint16 i).val = i := by
    intro i hi
    exact toUint16_of_lt i (by have := List.mem_range.mp hi; omega)
  refine ⟨?_, hnd, ?_, ?_⟩
  · rw [hops, List.map_map]
    conv_rhs => rw [← List.map_id (List.range regs.length)]
    exact List.map_congr_left (fun i hi => hval i hi)
  · intro i r hi
    have hi' := hlt i r hi
    refine ⟨toUint16 i, ?_, toUint16_of_lt i (by omega), hser i r hi, hde i r hi (by omega)⟩
    rw [hops, List.getElem?_map, List.getElem?_range hi']
    rfl
  · intro i j ri rj hi hj hij
    have hi' := hlt i ri hi
    have hj' := hlt j rj hj
    constructor
    · intro heq
      have h1 := hser i ri hi
      have h2 := hser j rj hj
      rw [heq, h2] at h1
      have := congrArg Fin.val (Option.some.inj h1)
      rw [toUint16_of_lt i (by omega), toUint16_of_lt j (by omega)] at this
      exact hij this.symm
    · rw [hser i ri hi, hser j rj hj]
      intro heq
      have := congrArg Fin.val (Option.some.inj heq)
      rw [toUint16_of_lt i (by omega), toUint16_of_lt j (by omega)] at this
      exact hij this

theorem C17_witness :
    [(testMsg [], unmarshalTest), (test2Msg [], unmarshalTest2)].length ≤ 65536 ∧
    ([(0 : Fin 65536), 1].map Fin.val
        = List.range [(testMsg [], unmarshalTest), (test2Msg [], unmarshalTest2)].length) ∧
    ([(testMsg [], unmarshalTest), (test2Msg [], unmarshalTest2)].map
      (fun r => r.1.typ)).Nodup :=
  ⟨by decide,
    (C17_opcodes_in_registration_order
      [(testMsg [], unmarshalTest), (test2Msg [], unmarshalTest2)]
      ⟨2, some (fun k => if k = test2Type then some 1 else if k = testType then some 0
          else none),
        some (fun k => if k = 1 then some unmarshalTest2 else if k = 0 then some unmarshalTest
          else none)⟩
      [0, 1] rfl (by decide)).1,
    (C17_opcodes_in_registration_order
      [(testMsg [], unmarshalTest), (test2Msg [], unmarshalTest2)]
      ⟨2, some (fun k => if k = test2Type then some 1 else if k = testType then some 0
          else none),
        some (fun k => if k = 1 then some unmarshalTest2 else if k = 0 then some unmarshalTest
          else none)⟩
      [0, 1] rfl (by decide)).2.1⟩

/-- C17 fails once the 16-bit counter wraps: the 65537 `Register` calls `manyRegs 65537`
(pairwise distinct types, decoders of the expected types) on a new codec all return, and
the call number 65536 returns op-code 0, not 65536. The first and the last type then both
hold op-code 0, and the decoder stored under op-code 0 is the one registered with the last
type, not the one registered with the first. -/
theorem C17_counterexample :
    ∃ c ops, registerAll NewCodec (manyRegs 65537) = Except.ok (c, ops) ∧
      (manyRegs 65537).length = 65537 ∧
      ops[65536]? = some 0 ∧
      c.ser (manyReg 0).1.typ = some 0 ∧ c.ser (manyReg 65536).1.typ = some 0 ∧
      (manyReg 0).1.typ ≠ (manyReg 65536).1.typ ∧
      c.de 0 = some (manyReg 65536).2 ∧
      (manyReg 65536).2.typ ≠ (manyReg 0).2.typ := by
  obtain ⟨c, ops, h⟩ := registerAll_ok (manyRegs 65537) (manyRegs_nodup _) (manyRegs_decoders _)
  obtain ⟨_, hops, _, _, _, hser, hde⟩ := registerAll_spec _ c ops h
  have h0 := manyRegs_getElem? 65537 0 (by decide)
  have hlast := manyRegs_getElem? 65537 65536 (by decide)
  have hz : toUint16 65536 = 0 := rfl
  refine ⟨c, ops, h, manyRegs_length _, ?_, ?_, ?_, by decide, ?_, by decide⟩
  · rw [hops, manyRegs_length, List.getElem?_map, List.getElem?_range (by decide)]
    rfl
  · exact hser 0 _ h0
  · rw [← hz]
    exact hser 65536 _ hlast
  · rw [← hz]
    exact hde 65536 _ hlast (by rw [manyRegs_length]; decide)

/-! ## Round trip -/

/-- C15, as the code has it: `Decode` undoes `Encode` for the types `Encode` can look up,
as long as the 16-bit counter has not wrapped: for every codec reached from `NewCodec` by a
sequence of at most 65536 successful `Register` calls, every registered message type `M`
that is not a pointer type and whose registered decoder satisfies
`decoder(m.Marshal()) = (m, nil)`, and every value `m` of `M`: `Encode(m)` succeeds and
`Decode(Encode(m))` returns `m` without error. -/
theorem C15_Decode_undoes_Encode {V : Type} (regs : List (Message V × Decoder V))
    (c : Codec V) (ops : List (Fin 65536))
    (h : registerAll NewCodec regs = Except.ok (c, ops)) (hn : regs.length ≤ 65536)
    (r : Message V × Decoder V) (hr : r ∈ regs) (m : Message V) (hty : m.typ = r.1.typ)
    (hnp : ∀ elem, m.typ ≠ GoType.ptr elem) (hdec : r.2.call m.marshal = (m, none)) :
    ∃ bytes, Encode c (Serializable.value m) = Except.ok (Except.ok bytes) ∧
      Decode c bytes = Except.ok m := by
  obtain ⟨_, _, _, _, _, hser, hde⟩ := registerAll_spec regs c ops h
  obtain ⟨i, hi⟩ := List.mem_iff_getElem?.mp hr
  have hel : m.typ.elemIfPtr = m.typ := by
    cases hm : m.typ with
    | named n => rfl
    | ptr elem => exact absurd hm (hnp elem)
  have henc : Encode c (Serializable.value m)
      = Except.ok (Except.ok (PutUint16 (toUint16 i) ++ m.marshal)) := by
    apply Encode_registered
    rw [hel, hty]
    exact hser i r hi
  refine ⟨_, henc, ?_⟩
  rw [Decode_frame, hde i r hi (by omega)]
  simp only [hdec]

theorem C15_witness :
    ∃ bytes, Encode exCodec (Serializable.value (testMsg helloWorld))
        = Except.ok (Except.ok bytes) ∧
      Decode exCodec bytes = Except.ok (testMsg helloWorld) :=
  C15_Decode_undoes_Encode [(testMsg [], unmarshalTest)] exCodec [0] rfl (by decide)
    (testMsg [], unmarshalTest) (List.mem_singleton_self _) (testMsg helloWorld) rfl
    (by intro elem h; cases h) rfl

/-- C15 fails in two ways. After `Register(&test{}, unmarshalTestPtr)` on a new codec the
pointer type `*test` is registered and its decoder returns `m` on `m.Marshal()`, but
`Encode(m)` fails for `m = &test{data: "hello world"}`, because `Encode` looks up `test`.
After the 65537 `Register` calls `manyRegs 65537` the 16-bit counter has wrapped: the message
of the first type is encoded with op-code 0 and `Decode` of these bytes returns the message
of the last type, because the last registration has replaced the decoder under op-code 0. -/
theorem C15_counterexample :
    (registerAll NewCodec [(testPtrMsg [], unmarshalTestPtr)] = Except.ok (exPtrCodec, [0]) ∧
      unmarshalTestPtr.call (testPtrMsg helloWorld).marshal = (testPtrMsg helloWorld, none) ∧
      Encode exPtrCodec (Serializable.value (testPtrMsg helloWorld))
        = Except.ok (Except.error Err.opcodeNotRegistered)) ∧
    (∃ c ops, registerAll NewCodec (manyRegs 65537) = Except.ok (c, ops) ∧
      manyReg 0 ∈ manyRegs 65537 ∧
      (manyReg 0).2.call (manyReg 0).1.marshal = ((manyReg 0).1, none) ∧
      Encode c (Serializable.value (manyReg 0).1)
        = Except.ok (Except.ok (PutUint16 0 ++ (manyReg 0).1.marshal)) ∧
      Decode c (PutUint16 0 ++ (manyReg 0).1.marshal) = Except.ok (manyReg 65536).1 ∧
      (manyReg 65536).1.typ ≠ (manyReg 0).1.typ) := by
  refine ⟨⟨rfl, rfl, rfl⟩, ?_⟩
  obtain ⟨c, ops, h⟩ := registerAll_ok (manyRegs 65537) (manyRegs_nodup _) (manyRegs_decoders _)
  obtain ⟨_, _, _, _, _, hser, hde⟩ := registerAll_spec _ c ops h
  have h0 := manyRegs_getElem? 65537 0 (by decide)
  have hlast := manyRegs_getElem? 65537 65536 (by decide)
  have hz : toUint16 65536 = 0 := rfl
  have hde0 : c.de 0 = some (manyReg 65536).2 := by
    rw [← hz]
    exact hde 65536 _ hlast (by rw [manyRegs_length]; decide)
  refine ⟨c, ops, h, List.mem_iff_getElem?.mpr ⟨0, h0⟩, rfl, ?_, ?_, by decide⟩
  · exact Encode_registered c _ 0 (hser 0 _ h0)
  · rw [Decode_frame, hde0]
    rfl

/-! ## Duplicate registration -/

/-- C18, as the code has it: for every codec state and every message whose type is already
registered in it, a `Register` call with that message panics instead of returning an
op-code, and it still does so after any further successful `Register` calls (of other types)
in between; a `Register` call with a message of a type not yet registered and a decoder of
the expected type returns when the two maps of the codec have been made, as they are in
every codec that `NewCodec` has made, whatever was registered since. -/
theorem C18_duplicate_registration_panics {V : Type} (c : Codec V) (m : Message V)
    (d : Decoder V) :
    (∀ op, c.ser m.typ = some op →
      Register c m d = Except.error (Panic.alreadyRegistered m.typ op)) ∧
    (∀ op regs c' ops, c.ser m.typ = some op → registerAll c regs = Except.ok (c', ops) →
      Register c' m d = Except.error (Panic.alreadyRegistered m.typ op)) ∧
    (c.serMap ≠ none → c.deMap ≠ none → c.ser m.typ = none →
      d.typ = FuncType.decoder m.typ → ∃ c' op, Register c m d = Except.ok (c', op)) ∧
    (∀ regs c' ops, registerAll NewCodec regs = Except.ok (c', ops) → c'.ser m.typ = none →
      d.typ = FuncType.decoder m.typ → ∃ c'' op, Register c' m d = Except.ok (c'', op)) := by
  refine ⟨fun op h => Register_dup c m d op h, ?_, ?_, ?_⟩
  · intro op regs c' ops hop hall
    exact Register_dup c' m d op (registerAll_keeps c c' regs ops hall m.typ op hop)
  · intro hs hdm hfresh hd
    obtain ⟨s, hs'⟩ := Option.ne_none_iff_exists'.mp hs
    obtain ⟨dm, hdm'⟩ := Option.ne_none_iff_exists'.mp hdm
    exact ⟨_, _, Register_ok c m d hfresh hd s hs' dm hdm'⟩
  · intro regs c' ops hall hfresh hd
    have hmade := registerAll_made NewCodec c' regs ops hall
      ⟨by simp [NewCodec], by simp [NewCodec]⟩
    obtain ⟨s, hs'⟩ := Option.ne_none_iff_exists'.mp hmade.1
    obtain ⟨dm, hdm'⟩ := Option.ne_none_iff_exists'.mp hmade.2
    exact ⟨_, _, Register_ok c' m d hfresh hd s hs' dm hdm'⟩

theorem C18_witness :
    Register exCodec (testMsg []) unmarshalTest
      = Except.error (Panic.alreadyRegistered testType 0) ∧
    (∃ c' ops, registerAll exCodec [(test2Msg [], unmarshalTest2)] = Except.ok (c', ops) ∧
      Register c' (testMsg []) unmarshalTest
        = Except.error (Panic.alreadyRegistered testType 0)) ∧
    (∃ c' op, Register exCodec (test2Msg []) unmarshalTest2 = Except.ok (c', op)) ∧
    (registerAll NewCodec [(testMsg [], unmarshalTest)] = Except.ok (exCodec, [0]) ∧
      ∃ c'' op, Register exCodec (test2Msg []) unmarshalTest2 = Except.ok (c'', op)) :=
  ⟨(C18_duplicate_registration_panics exCodec (testMsg []) unmarshalTest).1 0 rfl,
    ⟨_, _, rfl,
      (C18_duplicate_registration_panics exCodec (testMsg []) unmarshalTest).2.1 0
        [(test2Msg [], unmarshalTest2)] _ _ rfl rfl⟩,
    (C18_duplicate_registration_panics exCodec (test2Msg []) unmarshalTest2).2.2.1
      (by simp [exCodec]) (by simp [exCodec]) rfl rfl,
    ⟨rfl, (C18_duplicate_registration_panics exCodec (test2Msg []) unmarshalTest2).2.2.2
      [(testMsg [], unmarshalTest)] exCodec [0] rfl rfl rfl⟩⟩

/-- C18 fails on the zero value `Codec{}`: no type is registered in it and the decoder has
the expected type, but `Register` panics at `c.ser[t] = c.counter`, an assignment to an
entry of a nil map. -/
theorem C18_counterexample :
    (zeroCodec : Codec (List Byte)).ser (testMsg []).typ = none ∧
    unmarshalTest.typ = FuncType.decoder (testMsg []).typ ∧
    Register zeroCodec (testMsg []) unmarshalTest = Except.error Panic.nilMapSer :=
  ⟨rfl, rfl, rfl⟩

end Common

namespace Metrics

/-! ## The length of `Query` -/

/-- The lookup `m[key]` gives `nil` exactly when `key` is not a key of the map. -/
theorem mapGet_eq_none (key : String) (m : List (String × Nat)) :
    mapGet key m = none ↔ key ∉ m.map Prod.fst := by
  induction m with
  | nil => simp [mapGet]
  | cons kv rest ih =>
    obtain ⟨k, v⟩ := kv
    simp only [mapGet, List.map_cons, List.mem_cons, not_or]
    split_ifs with h
    · simp [h]
    · simp only [ih, true_and, iff_and_self]
      intro _ heq
      exact h heq.symm

theorem mapDelete_sublist (key : String) (m : List (String × Nat)) :
    (mapDelete key m).Sublist m := by
  induction m with
  | nil => exact List.Sublist.refl _
  | cons kv rest ih =>
    obtain ⟨k, v⟩ := kv
    simp only [mapDelete]
    split_ifs
    · exact List.sublist_cons_self _ _
    · exact ih.cons₂ _

theorem mapDelete_length (key : String) (m : List (String × Nat)) :
    m.length ≤ (mapDelete key m).length + 1 := by
  induction m with
  | nil => simp [mapDelete]
  | cons kv rest ih =>
    obtain ⟨k, v⟩ := kv
    simp only [mapDelete]
    split_ifs
    · simp
    · simp only [List.length_cons]; omega

/-- What `insert` does to the map and to `k`; the heap and `min` decide only which key the
last case deletes. -/
theorem insert_mon (s : Stream) (el : Element) :
    (s.insert el).k = s.k ∧
    (el.Value ∈ s.mon.map Prod.fst → (s.insert el).mon = s.mon) ∧
    (el.Value ∉ s.mon.map Prod.fst → (s.mon.length : Int) < wrapInt ((s.k : Int) + 1) →
      (s.insert el).mon = s.mon ++ [(el.Value, s.heap.length)]) ∧
    (el.Value ∉ s.mon.map Prod.fst → ¬ (s.mon.length : Int) < wrapInt ((s.k : Int) + 1) →
      (s.insert el).mon = mapDelete (s.deref s.min).Value s.mon) := by
  cases hg : mapGet el.Value s.mon with
  | some e =>
    have hin : el.Value ∈ s.mon.map Prod.fst := by
      by_contra hn
      rw [(mapGet_eq_none _ _).mpr hn] at hg
      cases hg
    simp only [Stream.insert, hg]
    refine ⟨?_, ?_, fun h => absurd hin h, fun h => absurd hin h⟩
    · split_ifs <;> rfl
    · intro _; split_ifs <;> rfl
  | none =>
    have hnot : el.Value ∉ s.mon.map Prod.fst := (mapGet_eq_none _ _).mp hg
    by_cases hlen : (s.mon.length : Int) < wrapInt ((s.k : Int) + 1)
    · simp only [Stream.insert, hg, hlen, if_true]
      refine ⟨?_, fun h => absurd h hnot, ?_, fun _ h => absurd trivial h⟩
      · split_ifs <;> rfl
      · intro _ _; split_ifs <;> rfl
    · simp only [Stream.insert, hg, hlen, if_false]
      refine ⟨?_, fun h => absurd h hnot, fun _ h => h.elim, ?_⟩
      · split_ifs <;> rfl
      · intro _ _; split_ifs <;> rfl

theorem insertAll_snoc (s : Stream) (xs : List String) (x : String) :
    insertAll s (xs ++ [x]) = (insertAll s xs).Insert x := by
  simp [insertAll, List.foldl_append]

theorem length_le_dedup_length (keys xs : List String) (hn : keys.Nodup)
    (hsub : ∀ x ∈ keys, x ∈ xs) : keys.length ≤ xs.dedup.length :=
  (List.subperm_of_subset hn (fun x hx => List.mem_dedup.mpr (hsub x hx))).length_le

theorem wrapInt_succ (k : Nat) (hk : k < MaxInt) : wrapInt ((k : Int) + 1) = (k : Int) + 1 := by
  have h : k < 9223372036854775807 := hk
  simp only [wrapInt, IntSize]
  norm_num
  omega

/-- The map after a sequence of `Insert` calls on a new stream with `k < MaxInt`: its keys are pairwise
distinct values that were inserted, at most `k + 1` of them; and either every inserted value
is a key, or more than `k` distinct values were inserted and the map holds at least `k`
keys. -/
theorem insertAll_mon (k : Nat) (hmax : k < MaxInt) (xs : List String) :
    (insertAll (NewStream k) xs).k = k ∧
    ((insertAll (NewStream k) xs).mon.map Prod.fst).Nodup ∧
    (∀ x ∈ (insertAll (NewStream k) xs).mon.map Prod.fst, x ∈ xs) ∧
    (insertAll (NewStream k) xs).mon.length ≤ k + 1 ∧
    ((∀ x ∈ xs, x ∈ (insertAll (NewStream k) xs).mon.map Prod.fst) ∨
      (k + 1 ≤ xs.dedup.length ∧ k ≤ (insertAll (NewStream k) xs).mon.length)) := by
  induction xs using List.reverseRecOn with
  | nil => simp [insertAll, NewStream]
  | append_singleton xs x ih =>
    obtain ⟨hk, hnd, hsub, hle, hcase⟩ := ih
    rw [insertAll_snoc]
    generalize insertAll (NewStream k) xs = s at hk hnd hsub hle hcase
    obtain ⟨hk', hsame, hnew, hfull⟩ := insert_mon s ⟨x, 1⟩
    have hmono : xs.dedup.length ≤ (xs ++ [x]).dedup.length :=
      length_le_dedup_length _ _ (List.nodup_dedup xs)
        (fun y hy => List.mem_append_left _ (List.mem_dedup.mp hy))
    simp only [Stream.Insert]
    by_cases hin : x ∈ s.mon.map Prod.fst
    · rw [hsame hin]
      refine ⟨hk'.trans hk, hnd, fun y hy => List.mem_append_left _ (hsub y hy), hle, ?_⟩
      rcases hcase with hall | ⟨h1, h2⟩
      · left
        intro y hy
        rcases List.mem_append.mp hy with hy | hy
        · exact hall y hy
        · rw [List.mem_singleton.mp hy]; exact hin
      · exact Or.inr ⟨by omega, h2⟩
    · have hw : wrapInt ((s.k : Int) + 1) = (s.k : Int) + 1 := by
        rw [hk]
        exact wrapInt_succ k hmax
      by_cases hlen : s.mon.length < s.k + 1
      · rw [hnew hin (by rw [hw]; exact_mod_cast hlen)]
        refine ⟨hk'.trans hk, ?_, ?_, ?_, ?_⟩
        · rw [List.map_append, List.nodup_append]
          refine ⟨hnd, by simp, ?_⟩
          intro y hy hy'
          simp only [List.map_cons, List.map_nil, List.mem_singleton] at hy'
          exact hin (hy' ▸ hy)
        · intro y hy
          simp only [List.map_append, List.map_cons, List.map_nil, List.mem_append,
            List.mem_singleton] at hy ⊢
          rcases hy with hy | hy
          · exact Or.inl (hsub y hy)
          · exact Or.inr hy
        · simp only [List.length_append, List.length_singleton]; omega
        · rcases hcase with hall | ⟨h1, h2⟩
          · left
            intro y hy
            simp only [List.map_append, List.map_cons, List.map_nil, List.mem_append,
              List.mem_singleton] at hy ⊢
            rcases hy with hy | hy
            · exact Or.inl (hall y hy)
            · exact Or.inr hy
          · right
            simp only [List.length_append, List.length_singleton]
            exact ⟨by omega, by omega⟩
      · rw [hfull hin (by rw [hw]; exact_mod_cast hlen)]
        have hsl := mapDelete_sublist (s.deref s.min).Value s.mon
        have hdl := mapDelete_length (s.deref s.min).Value s.mon
        have hkeys : s.k + 1 ≤ xs.dedup.length := by
          have := length_le_dedup_length _ _ hnd hsub
          rw [List.length_map] at this
          omega
        refine ⟨hk'.trans hk, hnd.sublist (hsl.map _), ?_, ?_, ?_⟩
        · intro y hy
          exact List.mem_append_left _ (hsub y ((hsl.map _).subset hy))
        · have := hsl.length_le
          omega
        · right
          exact ⟨by omega, by omega⟩

/-- C24, as the code has it: for every `0 ≤ k < MaxInt`, so that the sum `s.k+1` of `insert`
does not wrap, and every sequence of `Insert` calls on a stream created with parameter `k`,
the length of `Query()` is the minimum of `k` and the number of distinct values inserted so
far. -/
theorem C24_Query_length (k : Nat) (hk : k < MaxInt) (xs : List String) :
    ((insertAll (NewStream k) xs).Query).length = min k xs.dedup.length ∧
    xs.dedup.length = xs.toFinset.card := by
  obtain ⟨hk', hnd, hsub, hle, hcase⟩ := insertAll_mon k hk xs
  refine ⟨?_, (List.card_toFinset xs).symm⟩
  have hq : ((insertAll (NewStream k) xs).Query).length
      = min k (insertAll (NewStream k) xs).mon.length := by
    simp only [Stream.Query, hk']
    split_ifs with h
    · simp only [List.length_insertionSort, List.length_map] at h ⊢
      omega
    · simp only [List.length_take, List.length_insertionSort, List.length_map]
  rw [hq]
  have hup := length_le_dedup_length _ _ hnd hsub
  rw [List.length_map] at hup
  rcases hcase with hall | ⟨h1, h2⟩
  · have hdown : xs.dedup.length ≤ ((insertAll (NewStream k) xs).mon.map Prod.fst).length :=
      (List.subperm_of_subset (List.nodup_dedup xs)
        (fun y hy => hall y (List.mem_dedup.mp hy))).length_le
    rw [List.length_map] at hdown
    omega
  · omega

/-- The test `TestQuery`: with `k = 2`, inserting `a`, `b`, `c` gives the lengths 1, 2, 2. -/
theorem C24_witness :
    2 < MaxInt ∧
    ((insertAll (NewStream 2) ["a"]).Query).length = 1 ∧
    ((insertAll (NewStream 2) ["a", "b"]).Query).length = 2 ∧
    ((insertAll (NewStream 2) ["a", "b", "c"]).Query).length = 2 :=
  ⟨by decide, (C24_Query_length 2 (by decide) ["a"]).1.trans (by decide),
    (C24_Query_length 2 (by decide) ["a", "b"]).1.trans (by decide),
    (C24_Query_length 2 (by decide) ["a", "b", "c"]).1.trans (by decide)⟩

/-- C24 fails for `k = MaxInt`: the sum `s.k+1` wraps to the smallest `int`, so `insert`
never finds `len(s.mon) < s.k+1`, stores no key, and `Query()` stays empty although one
distinct value was inserted. -/
theorem C24_counterexample :
    wrapInt ((MaxInt : Int) + 1) = -9223372036854775808 ∧
    (insertAll (NewStream MaxInt) ["a"]).mon = [] ∧
    ((insertAll (NewStream MaxInt) ["a"]).Query).length = 0 ∧
    min MaxInt ["a"].dedup.length = 1 := by
  refine ⟨by decide, by decide, by decide, by decide⟩

end Metrics
